import Mathlib

/-!
# ogc-uda-data-publisher: entity parser and GeoJSON projection

A shallow embedding of `model.go` (Context, URI canonicalisation, the streaming
entity parser) and of the projection half of `main.go` (`convertToFeatures`,
`stripUrl`, `makeGeomentryFromEntity`), followed by theorems about them.

Modelling conventions

* Go strings are Lean `String`s.  The source only searches for the one-byte
  separators `:`, `#`, `/` and for ASCII prefixes, so on valid UTF-8 the byte
  level functions of package `strings` agree with the character level ones used
  here; `strings.Split`, `strings.Contains` and `strings.LastIndex` are embedded
  for a one-character separator, which is how the source calls them.
* A Go `map[string]T` is an association list with distinct keys (`GoMap`):
  `store` overwrites in place or appends, `lookup` is the comma-ok read, and
  `range` visits the entries in list order (Go leaves the order unspecified).
* A Go function result `(T, error)` together with the possibility of a run-time
  panic is a `Res T`: `ok`, `error`, or `panic`.  Loops of the parser are
  recursive functions on a fuel counter; `outOfFuel` is the result of a loop that
  was cut off, and `Parse` supplies more fuel than there are tokens.
* `float64` values are the rationals they denote; they are only carried around,
  except for the `uint64(...)` conversion of `recorded`.
-/

set_option autoImplicit false

/-! ## Go runtime: errors, results, maps, strings -/

/-- A Go `error` value: `io.EOF`, `errors.New msg`, or `fmt.Errorf` wrapping
an inner error with `%w` (the format string is kept with its `%s` arguments
substituted). -/
inductive GoError where
  | EOF
  | New (msg : String)
  | Wrap (format : String) (inner : GoError)
  deriving DecidableEq, Repr

/-- The outcome of running a Go function: a returned value, a returned error, a
run-time panic, or a loop cut off by the fuel counter of the embedding. -/
inductive Res (α : Type) where
  | ok (a : α)
  | error (e : GoError)
  | panic (msg : String)
  | outOfFuel
  deriving DecidableEq, Repr

/-- A Go `map[string]V`. -/
abbrev GoMap (V : Type) := List (String × V)

namespace GoMap

variable {V : Type}

/-- The comma-ok read `v, found := m[k]`. -/
def lookup : GoMap V → String → Option V
  | [], _ => none
  | (k', v) :: m, k => if k' = k then some v else lookup m k

/-- The assignment `m[k] = v`. -/
def store : GoMap V → String → V → GoMap V
  | [], k, v => [(k, v)]
  | (k', v') :: m, k, v => if k' = k then (k, v) :: m else (k', v') :: store m k v

end GoMap

namespace strings

/-- Go `strings.HasPrefix`. -/
def HasPrefix (s p : String) : Bool := p.data.isPrefixOf s.data

/-- Go `strings.Contains s sep` for a one-character separator. -/
def Contains (s : String) (sep : Char) : Bool := s.data.elem sep

/-- The pieces of a character list between the occurrences of `sep`. -/
def splitChars (sep : Char) : List Char → List (List Char)
  | [] => [[]]
  | c :: cs =>
    if c = sep then [] :: splitChars sep cs
    else match splitChars sep cs with
      | [] => [[c]]
      | p :: ps => (c :: p) :: ps

/-- Go `strings.Split s sep` for a one-character separator. -/
def Split (s : String) (sep : Char) : List String :=
  (splitChars sep s.data).map String.mk

/-- The characters after the last occurrence of `sep`, if there is one. -/
def afterLastChars (sep : Char) : List Char → Option (List Char)
  | [] => none
  | c :: cs =>
    match afterLastChars sep cs with
    | some r => some r
    | none => if c = sep then some cs else none

/-- Go `strings.LastIndex s sep` for a one-character separator: the position of
the last occurrence, or `-1`. -/
def LastIndex (s : String) (sep : Char) : Int :=
  match afterLastChars sep s.data with
  | some r => (s.data.length : Int) - r.length - 1
  | none => -1

/-- The slice expression `s[i:]`. -/
def sliceFrom (s : String) (i : Int) : String := String.mk (s.data.drop i.toNat)

end strings

/-! ## Context (`model.go`) -/

/-- Go `Context`: the two namespace tables. -/
structure Context where
  prefixToExpansionMappings : GoMap String
  expansionToPrefixMappings : GoMap String
  deriving DecidableEq, Repr

/-- Go `NewContext`. -/
def NewContext : Context := ⟨[], []⟩

namespace Context

/-- Go `Context.GetNamespaceExpansionForPrefix`. -/
def GetNamespaceExpansionForPrefix (aContext : Context) (pfx : String) : Res String :=
  match aContext.prefixToExpansionMappings.lookup pfx with
  | some expansion => Res.ok expansion
  | none => Res.error (GoError.New ("no expansion for prefix: " ++ pfx))

/-- Go `Context.GetPrefixForExpansion`. -/
def GetPrefixForExpansion (aContext : Context) (expansion : String) : Res String :=
  match aContext.expansionToPrefixMappings.lookup expansion with
  | some pfx => Res.ok pfx
  | none => Res.error (GoError.New ("no expansion for prefix: " ++ expansion))

/-- Go `Context.StorePrefixExpansionMapping`. -/
def StorePrefixExpansionMapping (aContext : Context) (pfx expansion : String) : Context :=
  { prefixToExpansionMappings := aContext.prefixToExpansionMappings.store pfx expansion
    expansionToPrefixMappings := aContext.expansionToPrefixMappings.store expansion pfx }

end Context

/-! ## URI canonicalisation (`model.go`) -/

/-- Go `isFullURI`. -/
def isFullURI (value : String) : Bool :=
  strings.HasPrefix value "https://" || strings.HasPrefix value "http://"

/-- Go `isCURIE`: `(true, parts[0], parts[1])` exactly when the value is not a
full URI and `strings.Split(value, ":")` has two parts. -/
def isCURIE (value : String) : Bool × String × String :=
  if isFullURI value then (false, "", "")
  else
    match strings.Split value ':' with
    | [p0, p1] => (true, p0, p1)
    | _ => (false, "", "")

/-- Go `EntityParser.produceCanonicalURI`.  The receiver is read only through
`esp.entityCollection.Context`, which is the argument `ctx`. -/
def produceCanonicalURI (ctx : Context) (value : String) : Res String :=
  if isFullURI value then Res.ok value
  else
    match isCURIE value with
    | (true, pfx, postfix_) =>
      match ctx.GetNamespaceExpansionForPrefix pfx with
      | Res.ok expansion => Res.ok (expansion ++ postfix_)
      | Res.error err => Res.error err
      | Res.panic msg => Res.panic msg
      | Res.outOfFuel => Res.outOfFuel
    | (false, _, _) =>
      match ctx.GetNamespaceExpansionForPrefix "_" with
      | Res.ok expansion => Res.ok (expansion ++ value)
      | Res.error err => Res.error err
      | Res.panic msg => Res.panic msg
      | Res.outOfFuel => Res.outOfFuel

namespace Context

/-- One pass of the `range` loops of `Context.Merge` over the entries of the other
table: an entry whose key is present with a different value stops the loop with
the error, an entry whose key is absent is added. -/
def mergeInto : GoMap String → GoMap String → GoMap String × Option GoError
  | mine, [] => (mine, none)
  | mine, (k, m) :: other =>
    match mine.lookup k with
    | some v =>
      if v ≠ m then
        (mine, some (GoError.New (k ++ " is already mapped to another value " ++ v)))
      else mergeInto mine other
    | none => mergeInto (mine.store k m) other

/-- Go `Context.Merge`: the updated receiver and the returned error. -/
def Merge (aContext other : Context) : Context × Option GoError :=
  match mergeInto aContext.expansionToPrefixMappings other.expansionToPrefixMappings with
  | (e2p, some err) => ({ aContext with expansionToPrefixMappings := e2p }, some err)
  | (e2p, none) =>
    match mergeInto aContext.prefixToExpansionMappings other.prefixToExpansionMappings with
    | (p2e, err) =>
      ({ prefixToExpansionMappings := p2e, expansionToPrefixMappings := e2p }, err)

end Context

/-! ## JSON tokens and decoded values (`encoding/json`) -/

/-- Go `float64`, as the rational it denotes. -/
abbrev Float64 := ℚ

/-- The conversion `uint64(f)` of a `float64`: truncation toward zero, reduced
to 64 bits (Go leaves the result for a negative or too large `f` to the
implementation). -/
def uint64 (f : Float64) : Nat := (Int.tdiv f.num f.den).toNat % 2 ^ 64

namespace json

/-- Go `json.Delim`: one of `[ ] { }`. -/
inductive Delim where
  | lbrack
  | rbrack
  | lbrace
  | rbrace
  deriving DecidableEq, Repr

/-- Go `json.Token`, what `Decoder.Token` returns: a delimiter, a string (an
object key or a string value), a number, a boolean, or `nil` for `null`. -/
inductive Token where
  | delim (d : Delim)
  | str (s : String)
  | num (f : Float64)
  | bool (b : Bool)
  | null
  deriving DecidableEq, Repr

end json

open json in
/-- A JSON text.  An object is the list of its members in the order written. -/
inductive JSON where
  | null
  | bool (b : Bool)
  | num (f : Float64)
  | str (s : String)
  | arr (xs : List JSON)
  | obj (kvs : List (String × JSON))

open json

mutual
/-- The tokens `Decoder.Token` yields while reading a JSON text (commas and
colons are skipped by the decoder). -/
def JSON.tokens : JSON → List Token
  | .null => [Token.null]
  | .bool b => [Token.bool b]
  | .num f => [Token.num f]
  | .str s => [Token.str s]
  | .arr xs => Token.delim Delim.lbrack :: (JSON.tokensList xs ++ [Token.delim Delim.rbrack])
  | .obj kvs => Token.delim Delim.lbrace :: (JSON.tokensFields kvs ++ [Token.delim Delim.rbrace])
/-- The tokens of the elements of an array. -/
def JSON.tokensList : List JSON → List Token
  | [] => []
  | x :: xs => x.tokens ++ JSON.tokensList xs
/-- The tokens of the members of an object. -/
def JSON.tokensFields : List (String × JSON) → List Token
  | [] => []
  | (k, v) :: kvs => Token.str k :: (v.tokens ++ JSON.tokensFields kvs)
end

mutual
/-- Reading one complete JSON value off the token stream, as `Decoder.Decode`
does: the value and the tokens after it.  A stream that ends inside the value or
does not start a value is an error. -/
def readValue : Nat → List Token → Res (JSON × List Token)
  | 0, _ => Res.outOfFuel
  | _ + 1, [] => Res.error GoError.EOF
  | fuel + 1, t :: ts =>
    match t with
    | Token.null => Res.ok (JSON.null, ts)
    | Token.bool b => Res.ok (JSON.bool b, ts)
    | Token.num f => Res.ok (JSON.num f, ts)
    | Token.str s => Res.ok (JSON.str s, ts)
    | Token.delim Delim.lbrack =>
      match readElems fuel ts with
      | Res.ok (xs, rest) => Res.ok (JSON.arr xs, rest)
      | Res.error e => Res.error e
      | Res.panic m => Res.panic m
      | Res.outOfFuel => Res.outOfFuel
    | Token.delim Delim.lbrace =>
      match readFields fuel ts with
      | Res.ok (kvs, rest) => Res.ok (JSON.obj kvs, rest)
      | Res.error e => Res.error e
      | Res.panic m => Res.panic m
      | Res.outOfFuel => Res.outOfFuel
    | Token.delim _ => Res.error (GoError.New "invalid character looking for beginning of value")
/-- Reading the elements of an array up to and including its `]`. -/
def readElems : Nat → List Token → Res (List JSON × List Token)
  | 0, _ => Res.outOfFuel
  | _ + 1, [] => Res.error (GoError.New "unexpected EOF")
  | fuel + 1, t :: ts =>
    if t = Token.delim Delim.rbrack then Res.ok ([], ts)
    else
      match readValue fuel (t :: ts) with
      | Res.ok (x, rest) =>
        match readElems fuel rest with
        | Res.ok (xs, rest') => Res.ok (x :: xs, rest')
        | Res.error e => Res.error e
        | Res.panic m => Res.panic m
        | Res.outOfFuel => Res.outOfFuel
      | Res.error e => Res.error e
      | Res.panic m => Res.panic m
      | Res.outOfFuel => Res.outOfFuel
/-- Reading the members of an object up to and including its `}`. -/
def readFields : Nat → List Token → Res (List (String × JSON) × List Token)
  | 0, _ => Res.outOfFuel
  | _ + 1, [] => Res.error (GoError.New "unexpected EOF")
  | fuel + 1, t :: ts =>
    match t with
    | Token.delim Delim.rbrace => Res.ok ([], ts)
    | Token.str k =>
      match readValue fuel ts with
      | Res.ok (v, rest) =>
        match readFields fuel rest with
        | Res.ok (kvs, rest') => Res.ok ((k, v) :: kvs, rest')
        | Res.error e => Res.error e
        | Res.panic m => Res.panic m
        | Res.outOfFuel => Res.outOfFuel
      | Res.error e => Res.error e
      | Res.panic m => Res.panic m
      | Res.outOfFuel => Res.outOfFuel
    | _ => Res.error (GoError.New "invalid character looking for beginning of object key string")
end

/-- The Go map a JSON object decodes to: a repeated key keeps its last value. -/
def decodeObject (kvs : List (String × JSON)) : GoMap JSON :=
  kvs.foldl (fun m kv => m.store kv.1 kv.2) []

/-- Go `decoder.Decode(&context)` for `context : map[string]any`: the decoded
map and the tokens after the value.  A JSON object decodes to its map, `null`
leaves the map empty without an error, any other value is an
`UnmarshalTypeError`; a malformed or truncated value is an error as well. -/
def Decode (fuel : Nat) (ts : List Token) : Res (GoMap JSON × List Token) :=
  match readValue fuel ts with
  | Res.ok (JSON.obj kvs, rest) => Res.ok (decodeObject kvs, rest)
  | Res.ok (JSON.null, rest) => Res.ok ([], rest)
  | Res.ok (_, _) =>
    Res.error (GoError.New "json: cannot unmarshal into Go value of type map[string]interface \x7b\x7d")
  | Res.error e => Res.error e
  | Res.panic m => Res.panic m
  | Res.outOfFuel => Res.outOfFuel

/-! ## Entity model (`model.go`) -/

/-- Go `Entity`, over the type of the values held in its two maps, which are
`GoMap`s (the unexported `token` field is never read or written and is left
out). -/
structure EntityOf (V : Type) where
  ID : String
  Recorded : Nat
  IsDeleted : Bool
  References : List (String × V)
  Properties : List (String × V)

/-- The dynamic values (`any`) the parser puts into entities: `nil`, a string, a
`float64`, a `bool`, a `json.Delim`, a `[]any`, a `[]string`, or an `*Entity`. -/
inductive Value where
  | nil
  | str (s : String)
  | num (f : Float64)
  | bool (b : Bool)
  | delim (d : Delim)
  | arr (xs : List Value)
  | strs (xs : List String)
  | entity (e : EntityOf Value)

/-- Go `Entity`. -/
abbrev Entity := EntityOf Value

/-- The entity `parseEntity` starts from: `&Entity{}` with two empty maps. -/
def emptyEntity : Entity :=
  { ID := "", Recorded := 0, IsDeleted := false, References := [], Properties := [] }

/-- Go `NewEntity`. -/
def NewEntity (ID : String) : Entity := { emptyEntity with ID := ID }

/-- Go `Entity.getReferenceValue`. -/
def EntityOf.getReferenceValue (anEntity : Entity) (typeURI : String) : Res String :=
  match GoMap.lookup anEntity.References typeURI with
  | some (Value.strs (v0 :: _)) => Res.ok v0
  | some (Value.str v) => Res.ok v
  | _ => Res.error (GoError.New "no reference for type")

/-- Go `Continuation`. -/
structure Continuation where
  Token : String
  deriving DecidableEq, Repr

/-- Go `EntityCollection`; a nil `Continuation` pointer is `none`. -/
structure EntityCollection where
  Context : Context
  Entities : List Entity
  Continuation : Option Continuation

/-- Go `NewEntityCollection`. -/
def NewEntityCollection : EntityCollection :=
  { Context := NewContext, Entities := [], Continuation := none }

/-- Go `EntityParser`. -/
structure EntityParser where
  entityCollection : EntityCollection

/-- Go `NewEntityParser`. -/
def NewEntityParser : EntityParser := ⟨NewEntityCollection⟩

/-- Go `EntityParser.Reset`. -/
def EntityParser.Reset (_esp : EntityParser) : EntityParser := ⟨NewEntityCollection⟩

/-! ## The streaming parser (`model.go`)

Every function takes the decoder as the list of tokens still to be read and
returns the tokens left; `decoder.Token()` on the empty list is `io.EOF`.  The
methods read their receiver only through `esp.entityCollection.Context`, the
argument `ctx`.  A `for` loop is a function that calls itself once per
iteration, with the loop's variables as arguments. -/

/-- The value of a `json.Token` stored as an `any`. -/
def tokenValue : Token → Value
  | Token.delim d => Value.delim d
  | Token.str s => Value.str s
  | Token.num f => Value.num f
  | Token.bool b => Value.bool b
  | Token.null => Value.nil

/-- Go `EntityParser.parseRefArray`; `array` is the slice built so far
(initially empty). -/
def parseRefArrayLoop : Nat → Context → List String → List Token → Res (List String × List Token)
  | 0, _, _, _ => Res.outOfFuel
  | _ + 1, _, _, [] =>
    Res.error (GoError.Wrap "unable to read token in parse ref array: %w" GoError.EOF)
  | fuel + 1, ctx, array, t :: ts =>
    match t with
    | Token.delim d =>
      if d = Delim.rbrack then Res.ok (array, ts)
      else parseRefArrayLoop fuel ctx array ts
    | Token.str v =>
      match produceCanonicalURI ctx v with
      | Res.ok id => parseRefArrayLoop fuel ctx (array ++ [id]) ts
      | Res.error err => Res.error err
      | Res.panic m => Res.panic m
      | Res.outOfFuel => Res.outOfFuel
    | _ => Res.error (GoError.New "unknown type")

/-- Go `EntityParser.parseRefArray`. -/
def parseRefArray (fuel : Nat) (ctx : Context) (ts : List Token) :
    Res (List String × List Token) :=
  parseRefArrayLoop fuel ctx [] ts

/-- Go `EntityParser.parseRefValue`. -/
def parseRefValue : Nat → Context → List Token → Res (Value × List Token)
  | 0, _, _ => Res.outOfFuel
  | _ + 1, _, [] =>
    Res.error (GoError.Wrap "unable to read token in parse value: %w" GoError.EOF)
  | fuel + 1, ctx, t :: ts =>
    match t with
    | Token.delim d =>
      if d = Delim.lbrack then
        match parseRefArray fuel ctx ts with
        | Res.ok (array, rest) => Res.ok (Value.strs array, rest)
        | Res.error err => Res.error err
        | Res.panic m => Res.panic m
        | Res.outOfFuel => Res.outOfFuel
      else parseRefValue fuel ctx ts
    | Token.str v =>
      match produceCanonicalURI ctx v with
      | Res.ok id => Res.ok (Value.str id, ts)
      | Res.error err => Res.error err
      | Res.panic m => Res.panic m
      | Res.outOfFuel => Res.outOfFuel
    | _ => Res.error (GoError.New "unknown token in parse ref value")

/-- The `for` loop of `EntityParser.parseReferences`; `refs` is the map built so
far. -/
def parseReferencesLoop : Nat → Context → GoMap Value → List Token → Res (GoMap Value × List Token)
  | 0, _, _, _ => Res.outOfFuel
  | _ + 1, _, _, [] =>
    Res.error (GoError.Wrap "unable to read token in parse references: %w" GoError.EOF)
  | fuel + 1, ctx, refs, t :: ts =>
    match t with
    | Token.delim d =>
      if d = Delim.rbrace then Res.ok (refs, ts)
      else parseReferencesLoop fuel ctx refs ts
    | Token.str v =>
      match parseRefValue fuel ctx ts with
      | Res.ok (val, rest) =>
        match produceCanonicalURI ctx v with
        | Res.ok id => parseReferencesLoop fuel ctx (refs.store id val) rest
        | Res.error err => Res.error err
        | Res.panic m => Res.panic m
        | Res.outOfFuel => Res.outOfFuel
      | Res.error _ => Res.error (GoError.New ("unable to parse value of reference key " ++ v))
      | Res.panic m => Res.panic m
      | Res.outOfFuel => Res.outOfFuel
    | _ => Res.error (GoError.New "unknown type")

/-- Go `EntityParser.parseReferences`: the first token (the `{` of the object) is
read without being looked at. -/
def parseReferences (fuel : Nat) (ctx : Context) (ts : List Token) :
    Res (GoMap Value × List Token) :=
  match ts with
  | [] =>
    Res.error (GoError.Wrap "unable to read token of at start of references: %w" GoError.EOF)
  | _ :: rest => parseReferencesLoop fuel ctx [] rest

mutual
/-- Go `EntityParser.parseValue`. -/
def parseValue : Nat → Context → List Token → Res (Value × List Token)
  | 0, _, _ => Res.outOfFuel
  | _ + 1, _, [] =>
    Res.error (GoError.Wrap "unable to read token in parse value: %w" GoError.EOF)
  | fuel + 1, ctx, t :: ts =>
    match t with
    | Token.null => Res.ok (Value.nil, ts)
    | Token.delim d =>
      if d = Delim.lbrace then
        match parseEntityLoop fuel ctx emptyEntity false ts with
        | Res.ok (e, rest) => Res.ok (Value.entity e, rest)
        | Res.error err => Res.error err
        | Res.panic m => Res.panic m
        | Res.outOfFuel => Res.outOfFuel
      else if d = Delim.lbrack then
        match parseArrayLoop fuel ctx [] ts with
        | Res.ok (array, rest) => Res.ok (Value.arr array, rest)
        | Res.error err => Res.error err
        | Res.panic m => Res.panic m
        | Res.outOfFuel => Res.outOfFuel
      else parseValue fuel ctx ts
    | Token.str v => Res.ok (Value.str v, ts)
    | Token.num v => Res.ok (Value.num v, ts)
    | Token.bool v => Res.ok (Value.bool v, ts)
/-- Go `EntityParser.parseArray`; `array` is the slice built so far (initially
empty). -/
def parseArrayLoop : Nat → Context → List Value → List Token → Res (List Value × List Token)
  | 0, _, _, _ => Res.outOfFuel
  | _ + 1, _, _, [] =>
    Res.error (GoError.Wrap "unable to read token in parse array: %w" GoError.EOF)
  | fuel + 1, ctx, array, t :: ts =>
    match t with
    | Token.delim d =>
      if d = Delim.lbrace then
        match parseEntityLoop fuel ctx emptyEntity false ts with
        | Res.ok (r, rest) => parseArrayLoop fuel ctx (array ++ [Value.entity r]) rest
        | Res.error err => Res.error (GoError.Wrap "unable to parse array: %w" err)
        | Res.panic m => Res.panic m
        | Res.outOfFuel => Res.outOfFuel
      else if d = Delim.rbrack then Res.ok (array, ts)
      else if d = Delim.lbrack then
        match parseArrayLoop fuel ctx [] ts with
        | Res.ok (r, rest) => parseArrayLoop fuel ctx (array ++ [Value.arr r]) rest
        | Res.error err => Res.error (GoError.Wrap "unable to parse array: %w" err)
        | Res.panic m => Res.panic m
        | Res.outOfFuel => Res.outOfFuel
      else parseArrayLoop fuel ctx array ts
    | Token.str v => parseArrayLoop fuel ctx (array ++ [Value.str v]) ts
    | Token.num v => parseArrayLoop fuel ctx (array ++ [Value.num v]) ts
    | Token.bool v => parseArrayLoop fuel ctx (array ++ [Value.bool v]) ts
    | Token.null => Res.error (GoError.New "unknown type")
/-- The `for` loop of `EntityParser.parseProperties`; `props` is the map built so
far. -/
def parsePropertiesLoop : Nat → Context → GoMap Value → List Token → Res (GoMap Value × List Token)
  | 0, _, _, _ => Res.outOfFuel
  | _ + 1, _, _, [] =>
    Res.error (GoError.Wrap "unable to read token in parse properties: %w" GoError.EOF)
  | fuel + 1, ctx, props, t :: ts =>
    match t with
    | Token.delim d =>
      if d = Delim.rbrace then Res.ok (props, ts)
      else parsePropertiesLoop fuel ctx props ts
    | Token.str v =>
      match parseValue fuel ctx ts with
      | Res.ok (Value.nil, rest) => parsePropertiesLoop fuel ctx props rest
      | Res.ok (val, rest) =>
        match produceCanonicalURI ctx v with
        | Res.ok id => parsePropertiesLoop fuel ctx (props.store id val) rest
        | Res.error err => Res.error err
        | Res.panic m => Res.panic m
        | Res.outOfFuel => Res.outOfFuel
      | Res.error err =>
        Res.error (GoError.Wrap ("unable to parse property value of key " ++ v ++ " err: %w") err)
      | Res.panic m => Res.panic m
      | Res.outOfFuel => Res.outOfFuel
    | _ => Res.error (GoError.New "unknown type")
/-- Go `EntityParser.parseEntity`; `e` and `isContinuation` are the loop's
variables (initially `emptyEntity` and `false`).  Under the key `props` the call
of `parseProperties` is written out: its first token is dropped and its loop
entered. -/
def parseEntityLoop : Nat → Context → Entity → Bool → List Token → Res (Entity × List Token)
  | 0, _, _, _, _ => Res.outOfFuel
  | _ + 1, _, _, _, [] => Res.error (GoError.Wrap "unable to read token: %w" GoError.EOF)
  | fuel + 1, ctx, e, isContinuation, t :: ts =>
    match t with
    | Token.delim d =>
      if d = Delim.rbrace then Res.ok (e, ts)
      else parseEntityLoop fuel ctx e isContinuation ts
    | Token.str v =>
      if v = "id" then
        match ts with
        | [] => Res.error (GoError.Wrap "unable to read token of id value: %w" GoError.EOF)
        | Token.str val :: rest =>
          if val = "@continuation" then
            parseEntityLoop fuel ctx { e with ID := "@continuation" } true rest
          else
            match produceCanonicalURI ctx val with
            | Res.ok id => parseEntityLoop fuel ctx { e with ID := id } isContinuation rest
            | Res.error err => Res.error err
            | Res.panic m => Res.panic m
            | Res.outOfFuel => Res.outOfFuel
        | _ :: _ => Res.panic "interface conversion: interface \x7b\x7d is not string"
      else if v = "recorded" then
        match ts with
        | [] => Res.error (GoError.Wrap "unable to read token of recorded value: %w" GoError.EOF)
        | Token.num val :: rest =>
          parseEntityLoop fuel ctx { e with Recorded := uint64 val } isContinuation rest
        | _ :: _ => Res.panic "interface conversion: interface \x7b\x7d is not float64"
      else if v = "deleted" then
        match ts with
        | [] => Res.error (GoError.Wrap "unable to read token of deleted value: %w" GoError.EOF)
        | Token.bool val :: rest =>
          parseEntityLoop fuel ctx { e with IsDeleted := val } isContinuation rest
        | _ :: _ => Res.panic "interface conversion: interface \x7b\x7d is not bool"
      else if v = "props" then
        match ts with
        | [] =>
          Res.error (GoError.Wrap "unable to parse properties: %w"
            (GoError.Wrap "unable to read token of at start of properties: %w " GoError.EOF))
        | _ :: ts' =>
          match parsePropertiesLoop fuel ctx [] ts' with
          | Res.ok (props, rest) =>
            parseEntityLoop fuel ctx { e with Properties := props } isContinuation rest
          | Res.error err => Res.error (GoError.Wrap "unable to parse properties: %w" err)
          | Res.panic m => Res.panic m
          | Res.outOfFuel => Res.outOfFuel
      else if v = "refs" then
        match parseReferences fuel ctx ts with
        | Res.ok (refs, rest) =>
          parseEntityLoop fuel ctx { e with References := refs } isContinuation rest
        | Res.error err => Res.error (GoError.Wrap "unable to parse references %w" err)
        | Res.panic m => Res.panic m
        | Res.outOfFuel => Res.outOfFuel
      else if v = "token" then
        if !isContinuation then
          Res.error (GoError.New "token property found but not a continuation entity")
        else
          match ts with
          | [] =>
            Res.error (GoError.Wrap "unable to read continuation token value: %w" GoError.EOF)
          | val :: rest =>
            parseEntityLoop fuel ctx { e with Properties := [("token", tokenValue val)] }
              isContinuation rest
      else
        match ts with
        | [] =>
          Res.error (GoError.Wrap ("unable to parse value of unknown key: " ++ v ++ " %w")
            GoError.EOF)
        | _ :: rest => parseEntityLoop fuel ctx e isContinuation rest
    | _ => Res.error (GoError.New "unexpected value in entity")
end

/-- Go `EntityParser.parseEntity`. -/
def parseEntity (fuel : Nat) (ctx : Context) (ts : List Token) : Res (Entity × List Token) :=
  parseEntityLoop fuel ctx emptyEntity false ts

/-- Go `EntityParser.parseArray`. -/
def parseArray (fuel : Nat) (ctx : Context) (ts : List Token) :
    Res (List Value × List Token) :=
  parseArrayLoop fuel ctx [] ts

/-- Go `EntityParser.parseProperties`: the first token (the `{` of the object) is
read without being looked at. -/
def parseProperties (fuel : Nat) (ctx : Context) (ts : List Token) :
    Res (GoMap Value × List Token) :=
  match ts with
  | [] =>
    Res.error (GoError.Wrap "unable to read token of at start of properties: %w " GoError.EOF)
  | _ :: rest => parsePropertiesLoop fuel ctx [] rest

/-- What a callback of `parse` does: it returns an error value (or `nil`) and
leaves the parser it has captured in a new state, or it panics. -/
inductive Emitted where
  | done (esp : EntityParser) (err : Option GoError)
  | panic (msg : String)

/-- What `parse` and `Parse` do: they return an error value (or `nil`) with the
parser, and so the collection `Parse` returns, in the given state; or they
panic; or the embedding ran out of fuel. -/
inductive Outcome where
  | returned (esp : EntityParser) (err : Option GoError)
  | panic (msg : String)
  | outOfFuel

/-- The loop `for k, v := range context["namespaces"].(map[string]any)` of
`parse`, with its assertion `v.(string)`. -/
def storeNamespaces : Context → GoMap JSON → Res Context
  | ctx, [] => Res.ok ctx
  | ctx, (k, JSON.str v) :: rest => storeNamespaces (ctx.StorePrefixExpansionMapping k v) rest
  | _, (_, _) :: _ => Res.panic "interface conversion: interface \x7b\x7d is not string"

/-- The second `for` loop of `EntityParser.parse`, over the elements of the array.
`io.EOF` leaves the loop; the `break` under `']'` leaves only the `switch`, and
a `json.Delim` other than `'{'` matches no branch, so both go round again. -/
def parseLoop : Nat → EntityParser → (EntityParser → Entity → Emitted) → List Token → Outcome
  | 0, _, _, _ => Outcome.outOfFuel
  | _ + 1, esp, _, [] => Outcome.returned esp none
  | fuel + 1, esp, emitEntity, t :: ts =>
    match t with
    | Token.delim d =>
      if d = Delim.lbrace then
        match parseEntity fuel esp.entityCollection.Context ts with
        | Res.ok (e, rest) =>
          match emitEntity esp e with
          | Emitted.done esp' none => parseLoop fuel esp' emitEntity rest
          | Emitted.done esp' (some err) => Outcome.returned esp' (some err)
          | Emitted.panic m => Outcome.panic m
        | Res.error err =>
          Outcome.returned esp (some (GoError.Wrap "parsing error: Unable to parse entity: %w" err))
        | Res.panic m => Outcome.panic m
        | Res.outOfFuel => Outcome.outOfFuel
      else parseLoop fuel esp emitEntity ts
    | _ => Outcome.returned esp (some (GoError.New "parsing error: unexpected value in entity array"))

/-- Go `EntityParser.parse`; `reader` is the token stream of the input and
`fuel` bounds the loops. -/
def parse (fuel : Nat) (esp : EntityParser) (emitEntity : EntityParser → Entity → Emitted)
    (emitContext : EntityParser → Context → Emitted) (reader : List Token) : Outcome :=
  match reader with
  | [] =>
    Outcome.returned esp
      (some (GoError.Wrap "parsing error: Bad token at start of stream: %w" GoError.EOF))
  | t :: ts =>
    if t ≠ Token.delim Delim.lbrack then
      Outcome.returned esp (some (GoError.New "parsing error: Expected [ at start of document"))
    else
      match Decode fuel ts with
      | Res.error err =>
        Outcome.returned esp (some (GoError.Wrap "parsing error: Unable to decode context: %w" err))
      | Res.panic m => Outcome.panic m
      | Res.outOfFuel => Outcome.outOfFuel
      | Res.ok (context, rest) =>
        match GoMap.lookup context "id" with
        | some (JSON.str id) =>
          if id = "@context" then
            match GoMap.lookup context "namespaces" with
            | some (JSON.obj namespaces) =>
              match storeNamespaces NewContext (decodeObject namespaces) with
              | Res.ok ctx =>
                match emitContext esp ctx with
                | Emitted.done esp' _ => parseLoop fuel esp' emitEntity rest
                | Emitted.panic m => Outcome.panic m
              | Res.error err => Outcome.returned esp (some err)
              | Res.panic m => Outcome.panic m
              | Res.outOfFuel => Outcome.outOfFuel
            | _ => Outcome.panic "interface conversion: interface \x7b\x7d is not map[string]interface \x7b\x7d"
          else Outcome.returned esp (some (GoError.New "first entity in array must be a context"))
        | _ => Outcome.returned esp (some (GoError.New "first entity in array must be a context"))

namespace EntityParser

/-- The first callback of Go `EntityParser.Parse`. -/
def emitEntity (esp : EntityParser) (entity : Entity) : Emitted :=
  if entity.ID = "@continuation" then
    match GoMap.lookup entity.Properties "token" with
    | some (Value.str token) =>
      Emitted.done ⟨{ esp.entityCollection with Continuation := some ⟨token⟩ }⟩ none
    | _ => Emitted.panic "interface conversion: interface \x7b\x7d is not string"
  else
    Emitted.done
      ⟨{ esp.entityCollection with Entities := esp.entityCollection.Entities ++ [entity] }⟩ none

/-- The second callback of Go `EntityParser.Parse`. -/
def emitContext (esp : EntityParser) (ctx : Context) : Emitted :=
  Emitted.done ⟨{ esp.entityCollection with Context := ctx }⟩ none

/-- Go `EntityParser.Parse` on the token stream of the reader.  The returned
collection is `esp.entityCollection` of the parser in the outcome.  The fuel
given here is never used up (`Parse_ne_outOfFuel`): a loop of the parser reads a
token in every iteration, and `Decode` takes at most two steps for a token. -/
def Parse (esp : EntityParser) (reader : List Token) : Outcome :=
  parse (2 * reader.length + 2) esp emitEntity emitContext reader

end EntityParser

/-- A call that was given the tokens `ts` has made progress when it did not run
out of fuel and, if it returned a value, left fewer tokens than it was given. -/
def Progress {α : Type} (ts : List Token) : Res (α × List Token) → Prop
  | Res.ok (_, rest) => rest.length < ts.length
  | Res.error _ => True
  | Res.panic _ => True
  | Res.outOfFuel => False

/-! ## GeoJSON projection (`main.go`) -/

/-- Go `Geometry`. -/
structure Geometry where
  Type_ : String
  Coordinates : List Value

/-- Go `Feature`; a nil `Geometry` pointer is `none`. -/
structure Feature where
  Id : String
  Type_ : String
  BoundingBox : List Float64
  Geometry : Option Geometry
  Properties : GoMap Value
  AssetType : String
  AssetLink : String
  IsDeleted : Bool

/-- An element of the `[]any` that `convertToFeatures` returns: a
`map[string]interface{}` marker or a `*Feature`. -/
inductive Item where
  | marker (m : GoMap Value)
  | feature (f : Feature)

/-- Go `stripUrl`. -/
def stripUrl (url : String) : String :=
  if strings.Contains url '#' then
    (strings.Split url '#').getD 1 ""
  else if strings.Contains url '/' then
    let lastSlash := strings.LastIndex url '/'
    strings.sliceFrom url (lastSlash + 1)
  else url

/-- The polygon loop of `makeGeomentryFromEntity` on the part `coords[i:]` still
to be walked: `coords[i]` and `coords[i+1]` become one pair, and `coords[i+1]`
past the end of the slice is an index-out-of-range panic. -/
def polygonPairs : List Value → Res (List Value)
  | [] => Res.ok []
  | [_] => Res.panic "index out of range"
  | c0 :: c1 :: rest =>
    match polygonPairs rest with
    | Res.ok pairs => Res.ok (Value.arr [c0, c1] :: pairs)
    | Res.error err => Res.error err
    | Res.panic m => Res.panic m
    | Res.outOfFuel => Res.outOfFuel

/-- Go `makeGeomentryFromEntity`. -/
def makeGeomentryFromEntity (e : Entity) : Res Geometry :=
  let geotypePredicate := "http://data.mimiro.io/models/flatgeo/geotype"
  let pointType := "http://data.mimiro.io/models/flatgeo/Point"
  let polygonType := "http://data.mimiro.io/models/flatgeo/Polygon"
  let geometryType :=
    match EntityOf.getReferenceValue e geotypePredicate with
    | Res.ok v => v
    | _ => ""
  if geometryType = pointType then
    match GoMap.lookup e.Properties "http://data.mimiro.io/models/flatgeo/coordinates" with
    | some (Value.arr coords) => Res.ok { Type_ := "Point", Coordinates := coords }
    | _ => Res.panic "interface conversion: interface \x7b\x7d is not []interface \x7b\x7d"
  else if geometryType = polygonType then
    match GoMap.lookup e.Properties "http://data.mimiro.io/models/flatgeo/coordinates" with
    | some (Value.arr coords) =>
      match polygonPairs coords with
      | Res.ok pairs => Res.ok { Type_ := "Polygon", Coordinates := pairs }
      | Res.error err => Res.error err
      | Res.panic m => Res.panic m
      | Res.outOfFuel => Res.outOfFuel
    | _ => Res.panic "interface conversion: interface \x7b\x7d is not []interface \x7b\x7d"
  else Res.error (GoError.New ("unknown geometry type: " ++ geometryType))

/-- The body of the loop `for _, e := range ec.Entities` of `convertToFeatures`:
the feature of one entity.  The error of `makeGeomentryFromEntity` is dropped
and leaves the geometry nil; the key of every property goes through `stripUrl`. -/
def featureOfEntity (e : Entity) : Res Feature :=
  let geometry : Res (Option Geometry) :=
    match makeGeomentryFromEntity e with
    | Res.ok g => Res.ok (some g)
    | Res.error _ => Res.ok none
    | Res.panic m => Res.panic m
    | Res.outOfFuel => Res.outOfFuel
  match geometry with
  | Res.ok g =>
    Res.ok
      { Id := e.ID, Type_ := "Feature", BoundingBox := [], Geometry := g,
        Properties := e.Properties.foldl (fun props kv => GoMap.store props (stripUrl kv.1) kv.2) [],
        AssetType := "", AssetLink := "", IsDeleted := e.IsDeleted }
  | Res.error err => Res.error err
  | Res.panic m => Res.panic m
  | Res.outOfFuel => Res.outOfFuel

/-- The loop `for _, e := range ec.Entities` of `convertToFeatures`, appending to
`features`. -/
def appendFeatures : List Item → List Entity → Res (List Item)
  | features, [] => Res.ok features
  | features, e :: es =>
    match featureOfEntity e with
    | Res.ok f => appendFeatures (features ++ [Item.feature f]) es
    | Res.error err => Res.error err
    | Res.panic m => Res.panic m
    | Res.outOfFuel => Res.outOfFuel

set_option linter.unusedVariables false in
/-- Go `convertToFeatures`.  The parameter `stripPropertyUrls` is not read by the
body; `ec.Continuation.Token` on a nil `Continuation` is a nil dereference. -/
def convertToFeatures (ec : EntityCollection) (stripPropertyUrls : Bool) : Res (List Item) :=
  let context : GoMap Value := GoMap.store [] "id" (Value.str "@context")
  match appendFeatures [Item.marker context] ec.Entities with
  | Res.ok features =>
    match ec.Continuation with
    | none => Res.panic "invalid memory address or nil pointer dereference"
    | some continuation =>
      if continuation.Token ≠ "" then
        let contination : GoMap Value :=
          GoMap.store (GoMap.store [] "id" (Value.str "@continuation")) "token"
            (Value.str continuation.Token)
        Res.ok (features ++ [Item.marker contination])
      else Res.ok features
  | Res.error err => Res.error err
  | Res.panic m => Res.panic m
  | Res.outOfFuel => Res.outOfFuel

/-! ## Example data -/

/-- A collection with no entity and a `Continuation` whose token is empty. -/
def emptyTokenCollection : EntityCollection :=
  { Context := NewContext, Entities := [], Continuation := some ⟨""⟩ }

/-- An entity with one property, keyed by a URI with a fragment. -/
def colorEntity : Entity :=
  { emptyEntity with
    ID := "http://example.org/e1"
    Properties := [("http://example.org/ns#color", Value.str "red")] }

/-- A collection holding `colorEntity`, with a continuation token. -/
def colorCollection : EntityCollection :=
  { Context := NewContext, Entities := [colorEntity], Continuation := some ⟨"t1"⟩ }

/-- The context declaration `{"id": "@context", "namespaces": {...}}`. -/
def contextDecl (namespaces : List (String × JSON)) : JSON :=
  JSON.obj [("id", JSON.str "@context"), ("namespaces", JSON.obj namespaces)]

/-- The token stream of the JSON array with the given elements. -/
def document (elements : List JSON) : List Token := (JSON.arr elements).tokens

/-- The context declaration with the default namespace `http://x/`. -/
def xContextDecl : JSON := contextDecl [("_", JSON.str "http://x/")]

/-- The context that `xContextDecl` declares. -/
def xContext : Context :=
  { prefixToExpansionMappings := [("_", "http://x/")]
    expansionToPrefixMappings := [("http://x/", "_")] }

/-- The namespaces object of a context declaration whose expansions are the
given strings. -/
def namespacesJSON (ns : List (String × String)) : List (String × JSON) :=
  ns.map (fun kv => (kv.1, JSON.str kv.2))

/-- The context `parse` builds from the namespaces object `namespacesJSON ns`:
the decoded map (a repeated prefix keeps its last expansion) is stored entry by
entry into a new context. -/
def declaredContext (ns : List (String × String)) : Context :=
  (ns.foldl (fun m kv => GoMap.store m kv.1 kv.2) ([] : GoMap String)).foldl
    (fun c kv => c.StorePrefixExpansionMapping kv.1 kv.2) NewContext

/-- The tokens of a JSON object after its opening brace. -/
def objectBody (members : List (String × JSON)) : List Token :=
  JSON.tokensFields members ++ [Token.delim Delim.rbrace]

/-- The entity `parseEntity` returns for a JSON object taken on its own, when it
reads the object exactly up to its closing brace; `none` for any other outcome or
any other JSON value. -/
def entityOfObject (ctx : Context) : JSON → Option Entity
  | JSON.obj members =>
    match parseEntity (objectBody members).length ctx (objectBody members) with
    | Res.ok (e, []) => some e
    | _ => none
  | _ => none

/-- An element of the entity array after the context declaration: a continuation
object `{"id": "@continuation", "token": t}` or another JSON object. -/
inductive Element where
  | continuation (token : String)
  | entity (members : List (String × JSON))

/-- The JSON text of an element. -/
def Element.json : Element → JSON
  | Element.continuation token =>
    JSON.obj [("id", JSON.str "@continuation"), ("token", JSON.str token)]
  | Element.entity members => JSON.obj members

/-- The entities of the elements that are not continuation objects, in order. -/
def entitiesOf (ctx : Context) (elements : List Element) : List Entity :=
  elements.filterMap fun el =>
    match el with
    | Element.continuation _ => none
    | Element.entity members => entityOfObject ctx (JSON.obj members)

/-- The token of the last continuation object among the elements, if there is
one. -/
def lastContinuationToken (elements : List Element) : Option String :=
  (elements.filterMap fun el =>
    match el with
    | Element.continuation token => some token
    | Element.entity _ => none).getLast?

/-- The elements of the example document for the element loop: two entities and
two continuation objects. -/
def pagedElements : List Element :=
  [Element.entity [("id", JSON.str "a")],
   Element.continuation "t1",
   Element.entity [("id", JSON.str "b"), ("deleted", JSON.bool true)],
   Element.continuation "t2"]

/-- The members of the example `props` object: a string, a `null` under a key
with an undeclared prefix, an array, and a nested entity. -/
def exampleProps : List (String × JSON) :=
  [("name", JSON.str "n"),
   ("undeclared:gone", JSON.null),
   ("tags", JSON.arr [JSON.str "a", JSON.num 2]),
   ("inner", JSON.obj [("id", JSON.str "i"), ("props", JSON.obj [("p", JSON.null)])])]

/-! ## The grammar of entity objects

The shapes of the specification's grammar that the parser reads token for
token, relative to a context: they are used to show which documents the
theorems on whole documents cover. -/

/-- The identifier can be canonicalised in the context. -/
def canCanonicalise (ctx : Context) (value : String) : Bool :=
  match produceCanonicalURI ctx value with
  | Res.ok _ => true
  | _ => false

/-- A reference value of the grammar: a string or an array of strings, all of
which can be canonicalised. -/
def isReferenceValue (ctx : Context) : JSON → Bool
  | JSON.str s => canCanonicalise ctx s
  | JSON.arr xs =>
    xs.all fun x =>
      match x with
      | JSON.str s => canCanonicalise ctx s
      | _ => false
  | _ => false

/-- The members of a `refs` object of the grammar. -/
def areReferenceMembers (ctx : Context) (members : List (String × JSON)) : Bool :=
  members.all fun kv => canCanonicalise ctx kv.1 && isReferenceValue ctx kv.2

/-- A scalar or `null`: the values the parser discards under an unknown key. -/
def isScalarOrNull : JSON → Bool
  | JSON.arr _ => false
  | JSON.obj _ => false
  | _ => true

/-- The value is `null`. -/
def isNull : JSON → Bool
  | JSON.null => true
  | _ => false

/-- A legal `id` of an entity that is not a continuation: a string other than
`@continuation` whose canonical form is not `@continuation` either. -/
def isEntityId (ctx : Context) : JSON → Bool
  | JSON.str s =>
    s ≠ "@continuation" &&
      (match produceCanonicalURI ctx s with
      | Res.ok id => id ≠ "@continuation"
      | _ => false)
  | _ => false

/-- The value is a number. -/
def isNumber : JSON → Bool
  | JSON.num _ => true
  | _ => false

/-- The value is a boolean. -/
def isBoolean : JSON → Bool
  | JSON.bool _ => true
  | _ => false

/-- A `refs` object of the grammar. -/
def isReferencesObject (ctx : Context) : JSON → Bool
  | JSON.obj refs => areReferenceMembers ctx refs
  | _ => false

mutual
/-- A property value of the grammar: a scalar other than `null`, an array of
property values, or a nested entity. -/
def isPropertyValue (ctx : Context) : JSON → Bool
  | JSON.null => false
  | JSON.bool _ => true
  | JSON.num _ => true
  | JSON.str _ => true
  | JSON.arr xs => areArrayElements ctx xs
  | JSON.obj members => areEntityMembers ctx members
/-- The elements of an array property value. -/
def areArrayElements (ctx : Context) : List JSON → Bool
  | [] => true
  | x :: xs => isPropertyValue ctx x && areArrayElements ctx xs
/-- The members of an entity object of the grammar that is not a continuation:
`id` is a legal id, `recorded` a number, `deleted` a boolean, `props` and `refs`
objects of the grammar, and any other key but `token` holds a scalar or `null`. -/
def areEntityMembers (ctx : Context) : List (String × JSON) → Bool
  | [] => true
  | (key, v) :: members =>
    (if key = "id" then isEntityId ctx v
    else if key = "recorded" then isNumber v
    else if key = "deleted" then isBoolean v
    else if key = "props" then isPropertiesObject ctx v
    else if key = "refs" then isReferencesObject ctx v
    else if key = "token" then false
    else isScalarOrNull v) && areEntityMembers ctx members
/-- A `props` object of the grammar. -/
def isPropertiesObject (ctx : Context) : JSON → Bool
  | JSON.obj props => arePropertyMembers ctx props
  | _ => false
/-- The members of a `props` object of the grammar: the value is `null`, or it
is a property value and the key can be canonicalised. -/
def arePropertyMembers (ctx : Context) : List (String × JSON) → Bool
  | [] => true
  | (key, v) :: members =>
    (isNull v || (isPropertyValue ctx v && canCanonicalise ctx key)) &&
      arePropertyMembers ctx members
end

/-- A collection with a continuation token and one entity whose geometry type is
`Point` but which has no `coordinates` property. -/
def pointWithoutCoordinates : EntityCollection :=
  { Context := NewContext,
    Entities :=
      [{ emptyEntity with
         ID := "http://example.org/p1"
         References :=
          [("http://data.mimiro.io/models/flatgeo/geotype",
            Value.str "http://data.mimiro.io/models/flatgeo/Point")] }],
    Continuation := some ⟨"t1"⟩ }

/-! ## Namespace tables -/

/-- The keys of a Go map, in the order of the entries. -/
def GoMap.keys {V : Type} (m : GoMap V) : List String := m.map Prod.fst

/-- The Go map the namespaces object `namespacesJSON ns` decodes to: a repeated
prefix keeps its last expansion. -/
def namespacesMap (ns : List (String × String)) : GoMap String :=
  ns.foldl (fun m kv => GoMap.store m kv.1 kv.2) []

/-- The context reached from `NewContext()` by the calls
`StorePrefixExpansionMapping(p, e)` for the pairs of the list, in order. -/
def storeAll (calls : List (String × String)) : Context :=
  calls.foldl (fun c kv => c.StorePrefixExpansionMapping kv.1 kv.2) NewContext

/-- The context that holds the one pair of a prefix and its expansion. -/
def pairContext (pfx expansion : String) : Context :=
  NewContext.StorePrefixExpansionMapping pfx expansion

/-! ## Geometries -/

/-- The coordinates of a polygon written out again as one list: each pair gives
its elements, in order. -/
def flattenPairs : List Value → List Value
  | [] => []
  | Value.arr xs :: rest => xs ++ flattenPairs rest
  | v :: rest => v :: flattenPairs rest

/-- An entity of geometry type `Point`, given as a string, with the coordinates
`[1.0, 2.0]`. -/
def pointEntity : Entity :=
  { emptyEntity with
    ID := "http://example.org/p1"
    References :=
      [("http://data.mimiro.io/models/flatgeo/geotype",
        Value.str "http://data.mimiro.io/models/flatgeo/Point")]
    Properties :=
      [("http://data.mimiro.io/models/flatgeo/coordinates",
        Value.arr [Value.num 1, Value.num 2])] }

/-- An entity of geometry type `Polygon`, given as a list of one reference, with
six coordinates. -/
def polygonEntity : Entity :=
  { emptyEntity with
    ID := "http://example.org/g1"
    References :=
      [("http://data.mimiro.io/models/flatgeo/geotype",
        Value.strs ["http://data.mimiro.io/models/flatgeo/Polygon"])]
    Properties :=
      [("http://data.mimiro.io/models/flatgeo/coordinates",
        Value.arr [Value.num 0, Value.num 0, Value.num 1, Value.num 0, Value.num 1,
          Value.num 1])] }

/-- An entity of geometry type `Polygon` with three coordinates. -/
def oddPolygonEntity : Entity :=
  { emptyEntity with
    ID := "http://example.org/g2"
    References :=
      [("http://data.mimiro.io/models/flatgeo/geotype",
        Value.str "http://data.mimiro.io/models/flatgeo/Polygon")]
    Properties :=
      [("http://data.mimiro.io/models/flatgeo/coordinates",
        Value.arr [Value.num 0, Value.num 0, Value.num 1])] }

/-- A collection with a continuation token and two entities: one without geometry
type and one polygon with an odd number of coordinates. -/
def unknownAndOddPolygon : EntityCollection :=
  { Context := NewContext,
    Entities := [colorEntity, oddPolygonEntity],
    Continuation := some ⟨"t1"⟩ }

/-! ## A parser that already holds a collection -/

/-- The collection of a parser that held `base` and has then collected what a
new parser collects as `ec`: the entities of `ec` come after the ones of `base`,
and the continuation of `base` stays when `ec` has none. -/
def EntityCollection.after (base ec : EntityCollection) : EntityCollection :=
  { Context := ec.Context,
    Entities := base.Entities ++ ec.Entities,
    Continuation :=
      match ec.Continuation with
      | some c => some c
      | none => base.Continuation }

/-- The outcome of `parseLoop` on a parser that held `base`, from the outcome on a
parser that held nothing. -/
def Outcome.after (base : EntityCollection) : Outcome → Outcome
  | Outcome.returned esp err => Outcome.returned ⟨base.after esp.entityCollection⟩ err
  | Outcome.panic m => Outcome.panic m
  | Outcome.outOfFuel => Outcome.outOfFuel

/-! # Theorems -/

/-! ## Strings and maps -/

namespace strings

theorem splitChars_ne_nil (sep : Char) (l : List Char) : splitChars sep l ≠ [] := by
  cases l with
  | nil => simp [splitChars]
  | cons c cs =>
    simp only [splitChars]
    split
    · simp
    · split <;> simp

theorem splitChars_of_not_mem (sep : Char) (l : List Char) (h : sep ∉ l) :
    splitChars sep l = [l] := by
  induction l with
  | nil => rfl
  | cons c cs ih =>
    have hc : c ≠ sep := fun e => h (by simp [e])
    have hcs : sep ∉ cs := fun e => h (by simp [e])
    simp [splitChars, hc, ih hcs]

theorem splitChars_append (sep : Char) (p l : List Char) (h : sep ∉ p) :
    splitChars sep (p ++ sep :: l) = p :: splitChars sep l := by
  induction p with
  | nil => simp [splitChars]
  | cons c cs ih =>
    have hc : c ≠ sep := fun e => h (by simp [e])
    have hcs : sep ∉ cs := fun e => h (by simp [e])
    simp [splitChars, hc, ih hcs]

theorem splitChars_of_mem (sep : Char) (l : List Char) (h : sep ∈ l) :
    ∃ p q rest, splitChars sep l = p :: q :: rest := by
  induction l with
  | nil => simp at h
  | cons c cs ih =>
    by_cases hc : c = sep
    · obtain ⟨q, rest, hq⟩ := List.exists_cons_of_ne_nil (splitChars_ne_nil sep cs)
      exact ⟨[], q, rest, by simp [splitChars, hc, hq]⟩
    · have hcs : sep ∈ cs := by
        rcases List.mem_cons.mp h with e | e
        · exact absurd e.symm hc
        · exact e
      obtain ⟨p, q, rest, hq⟩ := ih hcs
      exact ⟨c :: p, q, rest, by simp [splitChars, hc, hq]⟩

end strings

/-! ## URI canonicalisation -/

theorem isCURIE_one_colon (pfx loc : String) (hp : ':' ∉ pfx.data) (hl : ':' ∉ loc.data)
    (hfull : isFullURI (pfx ++ ":" ++ loc) = false) :
    isCURIE (pfx ++ ":" ++ loc) = (true, pfx, loc) := by
  have hd : (pfx ++ ":" ++ loc).data = pfx.data ++ ':' :: loc.data := by
    simp [String.data_append]
  simp [isCURIE, hfull, strings.Split, hd, strings.splitChars_append _ _ _ hp,
    strings.splitChars_of_not_mem _ _ hl]

theorem isCURIE_more_colons (pfx loc : String) (hp : ':' ∉ pfx.data) (hl : ':' ∈ loc.data) :
    (isCURIE (pfx ++ ":" ++ loc)).1 = false := by
  have hd : (pfx ++ ":" ++ loc).data = pfx.data ++ ':' :: loc.data := by
    simp [String.data_append]
  obtain ⟨p, q, rest, hs⟩ := strings.splitChars_of_mem ':' loc.data hl
  unfold isCURIE
  split
  · rfl
  · simp [strings.Split, hd, strings.splitChars_append _ _ _ hp, hs]

theorem produceCanonicalURI_of_isCURIE_false (ctx : Context) (value : String)
    (hfull : isFullURI value = false) (h : (isCURIE value).1 = false) :
    produceCanonicalURI ctx value =
      match GoMap.lookup ctx.prefixToExpansionMappings "_" with
      | some expansion => Res.ok (expansion ++ value)
      | none => Res.error (GoError.New "no expansion for prefix: _") := by
  unfold produceCanonicalURI
  rw [if_neg (by simp [hfull])]
  rcases hc : isCURIE value with ⟨b, p, q⟩
  rw [hc] at h
  simp only at h
  subst h
  simp only [Context.GetNamespaceExpansionForPrefix]
  cases GoMap.lookup ctx.prefixToExpansionMappings "_" <;> rfl

/-- C2 (as amended).  For a token `pfx ++ ":" ++ loc` that is not a full URI, where
`pfx` is the text before the first `:`: if `loc` holds no further `:` the result
is the expansion of `pfx` followed by `loc`, and an error when `pfx` has no
expansion; if `loc` holds another `:` the token is not taken as a CURIE and is
resolved like a bare token, against the default prefix `_`. -/
theorem produceCanonicalURI_colon (ctx : Context) (pfx loc : String) (hp : ':' ∉ pfx.data)
    (hfull : isFullURI (pfx ++ ":" ++ loc) = false) :
    (':' ∉ loc.data →
      produceCanonicalURI ctx (pfx ++ ":" ++ loc) =
        match GoMap.lookup ctx.prefixToExpansionMappings pfx with
        | some expansion => Res.ok (expansion ++ loc)
        | none => Res.error (GoError.New ("no expansion for prefix: " ++ pfx))) ∧
    (':' ∈ loc.data →
      produceCanonicalURI ctx (pfx ++ ":" ++ loc) =
        match GoMap.lookup ctx.prefixToExpansionMappings "_" with
        | some expansion => Res.ok (expansion ++ (pfx ++ ":" ++ loc))
        | none => Res.error (GoError.New "no expansion for prefix: _")) := by
  constructor
  · intro hl
    unfold produceCanonicalURI
    rw [if_neg (by simp [hfull]), isCURIE_one_colon pfx loc hp hl hfull]
    simp only [Context.GetNamespaceExpansionForPrefix]
    cases GoMap.lookup ctx.prefixToExpansionMappings pfx <;> rfl
  · intro hl
    exact produceCanonicalURI_of_isCURIE_false ctx _ hfull (isCURIE_more_colons pfx loc hp hl)

/-- Witness for `produceCanonicalURI_colon`: the token `a:b` in a context that expands `a`
to `X`. -/
theorem produceCanonicalURI_colon_witness :
    produceCanonicalURI ⟨[("a", "X")], [("X", "a")]⟩ ("a" ++ ":" ++ "b") = Res.ok ("X" ++ "b") :=
  (produceCanonicalURI_colon ⟨[("a", "X")], [("X", "a")]⟩ "a" "b" (by decide) (by decide)).1
    (by decide)

/-- C2, counterexample.  The token `a:b:c` is not a full URI and contains `:`, its
text before the first `:` is `a`, which the context expands to `X`; the claimed
result is `X` followed by `b:c`, but the code answers with the default expansion
`D` followed by the whole token. -/
theorem produceCanonicalURI_two_colons_counterexample :
    isFullURI "a:b:c" = false ∧
    GoMap.lookup (Context.mk [("a", "X"), ("_", "D")] []).prefixToExpansionMappings "a"
      = some "X" ∧
    produceCanonicalURI ⟨[("a", "X"), ("_", "D")], []⟩ "a:b:c" = Res.ok "Da:b:c" ∧
    produceCanonicalURI ⟨[("a", "X"), ("_", "D")], []⟩ "a:b:c" ≠ Res.ok ("X" ++ "b:c") := by
  decide

/-! ## GeoJSON projection -/

/-- C6, at the failing input.  For a key with two `#` the code returns the text
between the first and the second `#` (`strings.Split(url, "#")[1]`), not the text
after the last `#`, which is `color`. -/
theorem stripUrl_two_hashes :
    stripUrl "http://example.org/ns#a#color" = "a" ∧
    strings.afterLastChars '#' "http://example.org/ns#a#color".data = some "color".data := by
  decide

theorem polygonPairs_ok_or_panic : (cs : List Value) →
    (∃ pairs, polygonPairs cs = Res.ok pairs) ∨ (∃ m, polygonPairs cs = Res.panic m)
  | [] => Or.inl ⟨[], rfl⟩
  | [_] => Or.inr ⟨_, rfl⟩
  | c0 :: c1 :: rest => by
    rcases polygonPairs_ok_or_panic rest with ⟨pairs, h⟩ | ⟨m, h⟩
    · exact Or.inl ⟨Value.arr [c0, c1] :: pairs, by simp [polygonPairs, h]⟩
    · exact Or.inr ⟨m, by simp [polygonPairs, h]⟩

theorem makeGeomentryFromEntity_cases (e : Entity) :
    (∃ g, makeGeomentryFromEntity e = Res.ok g) ∨
    (∃ err, makeGeomentryFromEntity e = Res.error err) ∨
    (∃ m, makeGeomentryFromEntity e = Res.panic m) := by
  unfold makeGeomentryFromEntity
  simp only
  split
  · split
    · exact Or.inl ⟨_, rfl⟩
    · exact Or.inr (Or.inr ⟨_, rfl⟩)
  · split
    · split
      · rename_i coords _
        rcases polygonPairs_ok_or_panic coords with ⟨pairs, h⟩ | ⟨m, h⟩
        · exact Or.inl ⟨{ Type_ := "Polygon", Coordinates := pairs }, by simp [h]⟩
        · exact Or.inr (Or.inr ⟨m, by simp [h]⟩)
      · exact Or.inr (Or.inr ⟨_, rfl⟩)
    · exact Or.inr (Or.inl ⟨_, rfl⟩)

theorem featureOfEntity_of_no_panic (e : Entity)
    (h : ∀ m, makeGeomentryFromEntity e ≠ Res.panic m) :
    ∃ f, featureOfEntity e = Res.ok f ∧ f.Id = e.ID ∧ f.IsDeleted = e.IsDeleted ∧
      f.Type_ = "Feature" ∧
      f.Properties =
        e.Properties.foldl (fun props kv => GoMap.store props (stripUrl kv.1) kv.2) [] := by
  rcases makeGeomentryFromEntity_cases e with ⟨g, hg⟩ | ⟨err, hg⟩ | ⟨m, hg⟩
  · refine ⟨
      { Id := e.ID, Type_ := "Feature", BoundingBox := [], Geometry := some g,
        Properties :=
          e.Properties.foldl (fun props kv => GoMap.store props (stripUrl kv.1) kv.2) [],
        AssetType := "", AssetLink := "", IsDeleted := e.IsDeleted }, ?_, rfl, rfl, rfl, rfl⟩
    simp only [featureOfEntity, hg]
  · refine ⟨
      { Id := e.ID, Type_ := "Feature", BoundingBox := [], Geometry := none,
        Properties :=
          e.Properties.foldl (fun props kv => GoMap.store props (stripUrl kv.1) kv.2) [],
        AssetType := "", AssetLink := "", IsDeleted := e.IsDeleted }, ?_, rfl, rfl, rfl, rfl⟩
    simp only [featureOfEntity, hg]
  · exact absurd hg (h m)

theorem appendFeatures_of_no_panic (es : List Entity) (features : List Item)
    (h : ∀ e ∈ es, ∀ m, makeGeomentryFromEntity e ≠ Res.panic m) :
    ∃ fs : List Feature,
      appendFeatures features es = Res.ok (features ++ fs.map Item.feature) ∧
      List.Forall₂ (fun e f => featureOfEntity e = Res.ok f) es fs := by
  induction es generalizing features with
  | nil => exact ⟨[], by simp [appendFeatures], List.Forall₂.nil⟩
  | cons e es ih =>
    obtain ⟨f, hf, -⟩ := featureOfEntity_of_no_panic e (h e (by simp))
    obtain ⟨fs, hfs, hall⟩ := ih (features ++ [Item.feature f])
      (fun e' he' => h e' (by simp [he']))
    exact ⟨f :: fs, by simp [appendFeatures, hf, hfs], List.Forall₂.cons hf hall⟩

/-- C1 (as amended).  For a collection whose `Continuation` is present and whose
entities do not make `makeGeomentryFromEntity` panic, and for either value of the
flag, `convertToFeatures` returns, without an error, the context marker, then
one feature per entity in collection order (same id, same deletion flag, type
`Feature`), then the continuation marker with the token exactly when the token is
not the empty string. -/
theorem convertToFeatures_sequence (ec : EntityCollection) (stripPropertyUrls : Bool)
    (c : Continuation) (hc : ec.Continuation = some c)
    (hg : ∀ e ∈ ec.Entities, ∀ m, makeGeomentryFromEntity e ≠ Res.panic m) :
    ∃ fs : List Feature,
      convertToFeatures ec stripPropertyUrls =
        Res.ok ([Item.marker [("id", Value.str "@context")]] ++ fs.map Item.feature ++
          (if c.Token ≠ "" then
            [Item.marker [("id", Value.str "@continuation"), ("token", Value.str c.Token)]]
          else [])) ∧
      List.Forall₂
        (fun e f => f.Id = e.ID ∧ f.IsDeleted = e.IsDeleted ∧ f.Type_ = "Feature")
        ec.Entities fs := by
  obtain ⟨fs, hfs, hall⟩ :=
    appendFeatures_of_no_panic ec.Entities [Item.marker [("id", Value.str "@context")]] hg
  refine ⟨fs, ?_, ?_⟩
  · have hstore : GoMap.store ([] : GoMap Value) "id" (Value.str "@context")
        = [("id", Value.str "@context")] := rfl
    have hstore2 : GoMap.store (GoMap.store ([] : GoMap Value) "id" (Value.str "@continuation"))
        "token" (Value.str c.Token)
        = [("id", Value.str "@continuation"), ("token", Value.str c.Token)] := by
      simp [GoMap.store]
    simp only [convertToFeatures, hstore, hstore2, hfs, hc]
    by_cases ht : c.Token = "" <;> simp [ht]
  · refine List.Forall₂.imp ?_ hall
    intro e f hf
    by_cases hp : ∀ m, makeGeomentryFromEntity e ≠ Res.panic m
    · obtain ⟨f', hf', h1, h2, h3, -⟩ := featureOfEntity_of_no_panic e hp
      rw [hf] at hf'
      cases hf'
      exact ⟨h1, h2, h3⟩
    · exfalso
      apply hp
      intro m hm
      simp [featureOfEntity, hm] at hf

/-- Witness for `convertToFeatures_sequence`: a collection of one entity without
geometry type, with the continuation token `t1`. -/
theorem convertToFeatures_sequence_witness :
    ∃ fs : List Feature,
      convertToFeatures colorCollection true =
        Res.ok ([Item.marker [("id", Value.str "@context")]] ++ fs.map Item.feature ++
          (if (Continuation.mk "t1").Token ≠ "" then
            [Item.marker [("id", Value.str "@continuation"),
              ("token", Value.str (Continuation.mk "t1").Token)]]
          else [])) ∧
      List.Forall₂
        (fun e f => f.Id = e.ID ∧ f.IsDeleted = e.IsDeleted ∧ f.Type_ = "Feature")
        colorCollection.Entities fs :=
  convertToFeatures_sequence colorCollection true ⟨"t1"⟩ rfl (by
    intro e he m hm
    have he' : e = colorEntity := by simpa [colorCollection] using he
    subst he'
    have hval : makeGeomentryFromEntity colorEntity
        = Res.error (GoError.New "unknown geometry type: ") := rfl
    rw [hval] at hm
    cases hm)

/-- C1, counterexample.  A collection whose `Continuation` is present with the
empty token gets no continuation marker; a collection with no `Continuation`, as
`NewEntityCollection` is, makes `convertToFeatures` panic on
`ec.Continuation.Token` instead of returning the one-element sequence; and a
collection with an entity of type `Point` without coordinates makes it panic in
`makeGeomentryFromEntity`. -/
theorem convertToFeatures_marker_counterexample :
    emptyTokenCollection.Continuation = some ⟨""⟩ ∧
    convertToFeatures emptyTokenCollection false
      = Res.ok [Item.marker [("id", Value.str "@context")]] ∧
    NewEntityCollection.Continuation = none ∧
    convertToFeatures NewEntityCollection false
      = Res.panic "invalid memory address or nil pointer dereference" ∧
    pointWithoutCoordinates.Continuation = some ⟨"t1"⟩ ∧
    convertToFeatures pointWithoutCoordinates false
      = Res.panic "interface conversion: interface \x7b\x7d is not []interface \x7b\x7d" :=
  ⟨rfl, rfl, rfl, rfl, rfl, rfl⟩

/-- C5, at the failing input.  With `stripPropertyUrls = false` the feature of an
entity whose only property has the key `http://example.org/ns#color` has the
property under the key `color`: the key is rewritten although the flag is off,
and the result is the same as with the flag on. -/
theorem convertToFeatures_ignores_flag :
    colorCollection.Continuation = some ⟨"t1"⟩ ∧
    colorEntity.Properties = [("http://example.org/ns#color", Value.str "red")] ∧
    convertToFeatures colorCollection false =
      Res.ok
        [Item.marker [("id", Value.str "@context")],
         Item.feature
          { Id := "http://example.org/e1", Type_ := "Feature", BoundingBox := [],
            Geometry := none, Properties := [("color", Value.str "red")],
            AssetType := "", AssetLink := "", IsDeleted := false },
         Item.marker [("id", Value.str "@continuation"), ("token", Value.str "t1")]] ∧
    convertToFeatures colorCollection false = convertToFeatures colorCollection true :=
  ⟨rfl, rfl, rfl, rfl⟩

/-! ## The parser at concrete documents -/

/-- C3, at the failing inputs.  The document `[ctx, {"id": "a"}]` parses to one
entity `http://x/a`.  With the unknown key `extra` added to the entity, holding
the array `[1]`, `Parse` fails (only the `[` is consumed as the value, and the
`1` after it is an unexpected value in the entity); holding the object
`{"id": "b"}`, `Parse` succeeds with a different entity, `http://x/b` (the
members of the unknown object are read as members of the entity). -/
theorem Parse_unknown_key_composite_value :
    NewEntityParser.Parse (document [xContextDecl, JSON.obj [("id", JSON.str "a")]]) =
      Outcome.returned
        ⟨{ Context := xContext, Entities := [NewEntity "http://x/a"], Continuation := none }⟩
        none ∧
    NewEntityParser.Parse
        (document [xContextDecl,
          JSON.obj [("id", JSON.str "a"), ("extra", JSON.arr [JSON.num 1])]]) =
      Outcome.returned ⟨{ Context := xContext, Entities := [], Continuation := none }⟩
        (some (GoError.Wrap "parsing error: Unable to parse entity: %w"
          (GoError.New "unexpected value in entity"))) ∧
    NewEntityParser.Parse
        (document [xContextDecl,
          JSON.obj [("id", JSON.str "a"), ("extra", JSON.obj [("id", JSON.str "b")])]]) =
      Outcome.returned
        ⟨{ Context := xContext, Entities := [NewEntity "http://x/b"], Continuation := none }⟩
        none :=
  ⟨rfl, rfl, rfl⟩

/-- C8, at the failing input.  In the document
`[ctx, {"id": "a", "refs": {"r": {"a": {}}}}]` the reference `r` has a JSON object
as its value, yet `Parse` returns no error: `parseRefValue` skips the `{` and
takes the key `a` of the nested object as the value of `r`. -/
theorem Parse_nested_object_in_refs :
    NewEntityParser.Parse
        (document [xContextDecl,
          JSON.obj [("id", JSON.str "a"),
            ("refs", JSON.obj [("r", JSON.obj [("a", JSON.obj [])])])]]) =
      Outcome.returned
        ⟨{ Context := xContext,
           Entities :=
            [{ NewEntity "http://x/a" with
               References := [("http://x/r", Value.str "http://x/a")] }],
           Continuation := none }⟩
        none :=
  rfl

/-! ## The parser reads only what it consumes

A successful call stays successful, with the same result, when more fuel is given
and more tokens follow the ones it has read. -/

theorem parseRefArrayLoop_frame (k : Nat) (r : List Token) (ctx : Context) :
    ∀ (n : Nat) (array : List String) (ts : List Token) (v : List String) (ts' : List Token),
      parseRefArrayLoop n ctx array ts = Res.ok (v, ts') →
      parseRefArrayLoop (n + k) ctx array (ts ++ r) = Res.ok (v, ts' ++ r) := by
  intro n
  induction n with
  | zero => intro array ts v ts' h; simp [parseRefArrayLoop] at h
  | succ n ih =>
    intro array ts v ts' h
    rw [Nat.add_right_comm]
    rcases ts with _ | ⟨t, ts⟩
    · simp [parseRefArrayLoop] at h
    rcases t with d | s | f | b | _
    · cases d <;>
        simp only [parseRefArrayLoop, List.cons_append, List.append_eq, reduceCtorEq,
          ↓reduceIte, Res.ok.injEq, Prod.mk.injEq] at h ⊢
      · exact ih _ _ _ _ h
      · exact ⟨h.1, by rw [h.2]⟩
      · exact ih _ _ _ _ h
      · exact ih _ _ _ _ h
    · simp only [parseRefArrayLoop, List.cons_append, List.append_eq] at h ⊢
      split at h
      · exact ih _ _ _ _ h
      all_goals simp at h
    all_goals simp [parseRefArrayLoop] at h

theorem parseRefValue_frame (k : Nat) (r : List Token) (ctx : Context) :
    ∀ (n : Nat) (ts : List Token) (v : Value) (ts' : List Token),
      parseRefValue n ctx ts = Res.ok (v, ts') →
      parseRefValue (n + k) ctx (ts ++ r) = Res.ok (v, ts' ++ r) := by
  intro n
  induction n with
  | zero => intro ts v ts' h; simp [parseRefValue] at h
  | succ n ih =>
    intro ts v ts' h
    rw [Nat.add_right_comm]
    rcases ts with _ | ⟨t, ts⟩
    · simp [parseRefValue] at h
    rcases t with d | s | f | b | _
    · cases d <;>
        simp only [parseRefValue, parseRefArray, List.cons_append, List.append_eq, reduceCtorEq,
          ↓reduceIte] at h ⊢
      · split at h
        · rename_i heq
          rw [parseRefArrayLoop_frame k r ctx _ _ _ _ _ heq]
          simp only [Res.ok.injEq, Prod.mk.injEq] at h ⊢
          exact ⟨h.1, by rw [h.2]⟩
        all_goals simp at h
      · exact ih _ _ _ h
      · exact ih _ _ _ h
      · exact ih _ _ _ h
    · simp only [parseRefValue, List.cons_append, List.append_eq] at h ⊢
      split at h
      · simp only [Res.ok.injEq, Prod.mk.injEq] at h ⊢
        exact ⟨h.1, by rw [h.2]⟩
      all_goals simp at h
    all_goals simp [parseRefValue] at h

theorem parseReferencesLoop_frame (k : Nat) (r : List Token) (ctx : Context) :
    ∀ (n : Nat) (refs : GoMap Value) (ts : List Token) (v : GoMap Value) (ts' : List Token),
      parseReferencesLoop n ctx refs ts = Res.ok (v, ts') →
      parseReferencesLoop (n + k) ctx refs (ts ++ r) = Res.ok (v, ts' ++ r) := by
  intro n
  induction n with
  | zero => intro refs ts v ts' h; simp [parseReferencesLoop] at h
  | succ n ih =>
    intro refs ts v ts' h
    rw [Nat.add_right_comm]
    rcases ts with _ | ⟨t, ts⟩
    · simp [parseReferencesLoop] at h
    rcases t with d | s | f | b | _
    · cases d <;>
        simp only [parseReferencesLoop, List.cons_append, List.append_eq, reduceCtorEq,
          ↓reduceIte, Res.ok.injEq, Prod.mk.injEq] at h ⊢
      · exact ih _ _ _ _ h
      · exact ih _ _ _ _ h
      · exact ih _ _ _ _ h
      · exact ⟨h.1, by rw [h.2]⟩
    · simp only [parseReferencesLoop, List.cons_append, List.append_eq] at h ⊢
      split at h
      · rename_i heq
        rw [parseRefValue_frame k r ctx _ _ _ _ heq]
        simp only
        split at h
        · exact ih _ _ _ _ h
        all_goals simp at h
      all_goals simp at h
    all_goals simp [parseReferencesLoop] at h

theorem parseReferences_frame (k : Nat) (r : List Token) (ctx : Context)
    (n : Nat) (ts : List Token) (v : GoMap Value) (ts' : List Token)
    (h : parseReferences n ctx ts = Res.ok (v, ts')) :
    parseReferences (n + k) ctx (ts ++ r) = Res.ok (v, ts' ++ r) := by
  rcases ts with _ | ⟨t, ts⟩
  · simp [parseReferences] at h
  · exact parseReferencesLoop_frame k r ctx n _ ts v ts' h

/-- The four mutually recursive parser functions: a successful call with fuel `n`
on `ts` gives the same value with fuel `n + k` on `ts ++ r`, and leaves `r` after
what it left before. -/
theorem parse_frame_mutual (k : Nat) (r : List Token) (ctx : Context) (n : Nat) :
    (∀ (ts : List Token) (v : Value) (ts' : List Token),
      parseValue n ctx ts = Res.ok (v, ts') →
      parseValue (n + k) ctx (ts ++ r) = Res.ok (v, ts' ++ r)) ∧
    (∀ (array : List Value) (ts : List Token) (v : List Value) (ts' : List Token),
      parseArrayLoop n ctx array ts = Res.ok (v, ts') →
      parseArrayLoop (n + k) ctx array (ts ++ r) = Res.ok (v, ts' ++ r)) ∧
    (∀ (props : GoMap Value) (ts : List Token) (v : GoMap Value) (ts' : List Token),
      parsePropertiesLoop n ctx props ts = Res.ok (v, ts') →
      parsePropertiesLoop (n + k) ctx props (ts ++ r) = Res.ok (v, ts' ++ r)) ∧
    (∀ (e : Entity) (c : Bool) (ts : List Token) (v : Entity) (ts' : List Token),
      parseEntityLoop n ctx e c ts = Res.ok (v, ts') →
      parseEntityLoop (n + k) ctx e c (ts ++ r) = Res.ok (v, ts' ++ r)) := by
  induction n with
  | zero =>
    refine ⟨?_, ?_, ?_, ?_⟩
    · intro ts v ts' h; simp [parseValue] at h
    · intro array ts v ts' h; simp [parseArrayLoop] at h
    · intro props ts v ts' h; simp [parsePropertiesLoop] at h
    · intro e c ts v ts' h; simp [parseEntityLoop] at h
  | succ n ih =>
    obtain ⟨ihV, ihA, ihP, ihE⟩ := ih
    rw [Nat.add_right_comm]
    refine ⟨?_, ?_, ?_, ?_⟩
    · -- parseValue
      intro ts v ts' h
      rcases ts with _ | ⟨t, ts⟩
      · simp [parseValue] at h
      rcases t with d | s | f | b | _
      · cases d <;>
          simp only [parseValue, List.cons_append, List.append_eq, reduceCtorEq,
            ↓reduceIte] at h ⊢
        · split at h
          · rename_i heq
            rw [ihA _ _ _ _ heq]
            simp only [Res.ok.injEq, Prod.mk.injEq] at h ⊢
            exact ⟨h.1, by rw [h.2]⟩
          all_goals simp at h
        · exact ihV _ _ _ h
        · split at h
          · rename_i heq
            rw [ihE _ _ _ _ _ heq]
            simp only [Res.ok.injEq, Prod.mk.injEq] at h ⊢
            exact ⟨h.1, by rw [h.2]⟩
          all_goals simp at h
        · exact ihV _ _ _ h
      all_goals
        simp only [parseValue, List.cons_append, List.append_eq, Res.ok.injEq,
          Prod.mk.injEq] at h ⊢
        exact ⟨h.1, by rw [h.2]⟩
    · -- parseArrayLoop
      intro array ts v ts' h
      rcases ts with _ | ⟨t, ts⟩
      · simp [parseArrayLoop] at h
      rcases t with d | s | f | b | _
      · cases d <;>
          simp only [parseArrayLoop, List.cons_append, List.append_eq, reduceCtorEq,
            ↓reduceIte] at h ⊢
        · split at h
          · rename_i heq
            rw [ihA _ _ _ _ heq]
            exact ihA _ _ _ _ h
          all_goals simp at h
        · simp only [Res.ok.injEq, Prod.mk.injEq] at h ⊢
          exact ⟨h.1, by rw [h.2]⟩
        · split at h
          · rename_i heq
            rw [ihE _ _ _ _ _ heq]
            exact ihA _ _ _ _ h
          all_goals simp at h
        · exact ihA _ _ _ _ h
      · simp only [parseArrayLoop, List.cons_append, List.append_eq] at h ⊢
        exact ihA _ _ _ _ h
      · simp only [parseArrayLoop, List.cons_append, List.append_eq] at h ⊢
        exact ihA _ _ _ _ h
      · simp only [parseArrayLoop, List.cons_append, List.append_eq] at h ⊢
        exact ihA _ _ _ _ h
      · simp [parseArrayLoop] at h
    · -- parsePropertiesLoop
      intro props ts v ts' h
      rcases ts with _ | ⟨t, ts⟩
      · simp [parsePropertiesLoop] at h
      rcases t with d | s | f | b | _
      · cases d <;>
          simp only [parsePropertiesLoop, List.cons_append, List.append_eq, reduceCtorEq,
            ↓reduceIte, Res.ok.injEq, Prod.mk.injEq] at h ⊢
        · exact ihP _ _ _ _ h
        · exact ihP _ _ _ _ h
        · exact ihP _ _ _ _ h
        · exact ⟨h.1, by rw [h.2]⟩
      · simp only [parsePropertiesLoop, List.cons_append, List.append_eq] at h ⊢
        split at h
        · rename_i heq
          rw [ihV _ _ _ heq]
          exact ihP _ _ _ _ h
        · rename_i val rest hnil heq
          rw [ihV _ _ _ heq]
          split at h
          · rename_i id hid
            have hgoal := ihP _ _ _ _ h
            cases val
            · exact absurd rfl hnil
            all_goals (simp only [hid]; exact hgoal)
          all_goals simp at h
        all_goals simp at h
      all_goals simp [parsePropertiesLoop] at h
    · -- parseEntityLoop
      intro e c ts v ts' h
      rcases ts with _ | ⟨t, ts⟩
      · simp [parseEntityLoop] at h
      rcases t with d | s | f | b | _
      · cases d <;>
          simp only [parseEntityLoop, List.cons_append, List.append_eq, reduceCtorEq,
            ↓reduceIte, Res.ok.injEq, Prod.mk.injEq] at h ⊢
        · exact ihE _ _ _ _ _ h
        · exact ihE _ _ _ _ _ h
        · exact ihE _ _ _ _ _ h
        · exact ⟨h.1, by rw [h.2]⟩
      · simp only [parseEntityLoop] at h ⊢
        by_cases h1 : s = "id"
        · rw [if_pos h1] at h ⊢
          rcases ts with _ | ⟨t2, ts2⟩
          · simp at h
          rcases t2 with d | s2 | f | b | _
          · simp at h
          · simp only [List.cons_append, List.append_eq] at h ⊢
            split at h
            · rename_i hc
              rw [if_pos hc]
              exact ihE _ _ _ _ _ h
            · rename_i hc
              rw [if_neg hc]
              split at h
              · exact ihE _ _ _ _ _ h
              all_goals simp at h
          all_goals simp at h
        rw [if_neg h1] at h ⊢
        by_cases h2 : s = "recorded"
        · rw [if_pos h2] at h ⊢
          rcases ts with _ | ⟨t2, ts2⟩
          · simp at h
          rcases t2 with d | s2 | f | b | _
          · simp at h
          · simp at h
          · simp only [List.cons_append, List.append_eq] at h ⊢
            exact ihE _ _ _ _ _ h
          all_goals simp at h
        rw [if_neg h2] at h ⊢
        by_cases h3 : s = "deleted"
        · rw [if_pos h3] at h ⊢
          rcases ts with _ | ⟨t2, ts2⟩
          · simp at h
          rcases t2 with d | s2 | f | b | _
          · simp at h
          · simp at h
          · simp at h
          · simp only [List.cons_append, List.append_eq] at h ⊢
            exact ihE _ _ _ _ _ h
          · simp at h
        rw [if_neg h3] at h ⊢
        by_cases h4 : s = "props"
        · rw [if_pos h4] at h ⊢
          rcases ts with _ | ⟨t2, ts2⟩
          · simp at h
          simp only [List.cons_append, List.append_eq] at h ⊢
          split at h
          · rename_i heq
            rw [ihP _ _ _ _ heq]
            exact ihE _ _ _ _ _ h
          all_goals simp at h
        rw [if_neg h4] at h ⊢
        by_cases h5 : s = "refs"
        · rw [if_pos h5] at h ⊢
          simp only [List.cons_append, List.append_eq] at h ⊢
          split at h
          · rename_i heq
            rw [parseReferences_frame k r ctx _ _ _ _ heq]
            exact ihE _ _ _ _ _ h
          all_goals simp at h
        rw [if_neg h5] at h ⊢
        by_cases h6 : s = "token"
        · rw [if_pos h6] at h ⊢
          split at h
          · simp at h
          · rename_i hc
            rw [if_neg hc]
            rcases ts with _ | ⟨t2, ts2⟩
            · simp at h
            simp only [List.cons_append, List.append_eq] at h ⊢
            exact ihE _ _ _ _ _ h
        rw [if_neg h6] at h ⊢
        rcases ts with _ | ⟨t2, ts2⟩
        · simp at h
        simp only [List.cons_append, List.append_eq] at h ⊢
        exact ihE _ _ _ _ _ h
      all_goals simp [parseEntityLoop] at h

theorem parseValue_frame (k : Nat) (r : List Token) (ctx : Context) (n : Nat)
    (ts : List Token) (v : Value) (ts' : List Token)
    (h : parseValue n ctx ts = Res.ok (v, ts')) :
    parseValue (n + k) ctx (ts ++ r) = Res.ok (v, ts' ++ r) :=
  (parse_frame_mutual k r ctx n).1 ts v ts' h

theorem parsePropertiesLoop_frame (k : Nat) (r : List Token) (ctx : Context) (n : Nat)
    (props : GoMap Value) (ts : List Token) (v : GoMap Value) (ts' : List Token)
    (h : parsePropertiesLoop n ctx props ts = Res.ok (v, ts')) :
    parsePropertiesLoop (n + k) ctx props (ts ++ r) = Res.ok (v, ts' ++ r) :=
  (parse_frame_mutual k r ctx n).2.2.1 props ts v ts' h

theorem parseEntity_frame (k : Nat) (r : List Token) (ctx : Context) (n : Nat)
    (ts : List Token) (v : Entity) (ts' : List Token)
    (h : parseEntity n ctx ts = Res.ok (v, ts')) :
    parseEntity (n + k) ctx (ts ++ r) = Res.ok (v, ts' ++ r) :=
  (parse_frame_mutual k r ctx n).2.2.2 emptyEntity false ts v ts' h

/-! ## Reading back the tokens of a JSON text -/

theorem JSON.tokens_head (j : JSON) :
    ∃ t ts, j.tokens = t :: ts ∧ t ≠ Token.delim Delim.rbrack ∧ t ≠ Token.delim Delim.rbrace := by
  cases j <;> simp [JSON.tokens]

theorem JSON.tokens_length_pos (j : JSON) : 0 < j.tokens.length := by
  obtain ⟨t, ts, h, -⟩ := j.tokens_head
  simp [h]

mutual
theorem readValue_tokens : (j : JSON) → ∀ (fuel : Nat) (rest : List Token),
    j.tokens.length ≤ fuel → readValue fuel (j.tokens ++ rest) = Res.ok (j, rest)
  | .null, fuel, rest, h => by
    obtain ⟨n, rfl⟩ : ∃ n, fuel = n + 1 := ⟨fuel - 1, by simp [JSON.tokens] at h; omega⟩
    simp [JSON.tokens, readValue]
  | .bool b, fuel, rest, h => by
    obtain ⟨n, rfl⟩ : ∃ n, fuel = n + 1 := ⟨fuel - 1, by simp [JSON.tokens] at h; omega⟩
    simp [JSON.tokens, readValue]
  | .num f, fuel, rest, h => by
    obtain ⟨n, rfl⟩ : ∃ n, fuel = n + 1 := ⟨fuel - 1, by simp [JSON.tokens] at h; omega⟩
    simp [JSON.tokens, readValue]
  | .str s, fuel, rest, h => by
    obtain ⟨n, rfl⟩ : ∃ n, fuel = n + 1 := ⟨fuel - 1, by simp [JSON.tokens] at h; omega⟩
    simp [JSON.tokens, readValue]
  | .arr xs, fuel, rest, h => by
    obtain ⟨n, rfl⟩ : ∃ n, fuel = n + 1 := ⟨fuel - 1, by simp [JSON.tokens] at h; omega⟩
    have hxs := readElems_tokens xs n rest (by simp [JSON.tokens] at h; omega)
    simp only [JSON.tokens, List.cons_append, List.append_assoc, List.singleton_append,
      List.nil_append, readValue, hxs]
  | .obj kvs, fuel, rest, h => by
    obtain ⟨n, rfl⟩ : ∃ n, fuel = n + 1 := ⟨fuel - 1, by simp [JSON.tokens] at h; omega⟩
    have hkvs := readFields_tokens kvs n rest (by simp [JSON.tokens] at h; omega)
    simp only [JSON.tokens, List.cons_append, List.append_assoc, List.singleton_append,
      List.nil_append, readValue, hkvs]
theorem readElems_tokens : (xs : List JSON) → ∀ (fuel : Nat) (rest : List Token),
    (JSON.tokensList xs).length + 1 ≤ fuel →
    readElems fuel (JSON.tokensList xs ++ Token.delim Delim.rbrack :: rest) = Res.ok (xs, rest)
  | [], fuel, rest, h => by
    obtain ⟨n, rfl⟩ : ∃ n, fuel = n + 1 := ⟨fuel - 1, by omega⟩
    simp [JSON.tokensList, readElems]
  | x :: xs, fuel, rest, h => by
    obtain ⟨n, rfl⟩ : ∃ n, fuel = n + 1 := ⟨fuel - 1, by omega⟩
    have hpos := x.tokens_length_pos
    simp only [JSON.tokensList, List.length_append] at h
    have hx := readValue_tokens x n (JSON.tokensList xs ++ Token.delim Delim.rbrack :: rest)
      (by omega)
    have hxs := readElems_tokens xs n rest (by omega)
    obtain ⟨t, ts, ht, hne, -⟩ := x.tokens_head
    simp only [JSON.tokensList, List.append_assoc]
    rw [ht] at hx ⊢
    simp only [List.cons_append] at hx ⊢
    simp only [readElems, hne, if_false, hx, hxs]
theorem readFields_tokens : (kvs : List (String × JSON)) → ∀ (fuel : Nat) (rest : List Token),
    (JSON.tokensFields kvs).length + 1 ≤ fuel →
    readFields fuel (JSON.tokensFields kvs ++ Token.delim Delim.rbrace :: rest)
      = Res.ok (kvs, rest)
  | [], fuel, rest, h => by
    obtain ⟨n, rfl⟩ : ∃ n, fuel = n + 1 := ⟨fuel - 1, by omega⟩
    simp [JSON.tokensFields, readFields]
  | (key, v) :: kvs, fuel, rest, h => by
    obtain ⟨n, rfl⟩ : ∃ n, fuel = n + 1 := ⟨fuel - 1, by omega⟩
    simp only [JSON.tokensFields, List.length_cons, List.length_append] at h
    have hv := readValue_tokens v n (JSON.tokensFields kvs ++ Token.delim Delim.rbrace :: rest)
      (by omega)
    have hkvs := readFields_tokens kvs n rest (by omega)
    simp only [JSON.tokensFields, List.cons_append, List.append_assoc, readFields,
      List.append_eq, hv, hkvs]
end

theorem Decode_tokens (j : JSON) (fuel : Nat) (rest : List Token) (h : j.tokens.length ≤ fuel) :
    Decode fuel (j.tokens ++ rest) =
      match j with
      | JSON.obj kvs => Res.ok (decodeObject kvs, rest)
      | JSON.null => Res.ok ([], rest)
      | _ =>
        Res.error
          (GoError.New "json: cannot unmarshal into Go value of type map[string]interface \x7b\x7d") := by
  unfold Decode
  rw [readValue_tokens j fuel rest h]
  cases j <;> rfl

/-! ## The fuel of `Parse` is never used up -/

theorem Progress.mono {α : Type} {ts ts2 : List Token} {res : Res (α × List Token)}
    (h : Progress ts res) (hle : ts.length ≤ ts2.length) : Progress ts2 res := by
  cases res with
  | ok p => obtain ⟨a, rest⟩ := p; simp only [Progress] at h ⊢; omega
  | error e => trivial
  | panic m => trivial
  | outOfFuel => exact h

theorem Progress.cons {α : Type} {t : Token} {ts : List Token} {res : Res (α × List Token)}
    (h : Progress ts res) : Progress (t :: ts) res :=
  h.mono (by simp)

theorem produceCanonicalURI_ok_or_error (ctx : Context) (value : String) :
    (∃ id, produceCanonicalURI ctx value = Res.ok id) ∨
    (∃ err, produceCanonicalURI ctx value = Res.error err) := by
  unfold produceCanonicalURI
  simp only [Context.GetNamespaceExpansionForPrefix]
  split
  · exact Or.inl ⟨_, rfl⟩
  · split
    · rename_i pfx _ _
      cases GoMap.lookup ctx.prefixToExpansionMappings pfx with
      | none => exact Or.inr ⟨_, rfl⟩
      | some e => exact Or.inl ⟨_, rfl⟩
    · cases GoMap.lookup ctx.prefixToExpansionMappings "_" with
      | none => exact Or.inr ⟨_, rfl⟩
      | some e => exact Or.inl ⟨_, rfl⟩

theorem parseRefArrayLoop_progress (ctx : Context) :
    ∀ (n : Nat) (array : List String) (ts : List Token), ts.length < n →
      Progress ts (parseRefArrayLoop n ctx array ts) := by
  intro n
  induction n with
  | zero => intro array ts h; omega
  | succ n ih =>
    intro array ts h
    rcases ts with _ | ⟨t, ts⟩
    · simp [parseRefArrayLoop, Progress]
    have hlen : ts.length < n := by simp only [List.length_cons] at h; omega
    rcases t with d | s | f | b | _
    · cases d <;> simp only [parseRefArrayLoop, reduceCtorEq, ↓reduceIte]
      · exact (ih _ _ hlen).cons
      · simp [Progress]
      · exact (ih _ _ hlen).cons
      · exact (ih _ _ hlen).cons
    · rcases produceCanonicalURI_ok_or_error ctx s with ⟨id, hid⟩ | ⟨e, he⟩
      · simp only [parseRefArrayLoop, hid]
        exact (ih _ _ hlen).cons
      · simp [parseRefArrayLoop, he, Progress]
    all_goals simp [parseRefArrayLoop, Progress]

theorem parseRefValue_progress (ctx : Context) :
    ∀ (n : Nat) (ts : List Token), ts.length < n → Progress ts (parseRefValue n ctx ts) := by
  intro n
  induction n with
  | zero => intro ts h; omega
  | succ n ih =>
    intro ts h
    rcases ts with _ | ⟨t, ts⟩
    · simp [parseRefValue, Progress]
    have hlen : ts.length < n := by simp only [List.length_cons] at h; omega
    rcases t with d | s | f | b | _
    · cases d <;> simp only [parseRefValue, parseRefArray, reduceCtorEq, ↓reduceIte]
      · have hsub := parseRefArrayLoop_progress ctx n [] ts hlen
        rcases hres : parseRefArrayLoop n ctx [] ts with ⟨a, r⟩ | e | m | _
        · rw [hres] at hsub
          simp only [Progress, List.length_cons] at hsub ⊢
          omega
        · simp [Progress]
        · simp [Progress]
        · rw [hres] at hsub; exact hsub.elim
      · exact (ih _ hlen).cons
      · exact (ih _ hlen).cons
      · exact (ih _ hlen).cons
    · rcases produceCanonicalURI_ok_or_error ctx s with ⟨id, hid⟩ | ⟨e, he⟩
      · simp [parseRefValue, hid, Progress]
      · simp [parseRefValue, he, Progress]
    all_goals simp [parseRefValue, Progress]

theorem parseReferencesLoop_progress (ctx : Context) :
    ∀ (n : Nat) (refs : GoMap Value) (ts : List Token), ts.length < n →
      Progress ts (parseReferencesLoop n ctx refs ts) := by
  intro n
  induction n with
  | zero => intro refs ts h; omega
  | succ n ih =>
    intro refs ts h
    rcases ts with _ | ⟨t, ts⟩
    · simp [parseReferencesLoop, Progress]
    have hlen : ts.length < n := by simp only [List.length_cons] at h; omega
    rcases t with d | s | f | b | _
    · cases d <;> simp only [parseReferencesLoop, reduceCtorEq, ↓reduceIte]
      · exact (ih _ _ hlen).cons
      · exact (ih _ _ hlen).cons
      · exact (ih _ _ hlen).cons
      · simp [Progress]
    · have hsub := parseRefValue_progress ctx n ts hlen
      simp only [parseReferencesLoop]
      rcases hres : parseRefValue n ctx ts with ⟨a, r⟩ | e | m | _
      · rw [hres] at hsub
        simp only [Progress] at hsub
        rcases produceCanonicalURI_ok_or_error ctx s with ⟨id, hid⟩ | ⟨e, he⟩
        · simp only [hid]
          exact (ih _ r (by omega)).mono (by simp only [List.length_cons]; omega)
        · simp [he, Progress]
      · simp [Progress]
      · simp [Progress]
      · rw [hres] at hsub; exact hsub.elim
    all_goals simp [parseReferencesLoop, Progress]

theorem parseReferences_progress (ctx : Context) (n : Nat) (ts : List Token)
    (h : ts.length ≤ n) : Progress ts (parseReferences n ctx ts) := by
  rcases ts with _ | ⟨t, ts⟩
  · simp [parseReferences, Progress]
  · exact (parseReferencesLoop_progress ctx n [] ts (by simpa using h)).cons

theorem parse_progress_mutual (ctx : Context) (n : Nat) :
    (∀ (ts : List Token), ts.length < n → Progress ts (parseValue n ctx ts)) ∧
    (∀ (array : List Value) (ts : List Token), ts.length < n →
      Progress ts (parseArrayLoop n ctx array ts)) ∧
    (∀ (props : GoMap Value) (ts : List Token), ts.length < n →
      Progress ts (parsePropertiesLoop n ctx props ts)) ∧
    (∀ (e : Entity) (c : Bool) (ts : List Token), ts.length < n →
      Progress ts (parseEntityLoop n ctx e c ts)) := by
  induction n with
  | zero =>
    refine ⟨?_, ?_, ?_, ?_⟩ <;> intros <;> omega
  | succ n ih =>
    obtain ⟨ihV, ihA, ihP, ihE⟩ := ih
    refine ⟨?_, ?_, ?_, ?_⟩
    · -- parseValue
      intro ts h
      rcases ts with _ | ⟨t, ts⟩
      · simp [parseValue, Progress]
      have hlen : ts.length < n := by simp only [List.length_cons] at h; omega
      rcases t with d | s | f | b | _
      · cases d <;> simp only [parseValue, reduceCtorEq, ↓reduceIte]
        · have hsub := ihA [] ts hlen
          rcases hres : parseArrayLoop n ctx [] ts with ⟨a, r⟩ | e | m | _
          · rw [hres] at hsub
            simp only [Progress, List.length_cons] at hsub ⊢
            omega
          · simp [Progress]
          · simp [Progress]
          · rw [hres] at hsub; exact hsub.elim
        · exact (ihV _ hlen).cons
        · have hsub := ihE emptyEntity false ts hlen
          rcases hres : parseEntityLoop n ctx emptyEntity false ts with ⟨a, r⟩ | e | m | _
          · rw [hres] at hsub
            simp only [Progress, List.length_cons] at hsub ⊢
            omega
          · simp [Progress]
          · simp [Progress]
          · rw [hres] at hsub; exact hsub.elim
        · exact (ihV _ hlen).cons
      all_goals simp [parseValue, Progress]
    · -- parseArrayLoop
      intro array ts h
      rcases ts with _ | ⟨t, ts⟩
      · simp [parseArrayLoop, Progress]
      have hlen : ts.length < n := by simp only [List.length_cons] at h; omega
      rcases t with d | s | f | b | _
      · cases d <;> simp only [parseArrayLoop, reduceCtorEq, ↓reduceIte]
        · have hsub := ihA [] ts hlen
          rcases hres : parseArrayLoop n ctx [] ts with ⟨a, r⟩ | e | m | _
          · rw [hres] at hsub
            simp only [Progress] at hsub
            exact (ihA _ r (by omega)).mono (by simp only [List.length_cons]; omega)
          · simp [Progress]
          · simp [Progress]
          · rw [hres] at hsub; exact hsub.elim
        · simp [Progress]
        · have hsub := ihE emptyEntity false ts hlen
          rcases hres : parseEntityLoop n ctx emptyEntity false ts with ⟨a, r⟩ | e | m | _
          · rw [hres] at hsub
            simp only [Progress] at hsub
            exact (ihA _ r (by omega)).mono (by simp only [List.length_cons]; omega)
          · simp [Progress]
          · simp [Progress]
          · rw [hres] at hsub; exact hsub.elim
        · exact (ihA _ _ hlen).cons
      · simp only [parseArrayLoop]; exact (ihA _ _ hlen).cons
      · simp only [parseArrayLoop]; exact (ihA _ _ hlen).cons
      · simp only [parseArrayLoop]; exact (ihA _ _ hlen).cons
      · simp [parseArrayLoop, Progress]
    · -- parsePropertiesLoop
      intro props ts h
      rcases ts with _ | ⟨t, ts⟩
      · simp [parsePropertiesLoop, Progress]
      have hlen : ts.length < n := by simp only [List.length_cons] at h; omega
      rcases t with d | s | f | b | _
      · cases d <;> simp only [parsePropertiesLoop, reduceCtorEq, ↓reduceIte]
        · exact (ihP _ _ hlen).cons
        · exact (ihP _ _ hlen).cons
        · exact (ihP _ _ hlen).cons
        · simp [Progress]
      · have hsub := ihV ts hlen
        simp only [parsePropertiesLoop]
        rcases hres : parseValue n ctx ts with ⟨a, r⟩ | e | m | _
        · rw [hres] at hsub
          simp only [Progress] at hsub
          have hmono : ∀ props', Progress (Token.str s :: ts) (parsePropertiesLoop n ctx props' r) :=
            fun props' =>
              (ihP props' r (by omega)).mono (by simp only [List.length_cons]; omega)
          rcases produceCanonicalURI_ok_or_error ctx s with ⟨id, hid⟩ | ⟨e, he⟩
          · cases a <;> simp only [hid] <;> exact hmono _
          · cases a <;> first | exact hmono _ | simp [he, Progress]
        · simp [Progress]
        · simp [Progress]
        · rw [hres] at hsub; exact hsub.elim
      all_goals simp [parsePropertiesLoop, Progress]
    · -- parseEntityLoop
      intro e c ts h
      rcases ts with _ | ⟨t, ts⟩
      · simp [parseEntityLoop, Progress]
      have hlen : ts.length < n := by simp only [List.length_cons] at h; omega
      rcases t with d | s | f | b | _
      · cases d <;> simp only [parseEntityLoop, reduceCtorEq, ↓reduceIte]
        · exact (ihE _ _ _ hlen).cons
        · exact (ihE _ _ _ hlen).cons
        · exact (ihE _ _ _ hlen).cons
        · simp [Progress]
      · simp only [parseEntityLoop]
        have hstep : ∀ (t2 : Token) (ts2 : List Token) (e' : Entity) (c' : Bool),
            ts = t2 :: ts2 →
            Progress (Token.str s :: ts) (parseEntityLoop n ctx e' c' ts2) := by
          intro t2 ts2 e' c' hts
          subst hts
          exact (ihE e' c' ts2 (by simp only [List.length_cons] at hlen; omega)).mono
            (by simp only [List.length_cons]; omega)
        by_cases h1 : s = "id"
        · rw [if_pos h1]
          rcases ts with _ | ⟨t2, ts2⟩
          · simp [Progress]
          rcases t2 with d | s2 | f | b | _
          · simp [Progress]
          · simp only
            split
            · exact hstep _ _ _ _ rfl
            · rcases produceCanonicalURI_ok_or_error ctx s2 with ⟨id, hid⟩ | ⟨e, he⟩
              · simp only [hid]; exact hstep _ _ _ _ rfl
              · simp [he, Progress]
          all_goals simp [Progress]
        rw [if_neg h1]
        by_cases h2 : s = "recorded"
        · rw [if_pos h2]
          rcases ts with _ | ⟨t2, ts2⟩
          · simp [Progress]
          rcases t2 with d | s2 | f | b | _
          · simp [Progress]
          · simp [Progress]
          · exact hstep _ _ _ _ rfl
          all_goals simp [Progress]
        rw [if_neg h2]
        by_cases h3 : s = "deleted"
        · rw [if_pos h3]
          rcases ts with _ | ⟨t2, ts2⟩
          · simp [Progress]
          rcases t2 with d | s2 | f | b | _
          · simp [Progress]
          · simp [Progress]
          · simp [Progress]
          · exact hstep _ _ _ _ rfl
          · simp [Progress]
        rw [if_neg h3]
        by_cases h4 : s = "props"
        · rw [if_pos h4]
          rcases ts with _ | ⟨t2, ts2⟩
          · simp [Progress]
          have hlen2 : ts2.length < n := by simp only [List.length_cons] at hlen; omega
          have hsub := ihP [] ts2 hlen2
          simp only
          rcases hres : parsePropertiesLoop n ctx [] ts2 with ⟨a, r⟩ | e | m | _
          · rw [hres] at hsub
            simp only [Progress] at hsub
            exact (ihE _ _ r (by omega)).mono (by simp only [List.length_cons]; omega)
          · simp [Progress]
          · simp [Progress]
          · rw [hres] at hsub; exact hsub.elim
        rw [if_neg h4]
        by_cases h5 : s = "refs"
        · rw [if_pos h5]
          have hsub := parseReferences_progress ctx n ts (by omega)
          rcases hres : parseReferences n ctx ts with ⟨a, r⟩ | e | m | _
          · rw [hres] at hsub
            simp only [Progress] at hsub
            exact (ihE _ _ r (by omega)).mono (by simp only [List.length_cons]; omega)
          · simp [Progress]
          · simp [Progress]
          · rw [hres] at hsub; exact hsub.elim
        rw [if_neg h5]
        by_cases h6 : s = "token"
        · rw [if_pos h6]
          split
          · simp [Progress]
          · rcases ts with _ | ⟨t2, ts2⟩
            · simp [Progress]
            · exact hstep _ _ _ _ rfl
        rw [if_neg h6]
        rcases ts with _ | ⟨t2, ts2⟩
        · simp [Progress]
        · exact hstep _ _ _ _ rfl
      all_goals simp [parseEntityLoop, Progress]

theorem read_progress_mutual (n : Nat) :
    (∀ (ts : List Token), 2 * ts.length < n → Progress ts (readValue n ts)) ∧
    (∀ (ts : List Token), 2 * ts.length + 1 < n → Progress ts (readElems n ts)) ∧
    (∀ (ts : List Token), 2 * ts.length + 1 < n → Progress ts (readFields n ts)) := by
  induction n with
  | zero => refine ⟨?_, ?_, ?_⟩ <;> intros <;> omega
  | succ n ih =>
    obtain ⟨ihV, ihE, ihF⟩ := ih
    refine ⟨?_, ?_, ?_⟩
    · intro ts h
      rcases ts with _ | ⟨t, ts⟩
      · simp [readValue, Progress]
      simp only [List.length_cons] at h
      rcases t with d | s | f | b | _
      · cases d <;> simp only [readValue]
        · have hsub := ihE ts (by omega)
          rcases hres : readElems n ts with ⟨a, r⟩ | e | m | _
          · rw [hres] at hsub
            simp only [Progress, List.length_cons] at hsub ⊢
            omega
          · simp [Progress]
          · simp [Progress]
          · rw [hres] at hsub; exact hsub.elim
        · simp [Progress]
        · have hsub := ihF ts (by omega)
          rcases hres : readFields n ts with ⟨a, r⟩ | e | m | _
          · rw [hres] at hsub
            simp only [Progress, List.length_cons] at hsub ⊢
            omega
          · simp [Progress]
          · simp [Progress]
          · rw [hres] at hsub; exact hsub.elim
        · simp [Progress]
      all_goals simp [readValue, Progress]
    · intro ts h
      rcases ts with _ | ⟨t, ts⟩
      · simp [readElems, Progress]
      simp only [List.length_cons] at h
      simp only [readElems]
      split
      · simp [Progress]
      · have hsub := ihV (t :: ts) (by simp only [List.length_cons]; omega)
        rcases hres : readValue n (t :: ts) with ⟨a, r⟩ | e | m | _
        · rw [hres] at hsub
          simp only [Progress, List.length_cons] at hsub
          have hsub2 := ihE r (by omega)
          simp only
          rcases hres2 : readElems n r with ⟨a2, r2⟩ | e | m | _
          · rw [hres2] at hsub2
            simp only [Progress, List.length_cons] at hsub2 ⊢
            omega
          · simp [Progress]
          · simp [Progress]
          · rw [hres2] at hsub2; exact hsub2.elim
        · simp [Progress]
        · simp [Progress]
        · rw [hres] at hsub; exact hsub.elim
    · intro ts h
      rcases ts with _ | ⟨t, ts⟩
      · simp [readFields, Progress]
      simp only [List.length_cons] at h
      rcases t with d | s | f | b | _
      · cases d <;> simp [readFields, Progress]
      · simp only [readFields]
        have hsub := ihV ts (by omega)
        rcases hres : readValue n ts with ⟨a, r⟩ | e | m | _
        · rw [hres] at hsub
          simp only [Progress] at hsub
          have hsub2 := ihF r (by omega)
          simp only
          rcases hres2 : readFields n r with ⟨a2, r2⟩ | e | m | _
          · rw [hres2] at hsub2
            simp only [Progress, List.length_cons] at hsub2 ⊢
            omega
          · simp [Progress]
          · simp [Progress]
          · rw [hres2] at hsub2; exact hsub2.elim
        · simp [Progress]
        · simp [Progress]
        · rw [hres] at hsub; exact hsub.elim
      all_goals simp [readFields, Progress]

theorem Decode_progress (n : Nat) (ts : List Token) (h : 2 * ts.length < n) :
    Progress ts (Decode n ts) := by
  have hsub := (read_progress_mutual n).1 ts h
  unfold Decode
  rcases hres : readValue n ts with ⟨a, r⟩ | e | m | _
  · rw [hres] at hsub
    simp only [Progress] at hsub
    cases a <;> simp [Progress, hsub]
  · simp [Progress]
  · simp [Progress]
  · rw [hres] at hsub; exact hsub.elim

theorem parseLoop_ne_outOfFuel (emitEntity : EntityParser → Entity → Emitted) :
    ∀ (n : Nat) (esp : EntityParser) (ts : List Token), ts.length < n →
      parseLoop n esp emitEntity ts ≠ Outcome.outOfFuel := by
  intro n
  induction n with
  | zero => intro esp ts h; omega
  | succ n ih =>
    intro esp ts h
    rcases ts with _ | ⟨t, ts⟩
    · simp [parseLoop]
    have hlen : ts.length < n := by simp only [List.length_cons] at h; omega
    rcases t with d | s | f | b | _
    · cases d <;> simp only [parseLoop, reduceCtorEq, ↓reduceIte]
      · exact ih _ _ hlen
      · exact ih _ _ hlen
      · have hsub := (parse_progress_mutual esp.entityCollection.Context n).2.2.2
          emptyEntity false ts hlen
        simp only [parseEntity]
        rcases hres : parseEntityLoop n esp.entityCollection.Context emptyEntity false ts
          with ⟨a, r⟩ | e | m | _
        · rw [hres] at hsub
          simp only [Progress] at hsub
          simp only
          rcases emitEntity esp a with ⟨esp', _ | err⟩ | m
          · exact ih _ _ (by omega)
          · simp
          · simp
        · simp
        · simp
        · rw [hres] at hsub; exact hsub.elim
      · exact ih _ _ hlen
    all_goals simp [parseLoop]

theorem storeNamespaces_ne_outOfFuel (m : GoMap JSON) (ctx : Context) :
    storeNamespaces ctx m ≠ Res.outOfFuel := by
  induction m generalizing ctx with
  | nil => simp [storeNamespaces]
  | cons kv m ih =>
    obtain ⟨key, v⟩ := kv
    cases v <;> simp [storeNamespaces, ih]

/-- `Parse` never stops for lack of fuel: on every token stream it returns or
panics. -/
theorem Parse_ne_outOfFuel (esp : EntityParser) (reader : List Token) :
    esp.Parse reader ≠ Outcome.outOfFuel := by
  unfold EntityParser.Parse parse
  rcases reader with _ | ⟨t, ts⟩
  · simp
  simp only [List.length_cons]
  split
  · simp
  · have hsub := Decode_progress (2 * (ts.length + 1) + 2) ts (by omega)
    rcases hres : Decode (2 * (ts.length + 1) + 2) ts with ⟨a, r⟩ | e | m | _
    · rw [hres] at hsub
      simp only [Progress] at hsub
      simp only
      split
      · split
        · split
          · split
            · simp only [EntityParser.emitContext]
              exact parseLoop_ne_outOfFuel _ _ _ _ (by omega)
            · simp
            · simp
            · rename_i hns
              exact absurd hns (storeNamespaces_ne_outOfFuel _ _)
          · simp
        · simp
      · simp
    · simp
    · simp
    · rw [hres] at hsub; exact hsub.elim

/-! ## The context declaration -/

/-- C10.  When the stream starts with `[` and the first element of the array is
any JSON value other than an object whose `id` is the string `@context` (no `id`,
another `id`, or not an object at all), then, whatever tokens follow, `Parse`
returns an error and leaves the parser, and with it the entity sequence of the
collection, as it was. -/
theorem Parse_first_not_context (esp : EntityParser) (first : JSON) (rest : List Token)
    (h : ∀ members, first = JSON.obj members →
      GoMap.lookup (decodeObject members) "id" ≠ some (JSON.str "@context")) :
    ∃ err,
      esp.Parse (Token.delim Delim.lbrack :: (first.tokens ++ rest))
        = Outcome.returned esp (some err) := by
  have hfuel : first.tokens.length
      ≤ 2 * (Token.delim Delim.lbrack :: (first.tokens ++ rest)).length + 2 := by
    simp only [List.length_cons, List.length_append]
    omega
  simp only [EntityParser.Parse, parse, ne_eq, not_true_eq_false, if_false]
  rw [Decode_tokens first _ rest hfuel]
  cases first with
  | obj members =>
    have hm := h members rfl
    simp only
    split
    · rename_i id hid
      split
      · rename_i hctx
        subst hctx
        exact absurd hid hm
      · exact ⟨_, rfl⟩
    · exact ⟨_, rfl⟩
  | null => exact ⟨_, rfl⟩
  | bool b => exact ⟨_, rfl⟩
  | num f => exact ⟨_, rfl⟩
  | str s => exact ⟨_, rfl⟩
  | arr xs => exact ⟨_, rfl⟩

/-- Witness for `Parse_first_not_context`: the first element is an entity, not the
context declaration. -/
theorem Parse_first_not_context_witness :
    ∃ err,
      NewEntityParser.Parse
          (Token.delim Delim.lbrack ::
            ((JSON.obj [("id", JSON.str "a")]).tokens ++
              (xContextDecl.tokens ++ [Token.delim Delim.rbrack])))
        = Outcome.returned NewEntityParser (some err) :=
  Parse_first_not_context NewEntityParser (JSON.obj [("id", JSON.str "a")])
    (xContextDecl.tokens ++ [Token.delim Delim.rbrack]) (by
      intro members hm
      cases hm
      simp [decodeObject, GoMap.store, GoMap.lookup])

/-! ## A document with the default namespace -/

theorem produceCanonicalURI_bare (ctx : Context) (value : String)
    (hfull : isFullURI value = false) (hcolon : ':' ∉ value.data) :
    produceCanonicalURI ctx value =
      match GoMap.lookup ctx.prefixToExpansionMappings "_" with
      | some expansion => Res.ok (expansion ++ value)
      | none => Res.error (GoError.New "no expansion for prefix: _") := by
  apply produceCanonicalURI_of_isCURIE_false ctx value hfull
  simp [isCURIE, hfull, strings.Split, strings.splitChars_of_not_mem _ _ hcolon]

/-- C7 (as amended).  For every expansion `x`, bare id `a` other than `@continuation`
and bare property key `k` (bare: not starting with `http://` or `https://` and
without `:`) and every string `v`, provided that `x ++ a` is not `@continuation`
either: on a fresh parser the document
`[{"id": "@context", "namespaces": {"_": x}}, {"id": a, "props": {k: v}}]` parses
without error into exactly one entity, with ID `x ++ a`, with the property map
`{x ++ k ↦ v}` (the value `v` as written) and with no references. -/
theorem Parse_default_namespace (x a k v : String)
    (ha : isFullURI a = false ∧ ':' ∉ a.data) (hk : isFullURI k = false ∧ ':' ∉ k.data)
    (hne : a ≠ "@continuation") (hx : x ++ a ≠ "@continuation") :
    NewEntityParser.Parse
        (document [contextDecl [("_", JSON.str x)],
          JSON.obj [("id", JSON.str a), ("props", JSON.obj [(k, JSON.str v)])]]) =
      Outcome.returned
        ⟨{ Context := ⟨[("_", x)], [(x, "_")]⟩,
           Entities :=
            [{ ID := x ++ a, Recorded := 0, IsDeleted := false, References := [],
               Properties := [(x ++ k, Value.str v)] }],
           Continuation := none }⟩
        none := by
  have hca := produceCanonicalURI_bare ⟨[("_", x)], [(x, "_")]⟩ a ha.1 ha.2
  have hck := produceCanonicalURI_bare ⟨[("_", x)], [(x, "_")]⟩ k hk.1 hk.2
  simp only [GoMap.lookup, if_true] at hca hck
  simp [EntityParser.Parse, parse, document, contextDecl, JSON.tokens, JSON.tokensList,
    JSON.tokensFields, Decode, readValue, readFields, readElems, decodeObject, GoMap.store,
    GoMap.lookup, storeNamespaces, NewContext, Context.StorePrefixExpansionMapping,
    EntityParser.emitContext, EntityParser.emitEntity, parseLoop, parseEntity, parseEntityLoop,
    parsePropertiesLoop, parseValue, NewEntityParser, NewEntityCollection, emptyEntity,
    hca, hck, hne, hx]

/-- Witness for `Parse_default_namespace`: the end-to-end scenario of the
specification, `x = http://x/`, `a = a`, `k = refs_literal`, `v = v`. -/
theorem Parse_default_namespace_witness :
    NewEntityParser.Parse
        (document [contextDecl [("_", JSON.str "http://x/")],
          JSON.obj [("id", JSON.str "a"),
            ("props", JSON.obj [("refs_literal", JSON.str "v")])]]) =
      Outcome.returned
        ⟨{ Context := ⟨[("_", "http://x/")], [("http://x/", "_")]⟩,
           Entities :=
            [{ ID := "http://x/" ++ "a", Recorded := 0, IsDeleted := false, References := [],
               Properties := [("http://x/" ++ "refs_literal", Value.str "v")] }],
           Continuation := none }⟩
        none :=
  Parse_default_namespace "http://x/" "a" "refs_literal" "v" (by decide) (by decide)
    (by decide) (by decide)

/-- C7, counterexample.  With the expansion `@` and the bare id `continuation`
(which is not `@continuation`) the canonical id is `@continuation`, so `Parse`
takes the entity for the continuation sentinel and panics on its missing `token`
property instead of returning one entity. -/
theorem Parse_default_namespace_counterexample :
    (isFullURI "continuation" = false ∧ ':' ∉ "continuation".data) ∧
    (isFullURI "k" = false ∧ ':' ∉ "k".data) ∧
    "continuation" ≠ "@continuation" ∧
    NewEntityParser.Parse
        (document [contextDecl [("_", JSON.str "@")],
          JSON.obj [("id", JSON.str "continuation"),
            ("props", JSON.obj [("k", JSON.str "v")])]]) =
      Outcome.panic "interface conversion: interface \x7b\x7d is not string" :=
  ⟨by decide, by decide, by decide, rfl⟩

/-! ## Documents: context declaration and element loop -/

theorem GoMap.store_map_str (m : GoMap String) (key v : String) :
    GoMap.store (m.map fun kv => (kv.1, JSON.str kv.2)) key (JSON.str v)
      = (GoMap.store m key v).map fun kv => (kv.1, JSON.str kv.2) := by
  induction m with
  | nil => rfl
  | cons kv m ih =>
    obtain ⟨k', v'⟩ := kv
    by_cases hk : k' = key
    · simp [GoMap.store, hk]
    · simp only [List.map_cons, GoMap.store, hk, if_false]
      rw [ih]

theorem decodeObject_namespacesJSON (ns : List (String × String)) :
    decodeObject (namespacesJSON ns)
      = (ns.foldl (fun m kv => GoMap.store m kv.1 kv.2) ([] : GoMap String)).map
          fun kv => (kv.1, JSON.str kv.2) := by
  have key : ∀ (ns : List (String × String)) (acc : GoMap String),
      (namespacesJSON ns).foldl (fun m kv => GoMap.store m kv.1 kv.2)
          (acc.map fun kv => (kv.1, JSON.str kv.2))
        = (ns.foldl (fun m kv => GoMap.store m kv.1 kv.2) acc).map
            fun kv => (kv.1, JSON.str kv.2) := by
    intro ns
    induction ns with
    | nil => intro acc; rfl
    | cons kv ns ih =>
      intro acc
      simp only [namespacesJSON, List.map_cons, List.foldl_cons]
      rw [GoMap.store_map_str]
      exact ih _
  exact key ns []

theorem storeNamespaces_strings (m : GoMap String) (ctx : Context) :
    storeNamespaces ctx (m.map fun kv => (kv.1, JSON.str kv.2))
      = Res.ok (m.foldl (fun c kv => c.StorePrefixExpansionMapping kv.1 kv.2) ctx) := by
  induction m generalizing ctx with
  | nil => rfl
  | cons kv m ih =>
    simp only [List.map_cons, storeNamespaces, List.foldl_cons]
    exact ih _

/-- After the context declaration, `parse` goes into its element loop with the
declared context stored in the collection. -/
theorem parse_contextDecl (fuel : Nat) (esp : EntityParser)
    (emitEntity : EntityParser → Entity → Emitted) (ns : List (String × String))
    (rest : List Token) (hfuel : (contextDecl (namespacesJSON ns)).tokens.length ≤ fuel) :
    parse fuel esp emitEntity EntityParser.emitContext
        (Token.delim Delim.lbrack :: ((contextDecl (namespacesJSON ns)).tokens ++ rest))
      = parseLoop fuel ⟨{ esp.entityCollection with Context := declaredContext ns }⟩
          emitEntity rest := by
  simp only [parse, ne_eq, not_true_eq_false, if_false]
  rw [Decode_tokens _ _ rest hfuel]
  simp only [contextDecl, decodeObject, List.foldl_cons, List.foldl_nil, GoMap.store,
    GoMap.lookup]
  simp only [reduceCtorEq, String.reduceEq, if_true, if_false]
  have h := decodeObject_namespacesJSON ns
  simp only [decodeObject] at h
  rw [h, storeNamespaces_strings]
  rfl

theorem parseEntity_continuationObject (n : Nat) (ctx : Context) (token : String)
    (rest : List Token) :
    parseEntity (n + 3) ctx
        (Token.str "id" :: Token.str "@continuation" :: Token.str "token" :: Token.str token ::
          Token.delim Delim.rbrace :: rest)
      = Res.ok
          ({ emptyEntity with ID := "@continuation", Properties := [("token", Value.str token)] },
            rest) := by
  simp [parseEntity, parseEntityLoop, tokenValue]

theorem parseEntity_of_entityOfObject (ctx : Context) (members : List (String × JSON))
    (e : Entity) (h : entityOfObject ctx (JSON.obj members) = some e) (fuel : Nat)
    (rest : List Token) (hfuel : (objectBody members).length ≤ fuel) :
    parseEntity fuel ctx (JSON.tokensFields members ++ Token.delim Delim.rbrace :: rest)
      = Res.ok (e, rest) := by
  have hstandalone :
      parseEntity (objectBody members).length ctx (objectBody members) = Res.ok (e, []) := by
    simp only [entityOfObject] at h
    split at h
    · rename_i e' heq
      simp only [Option.some.injEq] at h
      rw [heq, h]
    · simp at h
  have hframe := parseEntity_frame (fuel - (objectBody members).length) rest ctx _ _ _ _
    hstandalone
  have hf : (objectBody members).length + (fuel - (objectBody members).length) = fuel := by
    omega
  rw [hf] at hframe
  simpa [objectBody] using hframe

theorem parseLoop_elements (ctx : Context) (elements : List Element)
    (hel : ∀ members, Element.entity members ∈ elements →
      ∃ e, entityOfObject ctx (JSON.obj members) = some e ∧ e.ID ≠ "@continuation") :
    ∀ (esp : EntityParser) (fuel : Nat), esp.entityCollection.Context = ctx →
      (JSON.tokensList (elements.map Element.json)).length + 2 ≤ fuel →
      parseLoop fuel esp EntityParser.emitEntity
          (JSON.tokensList (elements.map Element.json) ++ [Token.delim Delim.rbrack])
        = Outcome.returned
            ⟨{ Context := ctx,
               Entities := esp.entityCollection.Entities ++ entitiesOf ctx elements,
               Continuation :=
                match lastContinuationToken elements with
                | some token => some ⟨token⟩
                | none => esp.entityCollection.Continuation }⟩
            none := by
  induction elements with
  | nil =>
    intro esp fuel hctx hfuel
    obtain ⟨n, rfl⟩ : ∃ n, fuel = n + 2 := ⟨fuel - 2, by omega⟩
    obtain ⟨⟨c, es, k⟩⟩ := esp
    simp only at hctx
    subst hctx
    simp [JSON.tokensList, parseLoop, entitiesOf, lastContinuationToken]
  | cons el els ih =>
    intro esp fuel hctx hfuel
    obtain ⟨n, rfl⟩ : ∃ n, fuel = n + 1 := ⟨fuel - 1, by omega⟩
    have ih' := ih (fun members hm => hel members (List.mem_cons_of_mem _ hm))
    cases el with
    | continuation token =>
      simp only [List.map_cons, JSON.tokensList, Element.json, JSON.tokens, JSON.tokensFields,
        List.length_cons, List.length_append, List.cons_append, List.nil_append,
        List.append_assoc, List.singleton_append, List.length_nil] at hfuel ⊢
      obtain ⟨m, rfl⟩ : ∃ m, n = m + 3 := ⟨n - 3, by omega⟩
      simp only [parseLoop, if_true, parseEntity_continuationObject, EntityParser.emitEntity,
        GoMap.lookup]
      refine Eq.trans (ih' _ (m + 3) hctx (by omega)) ?_
      simp only [entitiesOf, lastContinuationToken, List.filterMap_cons]
      cases h : (List.filterMap (fun el =>
          match el with
          | Element.continuation token => some token
          | Element.entity _ => none) els).getLast? with
      | none =>
        have hnil := List.getLast?_eq_none_iff.mp h
        simp [hnil]
      | some t =>
        have : (token :: List.filterMap (fun el =>
            match el with
            | Element.continuation token => some token
            | Element.entity _ => none) els).getLast? = some t := by
          rw [List.getLast?_cons, h]
          rfl
        simp [this]
    | entity members =>
      obtain ⟨e, he, hid⟩ := hel members (List.mem_cons_self _ _)
      simp only [List.map_cons, JSON.tokensList, Element.json, JSON.tokens,
        List.length_cons, List.length_append, List.cons_append, List.nil_append,
        List.append_assoc, List.singleton_append, List.length_nil] at hfuel ⊢
      have hpe := parseEntity_of_entityOfObject ctx members e he n
        (JSON.tokensList (els.map Element.json) ++ [Token.delim Delim.rbrack])
        (by simp only [objectBody, List.length_append, List.length_singleton]; omega)
      simp only [parseLoop, if_true, hctx, hpe, EntityParser.emitEntity, hid, if_false]
      refine Eq.trans (ih' _ n rfl (by omega)) ?_
      simp [entitiesOf, lastContinuationToken, he]

/-- The result of `Parse`, on any parser, for a document made of a context
declaration with string expansions and of elements that are continuation objects
or objects read exactly by `parseEntity` into entities other than the
sentinel. -/
theorem Parse_elements (esp : EntityParser) (ns : List (String × String))
    (elements : List Element)
    (hel : ∀ members, Element.entity members ∈ elements →
      ∃ e, entityOfObject (declaredContext ns) (JSON.obj members) = some e ∧
        e.ID ≠ "@continuation") :
    esp.Parse (document (contextDecl (namespacesJSON ns) :: elements.map Element.json))
      = Outcome.returned
          ⟨{ Context := declaredContext ns,
             Entities :=
              esp.entityCollection.Entities ++ entitiesOf (declaredContext ns) elements,
             Continuation :=
              match lastContinuationToken elements with
              | some token => some ⟨token⟩
              | none => esp.entityCollection.Continuation }⟩
          none := by
  have hdoc : document (contextDecl (namespacesJSON ns) :: elements.map Element.json)
      = Token.delim Delim.lbrack :: ((contextDecl (namespacesJSON ns)).tokens ++
          (JSON.tokensList (elements.map Element.json) ++ [Token.delim Delim.rbrack])) := by
    simp [document, JSON.tokens, JSON.tokensList]
  rw [EntityParser.Parse, hdoc, parse_contextDecl _ _ _ _ _ (by
    simp only [List.length_cons, List.length_append]; omega)]
  exact parseLoop_elements (declaredContext ns) elements hel _ _ rfl (by
    simp only [List.length_cons, List.length_append, List.length_singleton]; omega)

/-! ## The loop over the members of a `props` object -/

theorem GoMap.lookup_store {V : Type} (m : GoMap V) (key key' : String) (v : V) :
    GoMap.lookup (GoMap.store m key v) key' = if key = key' then some v else GoMap.lookup m key' := by
  induction m with
  | nil => simp [GoMap.store, GoMap.lookup]
  | cons kv m ih =>
    obtain ⟨k0, v0⟩ := kv
    by_cases h0 : k0 = key
    · subst h0
      by_cases h1 : k0 = key' <;> simp [GoMap.store, GoMap.lookup, h1]
    · by_cases h1 : k0 = key'
      · subst h1
        simp [GoMap.store, GoMap.lookup, h0, Ne.symm h0]
      · simp [GoMap.store, GoMap.lookup, h0, h1, ih]

theorem parseValue_ne_nil (ctx : Context) (v : JSON) (hv : v ≠ JSON.null) (n : Nat)
    (r : List Token) (val : Value) (r' : List Token)
    (h : parseValue n ctx (v.tokens ++ r) = Res.ok (val, r')) : val ≠ Value.nil := by
  cases n with
  | zero => simp [parseValue] at h
  | succ n =>
    cases v with
    | null => exact absurd rfl hv
    | bool b =>
      simp only [JSON.tokens, List.cons_append, parseValue, Res.ok.injEq, Prod.mk.injEq] at h
      rw [← h.1]; simp
    | num f =>
      simp only [JSON.tokens, List.cons_append, parseValue, Res.ok.injEq, Prod.mk.injEq] at h
      rw [← h.1]; simp
    | str s =>
      simp only [JSON.tokens, List.cons_append, parseValue, Res.ok.injEq, Prod.mk.injEq] at h
      rw [← h.1]; simp
    | arr xs =>
      simp only [JSON.tokens, List.cons_append, parseValue, reduceCtorEq, ↓reduceIte] at h
      split at h
      · simp only [Res.ok.injEq, Prod.mk.injEq] at h
        rw [← h.1]; simp
      all_goals simp at h
    | obj kvs =>
      simp only [JSON.tokens, List.cons_append, parseValue, reduceCtorEq, ↓reduceIte] at h
      split at h
      · simp only [Res.ok.injEq, Prod.mk.injEq] at h
        rw [← h.1]; simp
      all_goals simp at h

theorem parsePropertiesLoop_members (ctx : Context) (members : List (String × JSON))
    (hvals : ∀ kv ∈ members, kv.2 ≠ JSON.null →
      ∃ val id, parseValue kv.2.tokens.length ctx kv.2.tokens = Res.ok (val, []) ∧
        produceCanonicalURI ctx kv.1 = Res.ok id) :
    ∀ (props0 : GoMap Value) (fuel : Nat) (rest : List Token),
      (JSON.tokensFields members).length + 1 ≤ fuel →
      ∃ props,
        parsePropertiesLoop fuel ctx props0
            (JSON.tokensFields members ++ Token.delim Delim.rbrace :: rest)
          = Res.ok (props, rest) ∧
        (∀ key, (GoMap.lookup props key).isSome ↔
          ((GoMap.lookup props0 key).isSome ∨
            ∃ kv ∈ members, kv.2 ≠ JSON.null ∧ produceCanonicalURI ctx kv.1 = Res.ok key)) ∧
        ((∀ key, GoMap.lookup props0 key ≠ some Value.nil) →
          ∀ key, GoMap.lookup props key ≠ some Value.nil) := by
  induction members with
  | nil =>
    intro props0 fuel rest hfuel
    obtain ⟨n, rfl⟩ : ∃ n, fuel = n + 1 := ⟨fuel - 1, by omega⟩
    exact ⟨props0, by simp [JSON.tokensFields, parsePropertiesLoop], by simp, fun h => h⟩
  | cons kv ms ih =>
    intro props0 fuel rest hfuel
    obtain ⟨key0, v⟩ := kv
    obtain ⟨n, rfl⟩ : ∃ n, fuel = n + 1 := ⟨fuel - 1, by omega⟩
    have ih' := ih (fun kv hkv => hvals kv (List.mem_cons_of_mem _ hkv))
    simp only [JSON.tokensFields, List.length_cons, List.length_append] at hfuel
    simp only [JSON.tokensFields, List.cons_append, parsePropertiesLoop, List.append_eq,
      List.append_assoc]
    by_cases hnull : v = JSON.null
    · subst hnull
      simp only [JSON.tokens, List.length_singleton] at hfuel
      obtain ⟨m, rfl⟩ : ∃ m, n = m + 1 := ⟨n - 1, by omega⟩
      obtain ⟨props, hp, hkeys, hnil⟩ := ih' props0 (m + 1) rest (by omega)
      refine ⟨props, ?_, ?_, hnil⟩
      · simp only [JSON.tokens, List.cons_append, List.nil_append, parseValue]
        exact hp
      · intro key
        rw [hkeys key]
        simp
    · have hkv := hvals (key0, v) (List.mem_cons_self _ _) hnull
      simp only at hkv
      obtain ⟨val, id, hval, hid⟩ := hkv
      have hframe := parseValue_frame (n - v.tokens.length)
        (JSON.tokensFields ms ++ Token.delim Delim.rbrace :: rest) ctx _ _ _ _ hval
      have hf : v.tokens.length + (n - v.tokens.length) = n := by omega
      rw [hf, List.nil_append] at hframe
      have hne : val ≠ Value.nil := by
        have h0 : parseValue v.tokens.length ctx (v.tokens ++ []) = Res.ok (val, []) := by
          rw [List.append_nil]; exact hval
        exact parseValue_ne_nil ctx v hnull _ _ _ _ h0
      obtain ⟨props, hp, hkeys, hnil⟩ := ih' (GoMap.store props0 id val) n rest (by omega)
      refine ⟨props, ?_, ?_, ?_⟩
      · rw [hframe]
        cases val <;> first | exact absurd rfl hne | (simp only [hid]; exact hp)
      · intro key
        rw [hkeys key, GoMap.lookup_store]
        constructor
        · rintro (h | ⟨kv, hkv, hnn, hc⟩)
          · by_cases hk : id = key
            · subst hk
              exact Or.inr ⟨(key0, v), List.mem_cons_self _ _, hnull, hid⟩
            · rw [if_neg hk] at h
              exact Or.inl h
          · exact Or.inr ⟨kv, List.mem_cons_of_mem _ hkv, hnn, hc⟩
        · rintro (h | ⟨kv, hkv, hnn, hc⟩)
          · by_cases hk : id = key
            · rw [if_pos hk]; exact Or.inl rfl
            · rw [if_neg hk]; exact Or.inl h
          · rcases List.mem_cons.mp hkv with heq | hmem
            · subst heq
              simp only [] at hc
              rw [hid] at hc
              cases hc
              left
              simp
            · exact Or.inr ⟨kv, hmem, hnn, hc⟩
      · intro h0
        apply hnil
        intro key
        rw [GoMap.lookup_store]
        by_cases hk : id = key
        · rw [if_pos hk]
          intro hc
          exact hne (Option.some.inj hc)
        · rw [if_neg hk]
          exact h0 key

/-! ## Objects of the grammar are read token for token -/

theorem canCanonicalise_iff (ctx : Context) (value : String) :
    canCanonicalise ctx value = true ↔ ∃ id, produceCanonicalURI ctx value = Res.ok id := by
  unfold canCanonicalise
  cases produceCanonicalURI ctx value <;> simp

theorem parseRefArrayLoop_strings (ctx : Context) (xs : List JSON)
    (h : (xs.all fun x =>
      match x with
      | JSON.str s => canCanonicalise ctx s
      | _ => false) = true) :
    ∀ array : List String, ∃ out, ∀ (n : Nat) (r : List Token),
      (JSON.tokensList xs).length + 1 ≤ n →
      parseRefArrayLoop n ctx array (JSON.tokensList xs ++ Token.delim Delim.rbrack :: r)
        = Res.ok (out, r) := by
  induction xs with
  | nil =>
    intro array
    refine ⟨array, fun n r hn => ?_⟩
    obtain ⟨m, rfl⟩ : ∃ m, n = m + 1 := ⟨n - 1, by simp [JSON.tokensList] at hn; omega⟩
    simp [JSON.tokensList, parseRefArrayLoop]
  | cons x xs ih =>
    intro array
    simp only [List.all_cons, Bool.and_eq_true] at h
    obtain ⟨hx, hxs⟩ := h
    cases x with
    | str s =>
      obtain ⟨id, hid⟩ := (canCanonicalise_iff ctx s).mp hx
      obtain ⟨out, hout⟩ := ih hxs (array ++ [id])
      refine ⟨out, fun n r hn => ?_⟩
      simp only [JSON.tokensList, JSON.tokens, List.length_cons, List.length_append,
        List.length_nil, List.cons_append, List.nil_append] at hn ⊢
      obtain ⟨m, rfl⟩ : ∃ m, n = m + 1 := ⟨n - 1, by omega⟩
      simp only [parseRefArrayLoop, hid]
      exact hout m r (by omega)
    | null => simp at hx
    | bool b => simp at hx
    | num f => simp at hx
    | arr ys => simp at hx
    | obj kvs => simp at hx

theorem parseRefValue_of_isReferenceValue (ctx : Context) (v : JSON)
    (h : isReferenceValue ctx v = true) :
    ∃ val, ∀ (n : Nat) (r : List Token), v.tokens.length ≤ n →
      parseRefValue n ctx (v.tokens ++ r) = Res.ok (val, r) := by
  cases v with
  | str s =>
    obtain ⟨id, hid⟩ := (canCanonicalise_iff ctx s).mp h
    refine ⟨Value.str id, fun n r hn => ?_⟩
    obtain ⟨m, rfl⟩ : ∃ m, n = m + 1 := ⟨n - 1, by simp [JSON.tokens] at hn; omega⟩
    simp [JSON.tokens, parseRefValue, hid]
  | arr xs =>
    simp only [isReferenceValue] at h
    obtain ⟨out, hout⟩ := parseRefArrayLoop_strings ctx xs h []
    refine ⟨Value.strs out, fun n r hn => ?_⟩
    have htok : (JSON.arr xs).tokens ++ r
        = Token.delim Delim.lbrack :: (JSON.tokensList xs ++ Token.delim Delim.rbrack :: r) := by
      simp [JSON.tokens]
    simp only [JSON.tokens, List.length_cons, List.length_append, List.length_singleton,
      List.length_nil] at hn
    obtain ⟨m, rfl⟩ : ∃ m, n = m + 1 := ⟨n - 1, by omega⟩
    rw [htok]
    simp only [parseRefValue, if_true, parseRefArray, hout m r (by omega)]
  | null => simp [isReferenceValue] at h
  | bool b => simp [isReferenceValue] at h
  | num f => simp [isReferenceValue] at h
  | obj kvs => simp [isReferenceValue] at h

theorem parseReferencesLoop_members (ctx : Context) (members : List (String × JSON))
    (h : areReferenceMembers ctx members = true) :
    ∀ refs : GoMap Value, ∃ out, ∀ (n : Nat) (r : List Token),
      (JSON.tokensFields members).length + 1 ≤ n →
      parseReferencesLoop n ctx refs (JSON.tokensFields members ++ Token.delim Delim.rbrace :: r)
        = Res.ok (out, r) := by
  induction members with
  | nil =>
    intro refs
    refine ⟨refs, fun n r hn => ?_⟩
    obtain ⟨m, rfl⟩ : ∃ m, n = m + 1 := ⟨n - 1, by simp [JSON.tokensFields] at hn; omega⟩
    simp [JSON.tokensFields, parseReferencesLoop]
  | cons kv members ih =>
    intro refs
    obtain ⟨key, v⟩ := kv
    simp only [areReferenceMembers, List.all_cons, Bool.and_eq_true] at h
    obtain ⟨⟨hkey, hv⟩, hms⟩ := h
    obtain ⟨id, hid⟩ := (canCanonicalise_iff ctx key).mp hkey
    obtain ⟨val, hval⟩ := parseRefValue_of_isReferenceValue ctx v hv
    obtain ⟨out, hout⟩ := ih (by simpa [areReferenceMembers] using hms) (GoMap.store refs id val)
    refine ⟨out, fun n r hn => ?_⟩
    simp only [JSON.tokensFields, List.length_cons, List.length_append] at hn
    obtain ⟨m, rfl⟩ : ∃ m, n = m + 1 := ⟨n - 1, by omega⟩
    simp only [JSON.tokensFields, List.cons_append, List.append_assoc, parseReferencesLoop,
      List.append_eq, hval m _ (by omega), hid]
    exact hout m r (by omega)

theorem JSON.tokens_of_isScalarOrNull (v : JSON) (h : isScalarOrNull v = true) :
    ∃ t, v.tokens = [t] := by
  cases v <;> simp [isScalarOrNull, JSON.tokens] at h ⊢

mutual
theorem parseValue_of_isPropertyValue (ctx : Context) : (v : JSON) →
    isPropertyValue ctx v = true →
    ∃ val, ∀ (n : Nat) (r : List Token), v.tokens.length ≤ n →
      parseValue n ctx (v.tokens ++ r) = Res.ok (val, r)
  | .null, h => by simp [isPropertyValue] at h
  | .bool b, _ => by
    refine ⟨Value.bool b, fun n r hn => ?_⟩
    obtain ⟨m, rfl⟩ : ∃ m, n = m + 1 := ⟨n - 1, by simp [JSON.tokens] at hn; omega⟩
    simp [JSON.tokens, parseValue]
  | .num f, _ => by
    refine ⟨Value.num f, fun n r hn => ?_⟩
    obtain ⟨m, rfl⟩ : ∃ m, n = m + 1 := ⟨n - 1, by simp [JSON.tokens] at hn; omega⟩
    simp [JSON.tokens, parseValue]
  | .str s, _ => by
    refine ⟨Value.str s, fun n r hn => ?_⟩
    obtain ⟨m, rfl⟩ : ∃ m, n = m + 1 := ⟨n - 1, by simp [JSON.tokens] at hn; omega⟩
    simp [JSON.tokens, parseValue]
  | .arr xs, h => by
    rw [isPropertyValue] at h
    obtain ⟨out, hout⟩ := parseArrayLoop_of_areArrayElements ctx xs h []
    refine ⟨Value.arr out, fun n r hn => ?_⟩
    have htok : (JSON.arr xs).tokens ++ r
        = Token.delim Delim.lbrack :: (JSON.tokensList xs ++ Token.delim Delim.rbrack :: r) := by
      simp [JSON.tokens]
    simp only [JSON.tokens, List.length_cons, List.length_append, List.length_singleton,
      List.length_nil] at hn
    obtain ⟨m, rfl⟩ : ∃ m, n = m + 1 := ⟨n - 1, by omega⟩
    rw [htok]
    simp only [parseValue, reduceCtorEq, ↓reduceIte, hout m r (by omega)]
  | .obj members, h => by
    rw [isPropertyValue] at h
    obtain ⟨e, -, he⟩ :=
      parseEntityLoop_of_areEntityMembers ctx members h emptyEntity false (by decide)
    refine ⟨Value.entity e, fun n r hn => ?_⟩
    have htok : (JSON.obj members).tokens ++ r
        = Token.delim Delim.lbrace ::
            (JSON.tokensFields members ++ Token.delim Delim.rbrace :: r) := by
      simp [JSON.tokens]
    simp only [JSON.tokens, List.length_cons, List.length_append, List.length_singleton,
      List.length_nil] at hn
    obtain ⟨m, rfl⟩ : ∃ m, n = m + 1 := ⟨n - 1, by omega⟩
    rw [htok]
    simp only [parseValue, reduceCtorEq, ↓reduceIte, he m r (by omega)]
termination_by v => sizeOf v
theorem parseArrayLoop_of_areArrayElements (ctx : Context) : (xs : List JSON) →
    areArrayElements ctx xs = true →
    ∀ array : List Value, ∃ out, ∀ (n : Nat) (r : List Token),
      (JSON.tokensList xs).length + 1 ≤ n →
      parseArrayLoop n ctx array (JSON.tokensList xs ++ Token.delim Delim.rbrack :: r)
        = Res.ok (out, r)
  | [], _ => by
    intro array
    refine ⟨array, fun n r hn => ?_⟩
    obtain ⟨m, rfl⟩ : ∃ m, n = m + 1 := ⟨n - 1, by omega⟩
    simp [JSON.tokensList, parseArrayLoop]
  | x :: xs, h => by
    intro array
    rw [areArrayElements, Bool.and_eq_true] at h
    obtain ⟨hx, hxs⟩ := h
    cases x with
    | null => simp [isPropertyValue] at hx
    | bool b =>
      obtain ⟨out, hout⟩ := parseArrayLoop_of_areArrayElements ctx xs hxs (array ++ [Value.bool b])
      refine ⟨out, fun n r hn => ?_⟩
      simp only [JSON.tokensList, JSON.tokens, List.length_cons, List.length_append,
        List.length_nil, List.cons_append, List.nil_append] at hn ⊢
      obtain ⟨m, rfl⟩ : ∃ m, n = m + 1 := ⟨n - 1, by omega⟩
      simp only [parseArrayLoop]
      exact hout m r (by omega)
    | num f =>
      obtain ⟨out, hout⟩ := parseArrayLoop_of_areArrayElements ctx xs hxs (array ++ [Value.num f])
      refine ⟨out, fun n r hn => ?_⟩
      simp only [JSON.tokensList, JSON.tokens, List.length_cons, List.length_append,
        List.length_nil, List.cons_append, List.nil_append] at hn ⊢
      obtain ⟨m, rfl⟩ : ∃ m, n = m + 1 := ⟨n - 1, by omega⟩
      simp only [parseArrayLoop]
      exact hout m r (by omega)
    | str s =>
      obtain ⟨out, hout⟩ := parseArrayLoop_of_areArrayElements ctx xs hxs (array ++ [Value.str s])
      refine ⟨out, fun n r hn => ?_⟩
      simp only [JSON.tokensList, JSON.tokens, List.length_cons, List.length_append,
        List.length_nil, List.cons_append, List.nil_append] at hn ⊢
      obtain ⟨m, rfl⟩ : ∃ m, n = m + 1 := ⟨n - 1, by omega⟩
      simp only [parseArrayLoop]
      exact hout m r (by omega)
    | arr ys =>
      rw [isPropertyValue] at hx
      obtain ⟨inner, hinner⟩ := parseArrayLoop_of_areArrayElements ctx ys hx []
      obtain ⟨out, hout⟩ :=
        parseArrayLoop_of_areArrayElements ctx xs hxs (array ++ [Value.arr inner])
      refine ⟨out, fun n r hn => ?_⟩
      have htok : JSON.tokensList (JSON.arr ys :: xs) ++ Token.delim Delim.rbrack :: r
          = Token.delim Delim.lbrack :: (JSON.tokensList ys ++ Token.delim Delim.rbrack ::
              (JSON.tokensList xs ++ Token.delim Delim.rbrack :: r)) := by
        simp [JSON.tokensList, JSON.tokens]
      simp only [JSON.tokensList, JSON.tokens, List.length_cons, List.length_append,
        List.length_nil, List.length_singleton] at hn
      obtain ⟨m, rfl⟩ : ∃ m, n = m + 1 := ⟨n - 1, by omega⟩
      rw [htok]
      simp only [parseArrayLoop, reduceCtorEq, ↓reduceIte, hinner m _ (by omega)]
      exact hout m r (by omega)
    | obj members =>
      rw [isPropertyValue] at hx
      obtain ⟨e, -, he⟩ :=
        parseEntityLoop_of_areEntityMembers ctx members hx emptyEntity false (by decide)
      obtain ⟨out, hout⟩ :=
        parseArrayLoop_of_areArrayElements ctx xs hxs (array ++ [Value.entity e])
      refine ⟨out, fun n r hn => ?_⟩
      have htok : JSON.tokensList (JSON.obj members :: xs) ++ Token.delim Delim.rbrack :: r
          = Token.delim Delim.lbrace :: (JSON.tokensFields members ++ Token.delim Delim.rbrace ::
              (JSON.tokensList xs ++ Token.delim Delim.rbrack :: r)) := by
        simp [JSON.tokensList, JSON.tokens]
      simp only [JSON.tokensList, JSON.tokens, List.length_cons, List.length_append,
        List.length_nil, List.length_singleton] at hn
      obtain ⟨m, rfl⟩ : ∃ m, n = m + 1 := ⟨n - 1, by omega⟩
      rw [htok]
      simp only [parseArrayLoop, reduceCtorEq, ↓reduceIte, he m _ (by omega)]
      exact hout m r (by omega)
termination_by xs => sizeOf xs
theorem parseEntityLoop_of_areEntityMembers (ctx : Context) :
    (members : List (String × JSON)) → areEntityMembers ctx members = true →
    ∀ (e : Entity) (c : Bool), e.ID ≠ "@continuation" →
    ∃ e' : Entity, e'.ID ≠ "@continuation" ∧ ∀ (n : Nat) (r : List Token),
      (JSON.tokensFields members).length + 1 ≤ n →
      parseEntityLoop n ctx e c (JSON.tokensFields members ++ Token.delim Delim.rbrace :: r)
        = Res.ok (e', r)
  | [], _ => by
    intro e c he
    refine ⟨e, he, fun n r hn => ?_⟩
    obtain ⟨m, rfl⟩ : ∃ m, n = m + 1 := ⟨n - 1, by omega⟩
    simp [JSON.tokensFields, parseEntityLoop]
  | (key, v) :: members, h => by
    intro e c he
    rw [areEntityMembers, Bool.and_eq_true] at h
    obtain ⟨hm, hms⟩ := h
    have ih := parseEntityLoop_of_areEntityMembers ctx members hms
    by_cases h1 : key = "id"
    · rw [if_pos h1] at hm
      cases v with
      | str s =>
        simp only [isEntityId, Bool.and_eq_true, decide_eq_true_eq] at hm
        obtain ⟨hs, hcanon⟩ := hm
        rcases hid : produceCanonicalURI ctx s with id | err | msg | _
        · rw [hid] at hcanon
          simp only [decide_eq_true_eq] at hcanon
          obtain ⟨e', he', hloop⟩ := ih { e with ID := id } c hcanon
          refine ⟨e', he', fun n r hn => ?_⟩
          simp only [JSON.tokensFields, JSON.tokens, List.length_cons, List.length_append,
            List.length_nil, List.cons_append, List.nil_append] at hn ⊢
          obtain ⟨m, rfl⟩ : ∃ m, n = m + 1 := ⟨n - 1, by omega⟩
          simp only [parseEntityLoop, h1, ↓reduceIte, hs, hid]
          exact hloop m r (by omega)
        all_goals (rw [hid] at hcanon; simp at hcanon)
      | null => simp [isEntityId] at hm
      | bool b => simp [isEntityId] at hm
      | num f => simp [isEntityId] at hm
      | arr ys => simp [isEntityId] at hm
      | obj kvs => simp [isEntityId] at hm
    rw [if_neg h1] at hm
    by_cases h2 : key = "recorded"
    · rw [if_pos h2] at hm
      cases v with
      | num f =>
        obtain ⟨e', he', hloop⟩ := ih { e with Recorded := uint64 f } c he
        refine ⟨e', he', fun n r hn => ?_⟩
        simp only [JSON.tokensFields, JSON.tokens, List.length_cons, List.length_append,
          List.length_nil, List.cons_append, List.nil_append] at hn ⊢
        obtain ⟨m, rfl⟩ : ∃ m, n = m + 1 := ⟨n - 1, by omega⟩
        simp only [parseEntityLoop, h1, h2, ↓reduceIte]
        exact hloop m r (by omega)
      | null => simp [isNumber] at hm
      | bool b => simp [isNumber] at hm
      | str s => simp [isNumber] at hm
      | arr ys => simp [isNumber] at hm
      | obj kvs => simp [isNumber] at hm
    rw [if_neg h2] at hm
    by_cases h3 : key = "deleted"
    · rw [if_pos h3] at hm
      cases v with
      | bool b =>
        obtain ⟨e', he', hloop⟩ := ih { e with IsDeleted := b } c he
        refine ⟨e', he', fun n r hn => ?_⟩
        simp only [JSON.tokensFields, JSON.tokens, List.length_cons, List.length_append,
          List.length_nil, List.cons_append, List.nil_append] at hn ⊢
        obtain ⟨m, rfl⟩ : ∃ m, n = m + 1 := ⟨n - 1, by omega⟩
        simp only [parseEntityLoop, h1, h2, h3, ↓reduceIte]
        exact hloop m r (by omega)
      | null => simp [isBoolean] at hm
      | num f => simp [isBoolean] at hm
      | str s => simp [isBoolean] at hm
      | arr ys => simp [isBoolean] at hm
      | obj kvs => simp [isBoolean] at hm
    rw [if_neg h3] at hm
    by_cases h4 : key = "props"
    · rw [if_pos h4] at hm
      cases v with
      | obj props =>
        rw [isPropertiesObject] at hm
        obtain ⟨out, hout⟩ := parsePropertiesLoop_of_arePropertyMembers ctx props hm []
        obtain ⟨e', he', hloop⟩ := ih { e with Properties := out } c he
        refine ⟨e', he', fun n r hn => ?_⟩
        have htok : JSON.tokensFields ((key, JSON.obj props) :: members) ++
              Token.delim Delim.rbrace :: r
            = Token.str key :: Token.delim Delim.lbrace ::
                (JSON.tokensFields props ++ Token.delim Delim.rbrace ::
                  (JSON.tokensFields members ++ Token.delim Delim.rbrace :: r)) := by
          simp [JSON.tokensFields, JSON.tokens]
        simp only [JSON.tokensFields, JSON.tokens, List.length_cons, List.length_append,
          List.length_nil, List.length_singleton] at hn
        obtain ⟨m, rfl⟩ : ∃ m, n = m + 1 := ⟨n - 1, by omega⟩
        rw [htok]
        simp only [parseEntityLoop, h1, h2, h3, h4, ↓reduceIte, hout m _ (by omega)]
        exact hloop m r (by omega)
      | null => simp [isPropertiesObject] at hm
      | num f => simp [isPropertiesObject] at hm
      | str s => simp [isPropertiesObject] at hm
      | arr ys => simp [isPropertiesObject] at hm
      | bool b => simp [isPropertiesObject] at hm
    rw [if_neg h4] at hm
    by_cases h5 : key = "refs"
    · rw [if_pos h5] at hm
      cases v with
      | obj refs =>
        simp only [isReferencesObject] at hm
        obtain ⟨out, hout⟩ := parseReferencesLoop_members ctx refs hm []
        obtain ⟨e', he', hloop⟩ := ih { e with References := out } c he
        refine ⟨e', he', fun n r hn => ?_⟩
        have htok : JSON.tokensFields ((key, JSON.obj refs) :: members) ++
              Token.delim Delim.rbrace :: r
            = Token.str key :: Token.delim Delim.lbrace ::
                (JSON.tokensFields refs ++ Token.delim Delim.rbrace ::
                  (JSON.tokensFields members ++ Token.delim Delim.rbrace :: r)) := by
          simp [JSON.tokensFields, JSON.tokens]
        simp only [JSON.tokensFields, JSON.tokens, List.length_cons, List.length_append,
          List.length_nil, List.length_singleton] at hn
        obtain ⟨m, rfl⟩ : ∃ m, n = m + 1 := ⟨n - 1, by omega⟩
        rw [htok]
        simp only [parseEntityLoop, h1, h2, h3, h4, h5, ↓reduceIte, parseReferences,
          hout m _ (by omega)]
        exact hloop m r (by omega)
      | null => simp [isReferencesObject] at hm
      | num f => simp [isReferencesObject] at hm
      | str s => simp [isReferencesObject] at hm
      | arr ys => simp [isReferencesObject] at hm
      | bool b => simp [isReferencesObject] at hm
    rw [if_neg h5] at hm
    by_cases h6 : key = "token"
    · rw [if_pos h6] at hm
      simp at hm
    rw [if_neg h6] at hm
    obtain ⟨t, ht⟩ := JSON.tokens_of_isScalarOrNull v hm
    obtain ⟨e', he', hloop⟩ := ih e c he
    refine ⟨e', he', fun n r hn => ?_⟩
    simp only [JSON.tokensFields, ht, List.length_cons, List.length_append,
      List.length_nil, List.cons_append, List.nil_append] at hn ⊢
    obtain ⟨m, rfl⟩ : ∃ m, n = m + 1 := ⟨n - 1, by omega⟩
    simp only [parseEntityLoop, h1, h2, h3, h4, h5, h6, ↓reduceIte]
    exact hloop m r (by omega)
termination_by members => sizeOf members
theorem parsePropertiesLoop_of_arePropertyMembers (ctx : Context) :
    (members : List (String × JSON)) → arePropertyMembers ctx members = true →
    ∀ props : GoMap Value, ∃ out, ∀ (n : Nat) (r : List Token),
      (JSON.tokensFields members).length + 1 ≤ n →
      parsePropertiesLoop n ctx props (JSON.tokensFields members ++ Token.delim Delim.rbrace :: r)
        = Res.ok (out, r)
  | [], _ => by
    intro props
    refine ⟨props, fun n r hn => ?_⟩
    obtain ⟨m, rfl⟩ : ∃ m, n = m + 1 := ⟨n - 1, by omega⟩
    simp [JSON.tokensFields, parsePropertiesLoop]
  | (key, v) :: members, h => by
    intro props
    rw [arePropertyMembers, Bool.and_eq_true] at h
    obtain ⟨hm, hms⟩ := h
    have ih := parsePropertiesLoop_of_arePropertyMembers ctx members hms
    by_cases hnull : v = JSON.null
    · subst hnull
      obtain ⟨out, hout⟩ := ih props
      refine ⟨out, fun n r hn => ?_⟩
      simp only [JSON.tokensFields, JSON.tokens, List.length_cons, List.length_append,
        List.length_nil, List.cons_append, List.nil_append] at hn ⊢
      obtain ⟨m, rfl⟩ : ∃ m, n = m + 2 := ⟨n - 2, by omega⟩
      simp only [parsePropertiesLoop, parseValue]
      exact hout (m + 1) r (by omega)
    · have hm' : isPropertyValue ctx v = true ∧ canCanonicalise ctx key = true := by
        cases v <;> first | exact absurd rfl hnull | simpa [isNull] using hm
      obtain ⟨val, hval⟩ := parseValue_of_isPropertyValue ctx v hm'.1
      obtain ⟨id, hid⟩ := (canCanonicalise_iff ctx key).mp hm'.2
      obtain ⟨out, hout⟩ := ih (GoMap.store props id val)
      refine ⟨out, fun n r hn => ?_⟩
      simp only [JSON.tokensFields, List.length_cons, List.length_append] at hn
      obtain ⟨m, rfl⟩ : ∃ m, n = m + 1 := ⟨n - 1, by omega⟩
      have hne : val ≠ Value.nil :=
        parseValue_ne_nil ctx v hnull _ _ _ _ (hval v.tokens.length [] (Nat.le_refl _))
      simp only [JSON.tokensFields, List.cons_append, List.append_assoc, parsePropertiesLoop,
        List.append_eq, hval m _ (by omega)]
      cases val <;> first | exact absurd rfl hne | (simp only [hid]; exact hout m r (by omega))
termination_by members => sizeOf members
end

/-- Every entity object of the grammar is read by `parseEntity` exactly up to its
closing brace, into an entity whose ID is not `@continuation`. -/
theorem entityOfObject_of_areEntityMembers (ctx : Context) (members : List (String × JSON))
    (h : areEntityMembers ctx members = true) :
    ∃ e, entityOfObject ctx (JSON.obj members) = some e ∧ e.ID ≠ "@continuation" := by
  obtain ⟨e, he, hloop⟩ :=
    parseEntityLoop_of_areEntityMembers ctx members h emptyEntity false (by decide)
  refine ⟨e, ?_, he⟩
  have hparse := hloop (objectBody members).length []
    (by simp [objectBody])
  simp only [entityOfObject, parseEntity, objectBody] at hparse ⊢
  rw [hparse]

/-- Every property value of the grammar is read completely by `parseValue`. -/
theorem parseValue_tokens_of_isPropertyValue (ctx : Context) (v : JSON)
    (h : isPropertyValue ctx v = true) :
    ∃ val, parseValue v.tokens.length ctx v.tokens = Res.ok (val, []) := by
  obtain ⟨val, hval⟩ := parseValue_of_isPropertyValue ctx v h
  refine ⟨val, ?_⟩
  have := hval v.tokens.length [] (Nat.le_refl _)
  rwa [List.append_nil] at this
/-! ## Entities and continuation of a document -/

/-- C4 (as amended).  Take a document whose array holds a context declaration with
string expansions and then elements each of which is a continuation object
`{"id": "@continuation", "token": t}` or an entity object of the grammar, whose
id is not `@continuation` and does not canonicalise to it.  Then `Parse` returns
no error; the entity sequence is the one it was before followed by the entities of
the non-continuation elements in input order, none of them with ID
`@continuation`; and the continuation token is the token of the last
continuation object as written, or is left as it was when there is none. -/
theorem Parse_entities_and_continuation (esp : EntityParser) (ns : List (String × String))
    (elements : List Element)
    (hel : ∀ members, Element.entity members ∈ elements →
      areEntityMembers (declaredContext ns) members = true) :
    ∃ ec : EntityCollection,
      esp.Parse (document (contextDecl (namespacesJSON ns) :: elements.map Element.json))
        = Outcome.returned ⟨ec⟩ none ∧
      ec.Entities
        = esp.entityCollection.Entities ++ entitiesOf (declaredContext ns) elements ∧
      (entitiesOf (declaredContext ns) elements).length
        = (elements.filter fun el =>
            match el with
            | Element.continuation _ => false
            | Element.entity _ => true).length ∧
      (∀ e ∈ entitiesOf (declaredContext ns) elements, e.ID ≠ "@continuation") ∧
      (∀ token, lastContinuationToken elements = some token →
        ec.Continuation = some ⟨token⟩) ∧
      (lastContinuationToken elements = none →
        ec.Continuation = esp.entityCollection.Continuation) := by
  have hel' : ∀ members, Element.entity members ∈ elements →
      ∃ e, entityOfObject (declaredContext ns) (JSON.obj members) = some e ∧
        e.ID ≠ "@continuation" :=
    fun members hm =>
      entityOfObject_of_areEntityMembers (declaredContext ns) members (hel members hm)
  refine ⟨_, Parse_elements esp ns elements hel', rfl, ?_, ?_, ?_, ?_⟩
  · clear hel
    induction elements with
    | nil => rfl
    | cons el els ih =>
      have ih' := ih (fun members hm => hel' members (List.mem_cons_of_mem _ hm))
      cases el with
      | continuation token =>
        simpa [entitiesOf, List.filterMap_cons, List.filter_cons] using ih'
      | entity members =>
        obtain ⟨e, he, -⟩ := hel' members (List.mem_cons_self _ _)
        simp only [entitiesOf, List.filterMap_cons, he, List.length_cons, List.filter_cons,
          if_true] at ih' ⊢
        rw [ih']
  · intro e he
    simp only [entitiesOf, List.mem_filterMap] at he
    obtain ⟨el, hmem, hsome⟩ := he
    cases el with
    | continuation token => simp at hsome
    | entity members =>
      obtain ⟨e', he', hid⟩ := hel' members hmem
      simp only at hsome
      rw [he'] at hsome
      cases hsome
      exact hid
  · intro token ht
    simp only [ht]
  · intro ht
    simp only [ht]

/-- Witness for `Parse_entities_and_continuation`: the entities `a` and `b` with the
continuation objects `t1` and `t2` between and after them, on a fresh parser. -/
theorem Parse_entities_and_continuation_witness :
    ∃ ec : EntityCollection,
      NewEntityParser.Parse
          (document (contextDecl (namespacesJSON [("_", "http://x/")]) ::
            pagedElements.map Element.json))
        = Outcome.returned ⟨ec⟩ none ∧
      ec.Entities
        = NewEntityParser.entityCollection.Entities ++
            entitiesOf (declaredContext [("_", "http://x/")]) pagedElements ∧
      (entitiesOf (declaredContext [("_", "http://x/")]) pagedElements).length
        = (pagedElements.filter fun el =>
            match el with
            | Element.continuation _ => false
            | Element.entity _ => true).length ∧
      (∀ e ∈ entitiesOf (declaredContext [("_", "http://x/")]) pagedElements,
        e.ID ≠ "@continuation") ∧
      (∀ token, lastContinuationToken pagedElements = some token →
        ec.Continuation = some ⟨token⟩) ∧
      (lastContinuationToken pagedElements = none →
        ec.Continuation = NewEntityParser.entityCollection.Continuation) :=
  Parse_entities_and_continuation NewEntityParser [("_", "http://x/")] pagedElements (by
    intro members hm
    simp only [pagedElements, List.mem_cons, Element.entity.injEq, reduceCtorEq,
      List.mem_singleton, false_or, or_false, List.not_mem_nil] at hm
    rcases hm with rfl | rfl <;> rfl)

/-- C4, counterexample.  The only array element after the context declaration has
the id `c:`, so it is not a continuation object; the document parses without
error, but the element is missing from the entity sequence, and its property has
become the continuation token: its id canonicalises to `@continuation`. -/
theorem Parse_canonical_sentinel_counterexample :
    "c:" ≠ "@continuation" ∧
    NewEntityParser.Parse
        (document [contextDecl [("c", JSON.str "@continuation"), ("t", JSON.str "")],
          JSON.obj [("id", JSON.str "c:"),
            ("props", JSON.obj [("t:token", JSON.str "zzz")])]]) =
      Outcome.returned
        ⟨{ Context := ⟨[("c", "@continuation"), ("t", "")], [("@continuation", "c"), ("", "t")]⟩,
           Entities := [],
           Continuation := some ⟨"zzz"⟩ }⟩
        none :=
  ⟨by decide, rfl⟩

/-! ## Properties with `null` values -/

theorem arePropertyMembers_mem (ctx : Context) (members : List (String × JSON))
    (h : arePropertyMembers ctx members = true) :
    ∀ kv ∈ members, kv.2 ≠ JSON.null →
      isPropertyValue ctx kv.2 = true ∧ canCanonicalise ctx kv.1 = true := by
  induction members with
  | nil => intro kv hkv; simp at hkv
  | cons kv0 members ih =>
    obtain ⟨key, v⟩ := kv0
    rw [arePropertyMembers, Bool.and_eq_true] at h
    obtain ⟨hm, hms⟩ := h
    intro kv hkv hne
    rcases List.mem_cons.mp hkv with rfl | hmem
    · cases v <;> first | exact absurd rfl hne | simpa [isNull] using hm
    · exact ih hms kv hmem hne

/-- C9 (as amended).  For every `props` object of the grammar (each member has the
value `null`, or has a property value of the grammar and a key that can be
canonicalised; nothing is asked of the keys whose value is `null`) and enough
fuel for its tokens, `parseProperties` returns a map and stops right after the
object.  The keys of the map are exactly the canonicalised keys of the members
whose value is not `null`: every such member is present under its canonicalised
key, and a member whose value is `null` contributes no entry and does not make
the parse fail, even when its key cannot be canonicalised.  No entry of the map
holds a nil value. -/
theorem parseProperties_null_omitted (ctx : Context) (members : List (String × JSON))
    (fuel : Nat) (rest : List Token) (hfuel : (JSON.obj members).tokens.length ≤ fuel)
    (hgrammar : arePropertyMembers ctx members = true) :
    ∃ props,
      parseProperties fuel ctx ((JSON.obj members).tokens ++ rest) = Res.ok (props, rest) ∧
      (∀ key, (GoMap.lookup props key).isSome ↔
        ∃ kv ∈ members, kv.2 ≠ JSON.null ∧ produceCanonicalURI ctx kv.1 = Res.ok key) ∧
      (∀ key, GoMap.lookup props key ≠ some Value.nil) := by
  have hvals : ∀ kv ∈ members, kv.2 ≠ JSON.null →
      ∃ val id, parseValue kv.2.tokens.length ctx kv.2.tokens = Res.ok (val, []) ∧
        produceCanonicalURI ctx kv.1 = Res.ok id := by
    intro kv hkv hne
    obtain ⟨hv, hk⟩ := arePropertyMembers_mem ctx members hgrammar kv hkv hne
    obtain ⟨val, hval⟩ := parseValue_tokens_of_isPropertyValue ctx kv.2 hv
    obtain ⟨id, hid⟩ := (canCanonicalise_iff ctx kv.1).mp hk
    exact ⟨val, id, hval, hid⟩
  simp only [JSON.tokens, List.length_cons, List.length_append, List.length_singleton] at hfuel
  obtain ⟨props, hp, hkeys, hnil⟩ :=
    parsePropertiesLoop_members ctx members hvals [] fuel rest (by omega)
  refine ⟨props, ?_, ?_, ?_⟩
  · simp only [JSON.tokens, List.cons_append, List.append_assoc, List.singleton_append,
      parseProperties]
    exact hp
  · intro key
    rw [hkeys key]
    simp [GoMap.lookup]
  · exact hnil (by simp [GoMap.lookup])

/-- Witness for `parseProperties_null_omitted`: a `props` object with a string, a
`null` under a key whose prefix is not declared, an array and a nested entity. -/
theorem parseProperties_null_omitted_witness :
    ∃ props,
      parseProperties (JSON.obj exampleProps).tokens.length xContext
          ((JSON.obj exampleProps).tokens ++ []) = Res.ok (props, []) ∧
      (∀ key, (GoMap.lookup props key).isSome ↔
        ∃ kv ∈ exampleProps, kv.2 ≠ JSON.null ∧
          produceCanonicalURI xContext kv.1 = Res.ok key) ∧
      (∀ key, GoMap.lookup props key ≠ some Value.nil) :=
  parseProperties_null_omitted xContext exampleProps _ [] (Nat.le_refl _) rfl

/-- C9, counterexample.  Three `props` objects outside the grammar, in the context
with the default namespace `http://x/`.  A key with an undeclared prefix and the
value `1` makes `parseProperties` return the error of the canonicalisation, and
an array that holds `null` makes it return the error `unknown type`: in both the
member whose value is not `null` is in no returned map.  In the third object the
value of `k` is a nested entity with the unknown key `x`, whose value is an
object: `parseEntity` reads only the opening brace as that value and takes the
next closing brace for the end of the nested entity, so `parseProperties` stops
at the closing brace of the nested entity and returns, without error, a map in
which the member `j` with the value `1` is missing; the tokens of `j` are left
unread.  As the `props` of an entity in a document, `Parse` returns no error and
the entity has no property `j`. -/
theorem parseProperties_null_omitted_counterexample :
    parseProperties (JSON.obj [("u:k", JSON.num 1)]).tokens.length xContext
        (JSON.obj [("u:k", JSON.num 1)]).tokens
      = Res.error (GoError.New "no expansion for prefix: u") ∧
    parseProperties (JSON.obj [("k", JSON.arr [JSON.null])]).tokens.length xContext
        (JSON.obj [("k", JSON.arr [JSON.null])]).tokens
      = Res.error
          (GoError.Wrap "unable to parse property value of key k err: %w"
            (GoError.New "unknown type")) ∧
    parseProperties
        (JSON.obj [("k", JSON.obj [("x", JSON.obj [])]), ("j", JSON.num 1)]).tokens.length
        xContext (JSON.obj [("k", JSON.obj [("x", JSON.obj [])]), ("j", JSON.num 1)]).tokens
      = Res.ok
          ([("http://x/k", Value.entity emptyEntity)],
            [Token.str "j", Token.num 1, Token.delim Delim.rbrace]) ∧
    NewEntityParser.Parse
        (document [xContextDecl,
          JSON.obj [("id", JSON.str "a"),
            ("props", JSON.obj [("k", JSON.obj [("x", JSON.obj [])]), ("j", JSON.num 1)])]])
      = Outcome.returned
          ⟨{ Context := xContext,
             Entities :=
              [{ emptyEntity with
                 ID := "http://x/a"
                 Properties := [("http://x/k", Value.entity emptyEntity)] }],
             Continuation := none }⟩
          none :=
  ⟨rfl, rfl, rfl, rfl⟩


/-! ## Go maps: keys, lookups and repeated stores -/

theorem GoMap.lookup_eq_none_iff {V : Type} (m : GoMap V) (key : String) :
    GoMap.lookup m key = none ↔ key ∉ GoMap.keys m := by
  induction m with
  | nil => simp [GoMap.lookup, GoMap.keys]
  | cons kv m ih =>
    obtain ⟨k0, v0⟩ := kv
    by_cases h : k0 = key
    · simp [GoMap.lookup, GoMap.keys, h]
    · simp only [GoMap.lookup, h, if_false, ih]
      simp [GoMap.keys, Ne.symm h]

theorem GoMap.store_of_not_mem {V : Type} (m : GoMap V) (key : String) (v : V)
    (h : key ∉ GoMap.keys m) : GoMap.store m key v = m ++ [(key, v)] := by
  induction m with
  | nil => rfl
  | cons kv m ih =>
    obtain ⟨k0, v0⟩ := kv
    simp only [GoMap.keys, List.map_cons, List.mem_cons, not_or] at h
    simp only [GoMap.store, Ne.symm h.1, if_false, List.cons_append]
    rw [ih (by simpa [GoMap.keys] using h.2)]

theorem GoMap.keys_store {V : Type} (m : GoMap V) (key : String) (v : V) :
    GoMap.keys (GoMap.store m key v)
      = if key ∈ GoMap.keys m then GoMap.keys m else GoMap.keys m ++ [key] := by
  induction m with
  | nil => simp [GoMap.store, GoMap.keys]
  | cons kv m ih =>
    obtain ⟨k0, v0⟩ := kv
    by_cases h : k0 = key
    · subst h
      simp [GoMap.store, GoMap.keys]
    · have ih' : List.map Prod.fst (GoMap.store m key v)
          = if key ∈ List.map Prod.fst m then List.map Prod.fst m
            else List.map Prod.fst m ++ [key] := ih
      simp only [GoMap.store, h, if_false, GoMap.keys, List.map_cons, List.mem_cons,
        Ne.symm h, false_or, ih']
      split <;> simp

theorem GoMap.nodup_keys_store {V : Type} (m : GoMap V) (key : String) (v : V)
    (h : (GoMap.keys m).Nodup) : (GoMap.keys (GoMap.store m key v)).Nodup := by
  rw [GoMap.keys_store]
  split
  · exact h
  · rename_i hk
    exact List.nodup_append.mpr ⟨h, List.nodup_singleton _, by simpa using hk⟩

theorem GoMap.nodup_keys_foldl_store (l : List (String × String)) (acc : GoMap String)
    (h : (GoMap.keys acc).Nodup) :
    (GoMap.keys (l.foldl (fun m kv => GoMap.store m kv.1 kv.2) acc)).Nodup := by
  induction l generalizing acc with
  | nil => exact h
  | cons kv l ih => exact ih _ (GoMap.nodup_keys_store acc kv.1 kv.2 h)

theorem GoMap.foldl_store_of_nodup (m acc : GoMap String)
    (h : (GoMap.keys (acc ++ m)).Nodup) :
    m.foldl (fun m kv => GoMap.store m kv.1 kv.2) acc = acc ++ m := by
  induction m generalizing acc with
  | nil => simp
  | cons kv m ih =>
    obtain ⟨k0, v0⟩ := kv
    have hk : k0 ∉ GoMap.keys acc := by
      simp only [GoMap.keys, List.map_append, List.map_cons] at h
      have := (List.nodup_append.mp h).2.2
      intro hmem
      exact this hmem (by simp)
    simp only [List.foldl_cons, GoMap.store_of_not_mem acc k0 v0 hk]
    rw [ih (acc ++ [(k0, v0)]) (by simpa using h)]
    simp

theorem namespacesMap_nodup (ns : List (String × String)) :
    (GoMap.keys (namespacesMap ns)).Nodup :=
  GoMap.nodup_keys_foldl_store ns [] (by simp [GoMap.keys])

theorem prefixToExpansion_foldl (l : List (String × String)) (c : Context) :
    (l.foldl (fun c kv => c.StorePrefixExpansionMapping kv.1 kv.2) c).prefixToExpansionMappings
      = l.foldl (fun m kv => GoMap.store m kv.1 kv.2) c.prefixToExpansionMappings := by
  induction l generalizing c with
  | nil => rfl
  | cons kv l ih => simp only [List.foldl_cons, ih]; rfl

theorem expansionToPrefix_foldl (l : List (String × String)) (c : Context) :
    (l.foldl (fun c kv => c.StorePrefixExpansionMapping kv.1 kv.2) c).expansionToPrefixMappings
      = l.foldl (fun m kv => GoMap.store m kv.2 kv.1) c.expansionToPrefixMappings := by
  induction l generalizing c with
  | nil => rfl
  | cons kv l ih => simp only [List.foldl_cons, ih]; rfl

theorem declaredContext_prefixToExpansion (ns : List (String × String)) :
    (declaredContext ns).prefixToExpansionMappings = namespacesMap ns := by
  unfold declaredContext
  rw [prefixToExpansion_foldl]
  exact GoMap.foldl_store_of_nodup (namespacesMap ns) [] (by
    simpa using namespacesMap_nodup ns)

/-! ## The document that holds only the context declaration -/

/-- Claim C11: for every list of namespace members, parsing on a new parser the
array that holds only the context declaration with these namespaces returns with
no error, with no entity and no continuation, and with a context in which the
expansion of a prefix is what the decoded namespaces map holds for it (and
looking up a prefix the map does not hold is the only error). -/
theorem Parse_context_only (ns : List (String × String)) :
    ∃ esp : EntityParser,
      NewEntityParser.Parse (document [contextDecl (namespacesJSON ns)])
        = Outcome.returned esp none
      ∧ esp.entityCollection.Entities.length = 0
      ∧ esp.entityCollection.Continuation = none
      ∧ ∀ p : String, esp.entityCollection.Context.GetNamespaceExpansionForPrefix p
          = match GoMap.lookup (namespacesMap ns) p with
            | some e => Res.ok e
            | none => Res.error (GoError.New ("no expansion for prefix: " ++ p)) := by
  have h := Parse_elements NewEntityParser ns [] (by simp)
  simp only [List.map_nil] at h
  refine ⟨_, h, ?_, ?_, ?_⟩
  · simp [NewEntityParser, NewEntityCollection, entitiesOf]
  · simp [NewEntityParser, NewEntityCollection, lastContinuationToken]
  · intro p
    simp only [Context.GetNamespaceExpansionForPrefix, declaredContext_prefixToExpansion]

/-! ## Merging contexts -/

theorem GoMap.mem_of_lookup {V : Type} (m : GoMap V) (key : String) (v : V)
    (h : GoMap.lookup m key = some v) : (key, v) ∈ m := by
  induction m with
  | nil => simp [GoMap.lookup] at h
  | cons kv m ih =>
    obtain ⟨k0, v0⟩ := kv
    by_cases h0 : k0 = key
    · simp only [GoMap.lookup, h0, if_true, Option.some.injEq] at h
      simp [h0, h]
    · simp only [GoMap.lookup, h0, if_false] at h
      exact List.mem_cons_of_mem _ (ih h)

theorem GoMap.lookup_of_mem {V : Type} (m : GoMap V) (key : String) (v : V)
    (hm : (GoMap.keys m).Nodup) (h : (key, v) ∈ m) : GoMap.lookup m key = some v := by
  induction m with
  | nil => simp at h
  | cons kv m ih =>
    obtain ⟨k0, v0⟩ := kv
    simp only [GoMap.keys, List.map_cons, List.nodup_cons] at hm
    rcases List.mem_cons.mp h with heq | hmem
    · simp only [Prod.mk.injEq] at heq
      simp [GoMap.lookup, heq.1, heq.2]
    · have hne : k0 ≠ key := by
        intro hk
        exact hm.1 (hk ▸ List.mem_map_of_mem Prod.fst hmem)
      simp only [GoMap.lookup, hne, if_false]
      exact ih hm.2 hmem

/-- The loop of `Merge` keeps every entry the receiver had. -/
theorem mergeInto_keeps (other mine : GoMap String) (key v : String)
    (h : GoMap.lookup mine key = some v) :
    GoMap.lookup (Context.mergeInto mine other).1 key = some v := by
  induction other generalizing mine with
  | nil => simpa [Context.mergeInto] using h
  | cons kv other ih =>
    obtain ⟨k, m⟩ := kv
    rcases hl : GoMap.lookup mine k with _ | w
    · simp only [Context.mergeInto, hl]
      apply ih
      rw [GoMap.lookup_store]
      have hne : k ≠ key := by
        intro hk
        rw [hk, h] at hl
        exact Option.noConfusion hl
      simp [hne, h]
    · simp only [Context.mergeInto, hl]
      split
      · exact h
      · exact ih mine h

/-- The loop of `Merge` adds only entries of the other table. -/
theorem mergeInto_only (other mine : GoMap String) (key v : String)
    (h : GoMap.lookup (Context.mergeInto mine other).1 key = some v) :
    GoMap.lookup mine key = some v ∨ GoMap.lookup other key = some v := by
  induction other generalizing mine with
  | nil => exact Or.inl (by simpa [Context.mergeInto] using h)
  | cons kv other ih =>
    obtain ⟨k, m⟩ := kv
    rcases hl : GoMap.lookup mine k with _ | w
    · have hkeep := mergeInto_keeps other (GoMap.store mine k m) k m
        (by simp [GoMap.lookup_store])
      simp only [Context.mergeInto, hl] at h
      by_cases hk : k = key
      · subst hk
        rw [hkeep, Option.some.injEq] at h
        exact Or.inr (by simp [GoMap.lookup, h])
      · rcases ih _ h with h1 | h1
        · rw [GoMap.lookup_store] at h1
          simp only [hk, if_false] at h1
          exact Or.inl h1
        · exact Or.inr (by simp [GoMap.lookup, hk, h1])
    · simp only [Context.mergeInto, hl] at h
      split at h
      · exact Or.inl h
      · by_cases hk : k = key
        · subst hk
          rw [mergeInto_keeps other mine k w hl] at h
          exact Or.inl (by rw [hl, h])
        · rcases ih _ h with h1 | h1
          · exact Or.inl h1
          · exact Or.inr (by simp [GoMap.lookup, hk, h1])

/-- The loop of `Merge` stops with an error exactly when an entry of the other
table has its key in the receiver with a different value. -/
theorem mergeInto_error_iff (other mine : GoMap String) (ho : (GoMap.keys other).Nodup) :
    (Context.mergeInto mine other).2 ≠ none
      ↔ ∃ key v w, GoMap.lookup mine key = some v ∧ GoMap.lookup other key = some w ∧ v ≠ w := by
  induction other generalizing mine with
  | nil => simp [Context.mergeInto, GoMap.lookup]
  | cons kv other ih =>
    obtain ⟨k, m⟩ := kv
    have ho' := ho
    simp only [GoMap.keys, List.map_cons, List.nodup_cons] at ho'
    have hk : GoMap.lookup other k = none := (GoMap.lookup_eq_none_iff other k).mpr ho'.1
    rcases hl : GoMap.lookup mine k with _ | w
    · simp only [Context.mergeInto, hl]
      rw [ih _ ho'.2]
      constructor
      · rintro ⟨key, v, w, h1, h2, h3⟩
        have hne : k ≠ key := by
          intro hkk
          rw [hkk, h2] at hk
          exact Option.noConfusion hk
        rw [GoMap.lookup_store] at h1
        simp only [hne, if_false] at h1
        exact ⟨key, v, w, h1, by simp [GoMap.lookup, hne, h2], h3⟩
      · rintro ⟨key, v, w, h1, h2, h3⟩
        have hne : k ≠ key := by
          intro hkk
          rw [hkk, h1] at hl
          exact Option.noConfusion hl
        simp only [GoMap.lookup, hne, if_false] at h2
        exact ⟨key, v, w, by simp [GoMap.lookup_store, hne, h1], h2, h3⟩
    · simp only [Context.mergeInto, hl]
      by_cases hwm : w = m
      · simp only [hwm, ne_eq, not_true_eq_false, if_false]
        refine Iff.trans (ih mine ho'.2) ?_
        constructor
        · rintro ⟨key, v, w', h1, h2, h3⟩
          have hne : k ≠ key := by
            intro hkk
            rw [hkk, h2] at hk
            exact Option.noConfusion hk
          exact ⟨key, v, w', h1, by simp [GoMap.lookup, hne, h2], h3⟩
        · rintro ⟨key, v, w', h1, h2, h3⟩
          by_cases hkk : k = key
          · exfalso
            simp only [GoMap.lookup, hkk, if_true, Option.some.injEq] at h2
            rw [hkk, h1, Option.some.injEq] at hl
            exact h3 (by rw [hl, hwm, h2])
          · simp only [GoMap.lookup, hkk, if_false] at h2
            exact ⟨key, v, w', h1, h2, h3⟩
      · simp only [ne_eq, hwm, not_false_eq_true, if_true]
        constructor
        · intro _
          exact ⟨k, w, m, hl, by simp [GoMap.lookup], hwm⟩
        · intro _
          simp

/-- Without an error the loop of `Merge` has added every entry of the other
table. -/
theorem mergeInto_adds (other mine : GoMap String) (key v : String)
    (hn : (Context.mergeInto mine other).2 = none) (h : (key, v) ∈ other) :
    GoMap.lookup (Context.mergeInto mine other).1 key = some v := by
  induction other generalizing mine with
  | nil => simp at h
  | cons kv other ih =>
    obtain ⟨k, m⟩ := kv
    rcases hl : GoMap.lookup mine k with _ | w
    · simp only [Context.mergeInto, hl] at hn ⊢
      rcases List.mem_cons.mp h with heq | hmem
      · simp only [Prod.mk.injEq] at heq
        apply mergeInto_keeps
        simp [GoMap.lookup_store, heq.1, heq.2]
      · exact ih _ hn hmem
    · simp only [Context.mergeInto, hl] at hn ⊢
      by_cases hwm : w = m
      · simp only [hwm, ne_eq, not_true_eq_false, if_false] at hn ⊢
        rcases List.mem_cons.mp h with heq | hmem
        · simp only [Prod.mk.injEq] at heq
          apply mergeInto_keeps
          rw [heq.1, heq.2, hl, hwm]
        · exact ih _ hn hmem
      · simp [hwm] at hn

theorem mergeInto_union (other mine : GoMap String)
    (hn : (Context.mergeInto mine other).2 = none) (key v : String) :
    GoMap.lookup (Context.mergeInto mine other).1 key = some v
      ↔ GoMap.lookup mine key = some v ∨ GoMap.lookup other key = some v := by
  constructor
  · exact mergeInto_only other mine key v
  · rintro (h | h)
    · exact mergeInto_keeps other mine key v h
    · exact mergeInto_adds other mine key v hn (GoMap.mem_of_lookup other key v h)

theorem Merge_expansionToPrefix (a b : Context) :
    (a.Merge b).1.expansionToPrefixMappings
      = (Context.mergeInto a.expansionToPrefixMappings b.expansionToPrefixMappings).1 := by
  unfold Context.Merge
  rcases h : Context.mergeInto a.expansionToPrefixMappings b.expansionToPrefixMappings
    with ⟨e2p, _ | err⟩
  · rfl
  · rfl

theorem Merge_prefixToExpansion (a b : Context) :
    (a.Merge b).1.prefixToExpansionMappings
      = if (Context.mergeInto a.expansionToPrefixMappings b.expansionToPrefixMappings).2 = none
        then (Context.mergeInto a.prefixToExpansionMappings b.prefixToExpansionMappings).1
        else a.prefixToExpansionMappings := by
  unfold Context.Merge
  rcases h : Context.mergeInto a.expansionToPrefixMappings b.expansionToPrefixMappings
    with ⟨e2p, _ | err⟩
  · rfl
  · rfl

theorem Merge_error (a b : Context) :
    (a.Merge b).2
      = match (Context.mergeInto a.expansionToPrefixMappings b.expansionToPrefixMappings).2 with
        | some err => some err
        | none => (Context.mergeInto a.prefixToExpansionMappings b.prefixToExpansionMappings).2 := by
  unfold Context.Merge
  rcases h : Context.mergeInto a.expansionToPrefixMappings b.expansionToPrefixMappings
    with ⟨e2p, _ | err⟩
  · rfl
  · rfl

/-- Claim C12: for contexts `a` and `b` (the tables of `b` being Go maps, with one
entry for a key), `a.Merge(b)` returns an error exactly when some key is in both
prefix tables or in both expansion tables with different values; and when it
returns no error, each table of `a` afterwards holds exactly the entries it held
before and the entries of the corresponding table of `b`.  The other context is
only read: it is passed by value and `Merge` returns the receiver alone. -/
theorem Merge_error_iff_conflict (a b : Context)
    (hp : (GoMap.keys b.prefixToExpansionMappings).Nodup)
    (he : (GoMap.keys b.expansionToPrefixMappings).Nodup) :
    ((a.Merge b).2 ≠ none ↔
      (∃ key v w, GoMap.lookup a.prefixToExpansionMappings key = some v ∧
        GoMap.lookup b.prefixToExpansionMappings key = some w ∧ v ≠ w) ∨
      (∃ key v w, GoMap.lookup a.expansionToPrefixMappings key = some v ∧
        GoMap.lookup b.expansionToPrefixMappings key = some w ∧ v ≠ w)) ∧
    ((a.Merge b).2 = none → ∀ key v,
      (GoMap.lookup (a.Merge b).1.prefixToExpansionMappings key = some v ↔
        GoMap.lookup a.prefixToExpansionMappings key = some v ∨
        GoMap.lookup b.prefixToExpansionMappings key = some v) ∧
      (GoMap.lookup (a.Merge b).1.expansionToPrefixMappings key = some v ↔
        GoMap.lookup a.expansionToPrefixMappings key = some v ∨
        GoMap.lookup b.expansionToPrefixMappings key = some v)) := by
  have h1 := mergeInto_error_iff b.expansionToPrefixMappings a.expansionToPrefixMappings he
  have h2 := mergeInto_error_iff b.prefixToExpansionMappings a.prefixToExpansionMappings hp
  rw [Merge_error, Merge_expansionToPrefix, Merge_prefixToExpansion]
  rcases h : (Context.mergeInto a.expansionToPrefixMappings b.expansionToPrefixMappings).2
    with _ | err
  · rw [h] at h1
    simp only [ne_eq, not_true_eq_false, false_iff] at h1
    simp only [if_true]
    refine ⟨?_, ?_⟩
    · rw [h2]
      constructor
      · intro hc
        exact Or.inl hc
      · rintro (hc | hc)
        · exact hc
        · exact absurd hc h1
    · intro hn key v
      exact ⟨mergeInto_union _ _ hn key v, mergeInto_union _ _ h key v⟩
  · rw [h] at h1
    refine ⟨?_, ?_⟩
    · constructor
      · intro _
        exact Or.inr (h1.mp (by simp))
      · intro _
        simp
    · intro hn
      simp at hn

/-- Witness for `Merge_error_iff_conflict`: the contexts of the prefixes `a` and
`b`, with nothing in common. -/
theorem Merge_error_iff_conflict_witness :
    ((pairContext "a" "http://a/").Merge (pairContext "b" "http://b/")).2 = none ∧
    ((pairContext "a" "http://a/").Merge (pairContext "b" "http://b/")).1
      = ⟨[("a", "http://a/"), ("b", "http://b/")], [("http://a/", "a"), ("http://b/", "b")]⟩ ∧
    ∀ key v,
      (GoMap.lookup ((pairContext "a" "http://a/").Merge
          (pairContext "b" "http://b/")).1.prefixToExpansionMappings key = some v ↔
        GoMap.lookup (pairContext "a" "http://a/").prefixToExpansionMappings key = some v ∨
        GoMap.lookup (pairContext "b" "http://b/").prefixToExpansionMappings key = some v) ∧
      (GoMap.lookup ((pairContext "a" "http://a/").Merge
          (pairContext "b" "http://b/")).1.expansionToPrefixMappings key = some v ↔
        GoMap.lookup (pairContext "a" "http://a/").expansionToPrefixMappings key = some v ∨
        GoMap.lookup (pairContext "b" "http://b/").expansionToPrefixMappings key = some v) :=
  ⟨by decide, by decide,
    (Merge_error_iff_conflict (pairContext "a" "http://a/") (pairContext "b" "http://b/")
      (by decide) (by decide)).2 (by decide)⟩

/-- Counterexample to claim C13: `a` maps the prefix `p` to `http://a/` and `b` maps
it to `http://b/`.  The first loop of `a.Merge(b)` meets no conflict and adds the
entry `http://b/ ↦ p` of `b` to the expansion table of `a`; the second loop then
returns the error, and the added entry stays. -/
theorem Merge_error_mutates_counterexample :
    (pairContext "p" "http://a/").Merge (pairContext "p" "http://b/")
      = (⟨[("p", "http://a/")], [("http://a/", "p"), ("http://b/", "p")]⟩,
          some (GoError.New "p is already mapped to another value http://a/")) ∧
    (pairContext "p" "http://a/").expansionToPrefixMappings = [("http://a/", "p")] := by
  decide

/-- Claim C13 (as amended): whether or not `a.Merge(b)` returns an error, every
entry that a table of `a` held before the call is still there with the same value,
and every entry a table of `a` holds afterwards was either there before or is the
entry of the corresponding table of `b`: nothing is overwritten or removed, and
when the call returns an error entries of `b` may already have been added.  The
other context is only read. -/
theorem Merge_keeps_entries (a b : Context) (key v : String) :
    (GoMap.lookup a.prefixToExpansionMappings key = some v →
      GoMap.lookup (a.Merge b).1.prefixToExpansionMappings key = some v) ∧
    (GoMap.lookup a.expansionToPrefixMappings key = some v →
      GoMap.lookup (a.Merge b).1.expansionToPrefixMappings key = some v) ∧
    (GoMap.lookup (a.Merge b).1.prefixToExpansionMappings key = some v →
      GoMap.lookup a.prefixToExpansionMappings key = some v ∨
      GoMap.lookup b.prefixToExpansionMappings key = some v) ∧
    (GoMap.lookup (a.Merge b).1.expansionToPrefixMappings key = some v →
      GoMap.lookup a.expansionToPrefixMappings key = some v ∨
      GoMap.lookup b.expansionToPrefixMappings key = some v) := by
  rw [Merge_expansionToPrefix, Merge_prefixToExpansion]
  refine ⟨?_, mergeInto_keeps _ _ key v, ?_, mergeInto_only _ _ key v⟩
  · intro h
    split
    · exact mergeInto_keeps _ _ key v h
    · exact h
  · intro h
    split at h
    · exact mergeInto_only _ _ key v h
    · exact Or.inl h

/-- Witness for `Merge_keeps_entries`: the entry of `a` is kept by a call that
returns an error, both contexts mapping the prefix `p`. -/
theorem Merge_keeps_entries_witness :
    GoMap.lookup ((pairContext "p" "http://a/").Merge
      (pairContext "p" "http://b/")).1.expansionToPrefixMappings "http://a/" = some "p" :=
  (Merge_keeps_entries (pairContext "p" "http://a/") (pairContext "p" "http://b/")
    "http://a/" "p").2.1 (by decide)

/-! ## Sequences of stores -/

/-- A table filled by a sequence of assignments `m[f x] = g x` that never assigns
two values to a key holds exactly the assigned entries (and what it held before
under the other keys). -/
theorem GoMap.lookup_foldl_store {α : Type} (f g : α → String) (l : List α)
    (hfun : ∀ x ∈ l, ∀ y ∈ l, f x = f y → g x = g y) (acc : GoMap String) (key v : String) :
    GoMap.lookup (l.foldl (fun m x => GoMap.store m (f x) (g x)) acc) key = some v
      ↔ (∃ x ∈ l, f x = key ∧ g x = v) ∨ ((∀ x ∈ l, f x ≠ key) ∧ GoMap.lookup acc key = some v) := by
  induction l generalizing acc with
  | nil => simp
  | cons x0 l ih =>
    have hfun' : ∀ x ∈ l, ∀ y ∈ l, f x = f y → g x = g y :=
      fun x hx y hy => hfun x (List.mem_cons_of_mem _ hx) y (List.mem_cons_of_mem _ hy)
    rw [List.foldl_cons, ih hfun', GoMap.lookup_store]
    by_cases hk : f x0 = key
    · simp only [hk, if_true, Option.some.injEq, List.mem_cons, exists_eq_or_imp, true_and,
        forall_eq_or_imp, ne_eq, not_true_eq_false, false_and, or_false]
      constructor
      · rintro (h | ⟨_, h⟩)
        · exact Or.inr h
        · exact Or.inl h
      · rintro (h | h)
        · by_cases hex : ∃ x ∈ l, f x = key
          · obtain ⟨x, hx, hfx⟩ := hex
            refine Or.inl ⟨x, hx, hfx, ?_⟩
            rw [← h]
            exact hfun x (List.mem_cons_of_mem _ hx) x0 (List.mem_cons_self _ _) (hfx.trans hk.symm)
          · refine Or.inr ⟨?_, h⟩
            intro x hx hfx
            exact hex ⟨x, hx, hfx⟩
        · exact Or.inl h
    · simp only [hk, if_false, List.mem_cons, exists_eq_or_imp, false_and, false_or,
        forall_eq_or_imp, ne_eq, not_false_eq_true, true_and]

theorem GoMap.lookup_foldl_store_eq_none {α : Type} (f g : α → String) (l : List α)
    (acc : GoMap String) (key : String) :
    GoMap.lookup (l.foldl (fun m x => GoMap.store m (f x) (g x)) acc) key = none
      ↔ (∀ x ∈ l, f x ≠ key) ∧ GoMap.lookup acc key = none := by
  induction l generalizing acc with
  | nil => simp
  | cons x0 l ih =>
    rw [List.foldl_cons, ih, GoMap.lookup_store]
    by_cases hk : f x0 = key
    · simp [hk]
    · simp [hk]

theorem List.forall_ne_iff_not_mem_map {α : Type} (f : α → String) (l : List α) (key : String) :
    (∀ x ∈ l, f x ≠ key) ↔ key ∉ l.map f := by
  constructor
  · intro h hm
    obtain ⟨y, hy, hfy⟩ := List.mem_map.mp hm
    exact h y hy hfy
  · intro h y hy hq
    exact h (List.mem_map.mpr ⟨y, hy, hq⟩)

theorem storeAll_prefixToExpansion (calls : List (String × String)) :
    (storeAll calls).prefixToExpansionMappings
      = calls.foldl (fun m kv => GoMap.store m kv.1 kv.2) [] :=
  prefixToExpansion_foldl calls NewContext

theorem storeAll_expansionToPrefix (calls : List (String × String)) :
    (storeAll calls).expansionToPrefixMappings
      = calls.foldl (fun m kv => GoMap.store m kv.2 kv.1) [] :=
  expansionToPrefix_foldl calls NewContext

/-- Counterexample to claim C14: after `StorePrefixExpansionMapping("p", "http://a/")`
and then `StorePrefixExpansionMapping("p", "http://b/")` on a new context, the
expansion `http://a/` still maps to the prefix `p`, but `p` no longer maps to
`http://a/`. -/
theorem storeAll_lockstep_counterexample :
    GoMap.lookup (storeAll [("p", "http://a/"), ("p", "http://b/")]).expansionToPrefixMappings
        "http://a/" = some "p" ∧
    GoMap.lookup (storeAll [("p", "http://a/"), ("p", "http://b/")]).prefixToExpansionMappings
        "p" = some "http://b/" ∧
    ¬ (GoMap.lookup (storeAll [("p", "http://a/"), ("p", "http://b/")]).prefixToExpansionMappings
          "p" = some "http://a/" ↔
        GoMap.lookup (storeAll [("p", "http://a/"), ("p", "http://b/")]).expansionToPrefixMappings
          "http://a/" = some "p") := by
  decide

/-- Claim C14 (as amended): for every context reached from `NewContext()` by a
sequence of `StorePrefixExpansionMapping` calls in which no prefix is stored with
two different expansions and no expansion with two different prefixes (the same
pair may be stored again), the two tables are in lockstep: the prefix `p` maps to
`e` exactly when the expansion `e` maps to `p`. -/
theorem storeAll_lockstep (calls : List (String × String))
    (hcalls : ∀ x ∈ calls, ∀ y ∈ calls, x.1 = y.1 ↔ x.2 = y.2) (p e : String) :
    GoMap.lookup (storeAll calls).prefixToExpansionMappings p = some e
      ↔ GoMap.lookup (storeAll calls).expansionToPrefixMappings e = some p := by
  rw [storeAll_prefixToExpansion, storeAll_expansionToPrefix,
    GoMap.lookup_foldl_store Prod.fst Prod.snd calls (fun x hx y hy => (hcalls x hx y hy).mp),
    GoMap.lookup_foldl_store Prod.snd Prod.fst calls (fun x hx y hy => (hcalls x hx y hy).mpr)]
  simp only [GoMap.lookup, and_false, or_false, reduceCtorEq]
  constructor
  · rintro ⟨x, hx, h1, h2⟩
    exact ⟨x, hx, h2, h1⟩
  · rintro ⟨x, hx, h1, h2⟩
    exact ⟨x, hx, h2, h1⟩

/-- Witness for `storeAll_lockstep`: two pairs, the first stored twice. -/
theorem storeAll_lockstep_witness :
    GoMap.lookup (storeAll [("a", "http://a/"), ("b", "http://b/"),
        ("a", "http://a/")]).prefixToExpansionMappings "a" = some "http://a/"
      ↔ GoMap.lookup (storeAll [("a", "http://a/"), ("b", "http://b/"),
        ("a", "http://a/")]).expansionToPrefixMappings "http://a/" = some "a" :=
  storeAll_lockstep [("a", "http://a/"), ("b", "http://b/"), ("a", "http://a/")]
    (by decide) "a" "http://a/"

/-! ## Looking up what was stored -/

/-- Claim C15: for every context, prefix `p` and expansion `e`, right after
`StorePrefixExpansionMapping(p, e)` the expansion of `p` is `e` and the prefix of
`e` is `p`, both without error; and on a context reached from `NewContext()` by a
sequence of stores, `GetNamespaceExpansionForPrefix(q)` returns its error exactly
when the prefix `q` was never stored, and `GetPrefixForExpansion(x)` returns its
error exactly when the expansion `x` was never stored. -/
theorem Get_after_Store (c : Context) (p e : String) (calls : List (String × String))
    (q x : String) :
    (c.StorePrefixExpansionMapping p e).GetNamespaceExpansionForPrefix p = Res.ok e ∧
    (c.StorePrefixExpansionMapping p e).GetPrefixForExpansion e = Res.ok p ∧
    ((storeAll calls).GetNamespaceExpansionForPrefix q
        = Res.error (GoError.New ("no expansion for prefix: " ++ q))
      ↔ q ∉ calls.map Prod.fst) ∧
    ((storeAll calls).GetPrefixForExpansion x
        = Res.error (GoError.New ("no expansion for prefix: " ++ x))
      ↔ x ∉ calls.map Prod.snd) := by
  refine ⟨?_, ?_, ?_, ?_⟩
  · simp [Context.GetNamespaceExpansionForPrefix, Context.StorePrefixExpansionMapping,
      GoMap.lookup_store]
  · simp [Context.GetPrefixForExpansion, Context.StorePrefixExpansionMapping,
      GoMap.lookup_store]
  · have h := GoMap.lookup_foldl_store_eq_none Prod.fst Prod.snd calls [] q
    rw [← storeAll_prefixToExpansion] at h
    unfold Context.GetNamespaceExpansionForPrefix
    rcases hl : GoMap.lookup (storeAll calls).prefixToExpansionMappings q with _ | v
    · rw [hl] at h
      simp only [true_iff] at h ⊢
      exact (List.forall_ne_iff_not_mem_map Prod.fst calls q).mp h.1
    · rw [hl] at h
      simp only [reduceCtorEq, false_iff] at h ⊢
      intro hq
      exact h ⟨(List.forall_ne_iff_not_mem_map Prod.fst calls q).mpr hq, rfl⟩
  · have h := GoMap.lookup_foldl_store_eq_none Prod.snd Prod.fst calls [] x
    rw [← storeAll_expansionToPrefix] at h
    unfold Context.GetPrefixForExpansion
    rcases hl : GoMap.lookup (storeAll calls).expansionToPrefixMappings x with _ | v
    · rw [hl] at h
      simp only [true_iff] at h ⊢
      exact (List.forall_ne_iff_not_mem_map Prod.snd calls x).mp h.1
    · rw [hl] at h
      simp only [reduceCtorEq, false_iff] at h ⊢
      intro hq
      exact h ⟨(List.forall_ne_iff_not_mem_map Prod.snd calls x).mpr hq, rfl⟩

/-! ## Geometries -/

theorem getReferenceValue_of_reference (e : Entity) (typeURI v : String)
    (h : GoMap.lookup e.References typeURI = some (Value.str v) ∨
      ∃ rest, GoMap.lookup e.References typeURI = some (Value.strs (v :: rest))) :
    EntityOf.getReferenceValue e typeURI = Res.ok v := by
  rcases h with h | ⟨rest, h⟩
  · simp [EntityOf.getReferenceValue, h]
  · simp [EntityOf.getReferenceValue, h]

/-- Claim C16: for every entity whose reference under the `geotype` predicate is the
`Point` type URI, or a list of references with that URI first, and whose
`coordinates` property is an array `cs`, `makeGeomentryFromEntity` returns without
error the geometry of type `Point` whose coordinates are `cs`. -/
theorem makeGeomentryFromEntity_point (e : Entity) (cs : List Value)
    (hgeo : GoMap.lookup e.References "http://data.mimiro.io/models/flatgeo/geotype"
        = some (Value.str "http://data.mimiro.io/models/flatgeo/Point") ∨
      ∃ rest, GoMap.lookup e.References "http://data.mimiro.io/models/flatgeo/geotype"
        = some (Value.strs ("http://data.mimiro.io/models/flatgeo/Point" :: rest)))
    (hcs : GoMap.lookup e.Properties "http://data.mimiro.io/models/flatgeo/coordinates"
        = some (Value.arr cs)) :
    makeGeomentryFromEntity e = Res.ok { Type_ := "Point", Coordinates := cs } := by
  simp [makeGeomentryFromEntity, getReferenceValue_of_reference e _ _ hgeo, hcs]

/-- Witness for `makeGeomentryFromEntity_point`: the coordinates `[1.0, 2.0]`. -/
theorem makeGeomentryFromEntity_point_witness :
    makeGeomentryFromEntity pointEntity
      = Res.ok { Type_ := "Point", Coordinates := [Value.num 1, Value.num 2] } :=
  makeGeomentryFromEntity_point pointEntity [Value.num 1, Value.num 2] (Or.inl rfl) rfl

/-- The pairwise walk over an array of even length `2 * n`: it ends without a
panic with `n` pairs, the pair `i` holding the elements `2 * i` and `2 * i + 1`,
and the pairs written out in order give back the array. -/
theorem polygonPairs_even (n : Nat) : ∀ c : List Value, c.length = 2 * n →
    ∃ pairs, polygonPairs c = Res.ok pairs ∧ pairs.length = n ∧
      (∀ i, i < n → ∃ x y, c.get? (2 * i) = some x ∧ c.get? (2 * i + 1) = some y ∧
        pairs.get? i = some (Value.arr [x, y])) ∧
      flattenPairs pairs = c := by
  induction n with
  | zero =>
    intro c hc
    have hnil : c = [] := List.length_eq_zero.mp (by simpa using hc)
    subst hnil
    exact ⟨[], rfl, rfl, fun i hi => absurd hi (Nat.not_lt_zero i), rfl⟩
  | succ n ih =>
    intro c hc
    rcases c with _ | ⟨c0, _ | ⟨c1, rest⟩⟩
    · simp at hc
    · simp only [List.length_singleton] at hc
      omega
    · obtain ⟨pairs, hp, hlen, hidx, hflat⟩ := ih rest (by
        simp only [List.length_cons] at hc
        omega)
      refine ⟨Value.arr [c0, c1] :: pairs, by simp [polygonPairs, hp], by simp [hlen], ?_, ?_⟩
      · intro i hi
        rcases i with _ | i
        · exact ⟨c0, c1, rfl, rfl, rfl⟩
        · obtain ⟨x, y, hx, hy, hxy⟩ := hidx i (by omega)
          refine ⟨x, y, ?_, ?_, ?_⟩
          · rw [show 2 * (i + 1) = 2 * i + 1 + 1 by ring]
            simpa using hx
          · rw [show 2 * (i + 1) + 1 = 2 * i + 1 + 1 + 1 by ring]
            simpa using hy
          · simpa using hxy
      · simp [flattenPairs, hflat]

/-- Claim C18: for every entity whose reference under the `geotype` predicate is the
`Polygon` type URI (or a list of references with that URI first) and whose
`coordinates` property is an array `c` of even length `2 * n`,
`makeGeomentryFromEntity` returns without error a geometry of type `Polygon` with
exactly `n` coordinates, the one at index `i` being the two-element list of
`c[2 * i]` and `c[2 * i + 1]`; the pairs written out in order give back `c`. -/
theorem makeGeomentryFromEntity_polygon (e : Entity) (c : List Value) (n : Nat)
    (hgeo : GoMap.lookup e.References "http://data.mimiro.io/models/flatgeo/geotype"
        = some (Value.str "http://data.mimiro.io/models/flatgeo/Polygon") ∨
      ∃ rest, GoMap.lookup e.References "http://data.mimiro.io/models/flatgeo/geotype"
        = some (Value.strs ("http://data.mimiro.io/models/flatgeo/Polygon" :: rest)))
    (hc : GoMap.lookup e.Properties "http://data.mimiro.io/models/flatgeo/coordinates"
        = some (Value.arr c))
    (hlen : c.length = 2 * n) :
    ∃ pairs, makeGeomentryFromEntity e = Res.ok { Type_ := "Polygon", Coordinates := pairs } ∧
      pairs.length = n ∧
      (∀ i, i < n → ∃ x y, c.get? (2 * i) = some x ∧ c.get? (2 * i + 1) = some y ∧
        pairs.get? i = some (Value.arr [x, y])) ∧
      flattenPairs pairs = c := by
  obtain ⟨pairs, hp, h1, h2, h3⟩ := polygonPairs_even n c hlen
  refine ⟨pairs, ?_, h1, h2, h3⟩
  have hne : ("http://data.mimiro.io/models/flatgeo/Polygon" : String)
      ≠ "http://data.mimiro.io/models/flatgeo/Point" := by decide
  simp [makeGeomentryFromEntity, getReferenceValue_of_reference e _ _ hgeo, hc, hp, hne]

/-- Witness for `makeGeomentryFromEntity_polygon`: six coordinates give three
pairs. -/
theorem makeGeomentryFromEntity_polygon_witness :
    ∃ pairs, makeGeomentryFromEntity polygonEntity
        = Res.ok { Type_ := "Polygon", Coordinates := pairs } ∧
      pairs.length = 3 ∧
      (∀ i, i < 3 → ∃ x y,
        [Value.num 0, Value.num 0, Value.num 1, Value.num 0, Value.num 1,
          Value.num 1].get? (2 * i) = some x ∧
        [Value.num 0, Value.num 0, Value.num 1, Value.num 0, Value.num 1,
          Value.num 1].get? (2 * i + 1) = some y ∧
        pairs.get? i = some (Value.arr [x, y])) ∧
      flattenPairs pairs
        = [Value.num 0, Value.num 0, Value.num 1, Value.num 0, Value.num 1, Value.num 1] :=
  makeGeomentryFromEntity_polygon polygonEntity
    [Value.num 0, Value.num 0, Value.num 1, Value.num 0, Value.num 1, Value.num 1] 3
    (Or.inr ⟨[], rfl⟩) rfl rfl

/-! ## Entities without a known geometry type -/

/-- The geometry type `makeGeomentryFromEntity` compares: the reference value, or
the empty string when `getReferenceValue` returns its error. -/
theorem makeGeomentryFromEntity_unknown (e : Entity)
    (hpoint : EntityOf.getReferenceValue e "http://data.mimiro.io/models/flatgeo/geotype"
      ≠ Res.ok "http://data.mimiro.io/models/flatgeo/Point")
    (hpolygon : EntityOf.getReferenceValue e "http://data.mimiro.io/models/flatgeo/geotype"
      ≠ Res.ok "http://data.mimiro.io/models/flatgeo/Polygon") :
    ∃ geometryType, makeGeomentryFromEntity e
      = Res.error (GoError.New ("unknown geometry type: " ++ geometryType)) := by
  have hne1 : ("" : String) ≠ "http://data.mimiro.io/models/flatgeo/Point" := by decide
  have hne2 : ("" : String) ≠ "http://data.mimiro.io/models/flatgeo/Polygon" := by decide
  rcases h : EntityOf.getReferenceValue e "http://data.mimiro.io/models/flatgeo/geotype"
    with v | err | m | _
  · rw [h] at hpoint hpolygon
    have h1 : v ≠ "http://data.mimiro.io/models/flatgeo/Point" := fun hv => hpoint (by rw [hv])
    have h2 : v ≠ "http://data.mimiro.io/models/flatgeo/Polygon" := fun hv => hpolygon (by rw [hv])
    exact ⟨v, by simp [makeGeomentryFromEntity, h, h1, h2]⟩
  · exact ⟨"", by simp [makeGeomentryFromEntity, h, hne1, hne2]⟩
  · exact ⟨"", by simp [makeGeomentryFromEntity, h, hne1, hne2]⟩
  · exact ⟨"", by simp [makeGeomentryFromEntity, h, hne1, hne2]⟩

/-- The feature of an entity without a known geometry type has no geometry, and
the projection returns it when no entity of the collection makes
`makeGeomentryFromEntity` panic. -/
theorem convertToFeatures_unknown_geometry (ec : EntityCollection) (stripPropertyUrls : Bool)
    (c : Continuation) (hc : ec.Continuation = some c) (e : Entity) (he : e ∈ ec.Entities)
    (hpoint : EntityOf.getReferenceValue e "http://data.mimiro.io/models/flatgeo/geotype"
      ≠ Res.ok "http://data.mimiro.io/models/flatgeo/Point")
    (hpolygon : EntityOf.getReferenceValue e "http://data.mimiro.io/models/flatgeo/geotype"
      ≠ Res.ok "http://data.mimiro.io/models/flatgeo/Polygon")
    (hg : ∀ e ∈ ec.Entities, ∀ m, makeGeomentryFromEntity e ≠ Res.panic m) :
    ∃ items, convertToFeatures ec stripPropertyUrls = Res.ok items ∧
      Item.feature
        { Id := e.ID, Type_ := "Feature", BoundingBox := [], Geometry := none,
          Properties :=
            e.Properties.foldl (fun props kv => GoMap.store props (stripUrl kv.1) kv.2) [],
          AssetType := "", AssetLink := "", IsDeleted := e.IsDeleted } ∈ items := by
  obtain ⟨fs, hfs, hall⟩ :=
    appendFeatures_of_no_panic ec.Entities [Item.marker [("id", Value.str "@context")]] hg
  obtain ⟨gt, hgt⟩ := makeGeomentryFromEntity_unknown e hpoint hpolygon
  have hmem : ∀ (es : List Entity) (fs : List Feature),
      List.Forall₂ (fun e f => featureOfEntity e = Res.ok f) es fs → e ∈ es →
      ∃ f ∈ fs, featureOfEntity e = Res.ok f := by
    intro es fs hall
    induction hall with
    | nil => intro h; simp at h
    | cons hf _ ih =>
      intro h
      rcases List.mem_cons.mp h with rfl | h
      · exact ⟨_, List.mem_cons_self _ _, hf⟩
      · obtain ⟨f, hf1, hf2⟩ := ih h
        exact ⟨f, List.mem_cons_of_mem _ hf1, hf2⟩
  obtain ⟨f, hf1, hf2⟩ := hmem _ _ hall he
  simp only [featureOfEntity, hgt, Res.ok.injEq] at hf2
  have hstore : GoMap.store ([] : GoMap Value) "id" (Value.str "@context")
      = [("id", Value.str "@context")] := rfl
  simp only [convertToFeatures, hstore, hfs, hc]
  split
  · refine ⟨_, rfl, ?_⟩
    rw [hf2]
    simp only [List.mem_append, List.mem_map]
    exact Or.inl (Or.inr ⟨f, hf1, rfl⟩)
  · refine ⟨_, rfl, ?_⟩
    rw [hf2]
    simp only [List.mem_append, List.mem_map]
    exact Or.inr ⟨f, hf1, rfl⟩

/-- Claim C17, at the failing input.  The entity `colorEntity` has no `geotype`
reference and `makeGeomentryFromEntity` returns the error `unknown geometry type`
for it; but in a collection (with a continuation) that also holds a polygon with
an odd number of coordinates, `convertToFeatures` does not return a sequence: the
walk over the coordinates of the polygon reads past their end and panics. -/
theorem convertToFeatures_unknown_geometry_panic :
    makeGeomentryFromEntity colorEntity = Res.error (GoError.New "unknown geometry type: ") ∧
    colorEntity ∈ unknownAndOddPolygon.Entities ∧
    unknownAndOddPolygon.Continuation = some ⟨"t1"⟩ ∧
    convertToFeatures unknownAndOddPolygon false = Res.panic "index out of range" ∧
    convertToFeatures unknownAndOddPolygon true = Res.panic "index out of range" :=
  ⟨rfl, List.mem_cons_self _ _, rfl, rfl, rfl⟩

/-! ## Streams that end early, and elements that are not objects -/

/-- The element loop over complete elements followed by any further tokens: each
element takes one round of the loop, and the loop goes on with the tokens that
follow, the entities appended and the continuation token set. -/
theorem parseLoop_elements_then (ctx : Context) (elements : List Element)
    (hel : ∀ members, Element.entity members ∈ elements →
      ∃ e, entityOfObject ctx (JSON.obj members) = some e ∧ e.ID ≠ "@continuation")
    (tail : List Token) :
    ∀ (esp : EntityParser) (fuel : Nat), esp.entityCollection.Context = ctx →
      (JSON.tokensList (elements.map Element.json)).length ≤ fuel →
      parseLoop (fuel + elements.length) esp EntityParser.emitEntity
          (JSON.tokensList (elements.map Element.json) ++ tail)
        = parseLoop fuel
            ⟨{ Context := ctx,
               Entities := esp.entityCollection.Entities ++ entitiesOf ctx elements,
               Continuation :=
                match lastContinuationToken elements with
                | some token => some ⟨token⟩
                | none => esp.entityCollection.Continuation }⟩
            EntityParser.emitEntity tail := by
  induction elements with
  | nil =>
    intro esp fuel hctx hfuel
    obtain ⟨⟨c, es, k⟩⟩ := esp
    simp only at hctx
    subst hctx
    simp [JSON.tokensList, entitiesOf, lastContinuationToken]
  | cons el els ih =>
    intro esp fuel hctx hfuel
    have ih' := ih (fun members hm => hel members (List.mem_cons_of_mem _ hm))
    rw [List.length_cons, ← Nat.add_assoc]
    cases el with
    | continuation token =>
      simp only [List.map_cons, JSON.tokensList, Element.json, JSON.tokens, JSON.tokensFields,
        List.length_cons, List.length_append, List.cons_append, List.nil_append,
        List.append_assoc, List.singleton_append, List.length_nil] at hfuel ⊢
      obtain ⟨m, hm⟩ : ∃ m, fuel + els.length = m + 3 := ⟨fuel + els.length - 3, by omega⟩
      rw [hm]
      simp only [parseLoop, if_true, parseEntity_continuationObject, EntityParser.emitEntity,
        GoMap.lookup]
      rw [← hm]
      refine Eq.trans (ih' _ fuel hctx (by omega)) ?_
      simp only [entitiesOf, lastContinuationToken, List.filterMap_cons]
      cases h : (List.filterMap (fun el =>
          match el with
          | Element.continuation token => some token
          | Element.entity _ => none) els).getLast? with
      | none =>
        have hnil := List.getLast?_eq_none_iff.mp h
        simp [hnil]
      | some t =>
        have : (token :: List.filterMap (fun el =>
            match el with
            | Element.continuation token => some token
            | Element.entity _ => none) els).getLast? = some t := by
          rw [List.getLast?_cons, h]
          rfl
        simp [this]
    | entity members =>
      obtain ⟨e, he, hid⟩ := hel members (List.mem_cons_self _ _)
      simp only [List.map_cons, JSON.tokensList, Element.json, JSON.tokens,
        List.length_cons, List.length_append, List.cons_append, List.nil_append,
        List.append_assoc, List.singleton_append, List.length_nil] at hfuel ⊢
      have hpe := parseEntity_of_entityOfObject ctx members e he (fuel + els.length)
        (JSON.tokensList (els.map Element.json) ++ tail)
        (by simp only [objectBody, List.length_append, List.length_singleton]; omega)
      simp only [parseLoop, if_true, hctx, hpe, EntityParser.emitEntity, hid, if_false]
      refine Eq.trans (ih' _ fuel rfl (by omega)) ?_
      simp [entitiesOf, lastContinuationToken, he]

/-- The result of `Parse` for a stream that opens the array, declares the context
and holds complete elements, followed by any further tokens: the element loop
reaches these tokens with the entities and the continuation of the elements. -/
theorem Parse_elements_then (esp : EntityParser) (ns : List (String × String))
    (elements : List Element) (tail : List Token)
    (hel : ∀ members, Element.entity members ∈ elements →
      ∃ e, entityOfObject (declaredContext ns) (JSON.obj members) = some e ∧
        e.ID ≠ "@continuation") :
    ∃ fuel, tail.length < fuel ∧
      esp.Parse (Token.delim Delim.lbrack :: ((contextDecl (namespacesJSON ns)).tokens ++
          (JSON.tokensList (elements.map Element.json) ++ tail)))
        = parseLoop fuel
            ⟨{ Context := declaredContext ns,
               Entities :=
                esp.entityCollection.Entities ++ entitiesOf (declaredContext ns) elements,
               Continuation :=
                match lastContinuationToken elements with
                | some token => some ⟨token⟩
                | none => esp.entityCollection.Continuation }⟩
            EntityParser.emitEntity tail := by
  have hlen : elements.length ≤ (JSON.tokensList (elements.map Element.json)).length := by
    induction elements with
    | nil => simp
    | cons el els ih =>
      have ih' := ih (fun members hm => hel members (List.mem_cons_of_mem _ hm))
      have hpos := JSON.tokens_length_pos (Element.json el)
      simp only [List.map_cons, JSON.tokensList, List.length_append, List.length_cons]
      omega
  have hfuel : ∃ fuel, 2 * (Token.delim Delim.lbrack :: ((contextDecl (namespacesJSON ns)).tokens ++
      (JSON.tokensList (elements.map Element.json) ++ tail))).length + 2
        = fuel + elements.length ∧
      (JSON.tokensList (elements.map Element.json)).length ≤ fuel ∧ tail.length < fuel := by
    refine ⟨2 * (Token.delim Delim.lbrack :: ((contextDecl (namespacesJSON ns)).tokens ++
      (JSON.tokensList (elements.map Element.json) ++ tail))).length + 2 - elements.length,
      ?_, ?_, ?_⟩
    all_goals
      simp only [List.length_cons, List.length_append]
      omega
  obtain ⟨fuel, h1, h2, h3⟩ := hfuel
  refine ⟨fuel, h3, ?_⟩
  rw [EntityParser.Parse, parse_contextDecl _ _ _ _ _ (by
    simp only [List.length_cons, List.length_append]; omega), h1]
  exact parseLoop_elements_then (declaredContext ns) elements hel tail _ fuel rfl h2

/-! ## A panic does not depend on the tokens that follow

The functions that read references never panic; a call of the other parser
functions that panics does so again when more fuel is given and more tokens
follow the ones it was given. -/

theorem produceCanonicalURI_ne_panic (ctx : Context) (value m : String) :
    produceCanonicalURI ctx value ≠ Res.panic m := by
  rcases produceCanonicalURI_ok_or_error ctx value with ⟨id, h⟩ | ⟨err, h⟩ <;> simp [h]

theorem parseRefArrayLoop_ne_panic (ctx : Context) (m : String) :
    ∀ (n : Nat) (array : List String) (ts : List Token),
      parseRefArrayLoop n ctx array ts ≠ Res.panic m := by
  intro n
  induction n with
  | zero => intro array ts; simp [parseRefArrayLoop]
  | succ n ih =>
    intro array ts
    rcases ts with _ | ⟨t, ts⟩
    · simp [parseRefArrayLoop]
    rcases t with d | s | f | b | _
    · cases d <;> simp only [parseRefArrayLoop, reduceCtorEq, ↓reduceIte]
      · exact ih _ _
      · simp
      · exact ih _ _
      · exact ih _ _
    · rcases produceCanonicalURI_ok_or_error ctx s with ⟨id, hid⟩ | ⟨e, he⟩
      · simp only [parseRefArrayLoop, hid]
        exact ih _ _
      · simp [parseRefArrayLoop, he]
    all_goals simp [parseRefArrayLoop]

theorem parseRefValue_ne_panic (ctx : Context) (m : String) :
    ∀ (n : Nat) (ts : List Token), parseRefValue n ctx ts ≠ Res.panic m := by
  intro n
  induction n with
  | zero => intro ts; simp [parseRefValue]
  | succ n ih =>
    intro ts
    rcases ts with _ | ⟨t, ts⟩
    · simp [parseRefValue]
    rcases t with d | s | f | b | _
    · cases d <;> simp only [parseRefValue, parseRefArray, reduceCtorEq, ↓reduceIte]
      · have hsub := parseRefArrayLoop_ne_panic ctx m n [] ts
        rcases hres : parseRefArrayLoop n ctx [] ts with ⟨a, r⟩ | e | m2 | _
        · simp
        · simp
        · rw [hres] at hsub
          simpa using hsub
        · simp
      · exact ih _
      · exact ih _
      · exact ih _
    · rcases produceCanonicalURI_ok_or_error ctx s with ⟨id, hid⟩ | ⟨e, he⟩
      · simp [parseRefValue, hid]
      · simp [parseRefValue, he]
    all_goals simp [parseRefValue]

theorem parseReferencesLoop_ne_panic (ctx : Context) (m : String) :
    ∀ (n : Nat) (refs : GoMap Value) (ts : List Token),
      parseReferencesLoop n ctx refs ts ≠ Res.panic m := by
  intro n
  induction n with
  | zero => intro refs ts; simp [parseReferencesLoop]
  | succ n ih =>
    intro refs ts
    rcases ts with _ | ⟨t, ts⟩
    · simp [parseReferencesLoop]
    rcases t with d | s | f | b | _
    · cases d <;> simp only [parseReferencesLoop, reduceCtorEq, ↓reduceIte]
      · exact ih _ _
      · exact ih _ _
      · exact ih _ _
      · simp
    · have hsub := parseRefValue_ne_panic ctx m n ts
      simp only [parseReferencesLoop]
      rcases hres : parseRefValue n ctx ts with ⟨a, r⟩ | e | m2 | _
      · simp only
        rcases produceCanonicalURI_ok_or_error ctx s with ⟨id, hid⟩ | ⟨e, he⟩
        · simp only [hid]
          exact ih _ _
        · simp [he]
      · simp
      · rw [hres] at hsub
        simpa using hsub
      · simp
    all_goals simp [parseReferencesLoop]

theorem parseReferences_ne_panic (ctx : Context) (m : String) (n : Nat) (ts : List Token) :
    parseReferences n ctx ts ≠ Res.panic m := by
  rcases ts with _ | ⟨t, ts⟩
  · simp [parseReferences]
  · exact parseReferencesLoop_ne_panic ctx m n [] ts

/-- The four mutually recursive parser functions: a call with fuel `n` on `ts`
that panics also panics, with the same message, with fuel `n + k` on
`ts ++ r`. -/
theorem parse_panic_frame_mutual (k : Nat) (r : List Token) (ctx : Context) (n : Nat) :
    (∀ (ts : List Token) (m : String),
      parseValue n ctx ts = Res.panic m →
      parseValue (n + k) ctx (ts ++ r) = Res.panic m) ∧
    (∀ (array : List Value) (ts : List Token) (m : String),
      parseArrayLoop n ctx array ts = Res.panic m →
      parseArrayLoop (n + k) ctx array (ts ++ r) = Res.panic m) ∧
    (∀ (props : GoMap Value) (ts : List Token) (m : String),
      parsePropertiesLoop n ctx props ts = Res.panic m →
      parsePropertiesLoop (n + k) ctx props (ts ++ r) = Res.panic m) ∧
    (∀ (e : Entity) (c : Bool) (ts : List Token) (m : String),
      parseEntityLoop n ctx e c ts = Res.panic m →
      parseEntityLoop (n + k) ctx e c (ts ++ r) = Res.panic m) := by
  induction n with
  | zero =>
    refine ⟨?_, ?_, ?_, ?_⟩
    · intro ts m h; simp [parseValue] at h
    · intro array ts m h; simp [parseArrayLoop] at h
    · intro props ts m h; simp [parsePropertiesLoop] at h
    · intro e c ts m h; simp [parseEntityLoop] at h
  | succ n ih =>
    obtain ⟨ihV, ihA, ihP, ihE⟩ := ih
    obtain ⟨fV, fA, fP, fE⟩ := parse_frame_mutual k r ctx n
    rw [Nat.add_right_comm]
    refine ⟨?_, ?_, ?_, ?_⟩
    · -- parseValue
      intro ts m h
      rcases ts with _ | ⟨t, ts⟩
      · simp [parseValue] at h
      rcases t with d | s | f | b | _
      · cases d <;>
          simp only [parseValue, List.cons_append, List.append_eq, reduceCtorEq,
            ↓reduceIte] at h ⊢
        · split at h
          · simp at h
          · simp at h
          · rename_i heq
            rw [ihA _ _ _ heq]
            exact h
          · simp at h
        · exact ihV _ _ h
        · split at h
          · simp at h
          · simp at h
          · rename_i heq
            rw [ihE _ _ _ _ heq]
            exact h
          · simp at h
        · exact ihV _ _ h
      all_goals simp [parseValue] at h
    · -- parseArrayLoop
      intro array ts m h
      rcases ts with _ | ⟨t, ts⟩
      · simp [parseArrayLoop] at h
      rcases t with d | s | f | b | _
      · cases d <;>
          simp only [parseArrayLoop, List.cons_append, List.append_eq, reduceCtorEq,
            ↓reduceIte] at h ⊢
        · split at h
          · rename_i heq
            rw [fA _ _ _ _ heq]
            exact ihA _ _ _ h
          · simp at h
          · rename_i heq
            rw [ihA _ _ _ heq]
            exact h
          · simp at h
        · split at h
          · rename_i heq
            rw [fE _ _ _ _ _ heq]
            exact ihA _ _ _ h
          · simp at h
          · rename_i heq
            rw [ihE _ _ _ _ heq]
            exact h
          · simp at h
        · exact ihA _ _ _ h
      · simp only [parseArrayLoop, List.cons_append, List.append_eq] at h ⊢
        exact ihA _ _ _ h
      · simp only [parseArrayLoop, List.cons_append, List.append_eq] at h ⊢
        exact ihA _ _ _ h
      · simp only [parseArrayLoop, List.cons_append, List.append_eq] at h ⊢
        exact ihA _ _ _ h
      · simp [parseArrayLoop] at h
    · -- parsePropertiesLoop
      intro props ts m h
      rcases ts with _ | ⟨t, ts⟩
      · simp [parsePropertiesLoop] at h
      rcases t with d | s | f | b | _
      · cases d <;>
          simp only [parsePropertiesLoop, List.cons_append, List.append_eq, reduceCtorEq,
            ↓reduceIte] at h ⊢
        · exact ihP _ _ _ h
        · exact ihP _ _ _ h
        · exact ihP _ _ _ h
      · simp only [parsePropertiesLoop, List.cons_append, List.append_eq] at h ⊢
        split at h
        · rename_i heq
          rw [fV _ _ _ heq]
          exact ihP _ _ _ h
        · rename_i val rest hnil heq
          rw [fV _ _ _ heq]
          split at h
          · rename_i id hid
            have hgoal := ihP _ _ _ h
            cases val
            · exact absurd rfl hnil
            all_goals (simp only [hid]; exact hgoal)
          · simp at h
          · rename_i m2 hid
            exact absurd hid (produceCanonicalURI_ne_panic ctx s m2)
          · simp at h
        · simp at h
        · rename_i heq
          rw [ihV _ _ heq]
          exact h
        · simp at h
      all_goals simp [parsePropertiesLoop] at h
    · -- parseEntityLoop
      intro e c ts m h
      rcases ts with _ | ⟨t, ts⟩
      · simp [parseEntityLoop] at h
      rcases t with d | s | f | b | _
      · cases d <;>
          simp only [parseEntityLoop, List.cons_append, List.append_eq, reduceCtorEq,
            ↓reduceIte] at h ⊢
        · exact ihE _ _ _ _ h
        · exact ihE _ _ _ _ h
        · exact ihE _ _ _ _ h
      · simp only [parseEntityLoop] at h ⊢
        by_cases h1 : s = "id"
        · rw [if_pos h1] at h ⊢
          rcases ts with _ | ⟨t2, ts2⟩
          · simp at h
          rcases t2 with d | s2 | f | b | _
          · simp only [List.cons_append, List.append_eq] at h ⊢
            exact h
          · simp only [List.cons_append, List.append_eq] at h ⊢
            split at h
            · rename_i hc
              rw [if_pos hc]
              exact ihE _ _ _ _ h
            · rename_i hc
              rw [if_neg hc]
              split at h
              · exact ihE _ _ _ _ h
              · simp at h
              · rename_i m2 hid
                exact absurd hid (produceCanonicalURI_ne_panic ctx s2 m2)
              · simp at h
          all_goals
            simp only [List.cons_append, List.append_eq] at h ⊢
            exact h
        rw [if_neg h1] at h ⊢
        by_cases h2 : s = "recorded"
        · rw [if_pos h2] at h ⊢
          rcases ts with _ | ⟨t2, ts2⟩
          · simp at h
          rcases t2 with d | s2 | f | b | _
          · simp only [List.cons_append, List.append_eq] at h ⊢
            exact h
          · simp only [List.cons_append, List.append_eq] at h ⊢
            exact h
          · simp only [List.cons_append, List.append_eq] at h ⊢
            exact ihE _ _ _ _ h
          all_goals
            simp only [List.cons_append, List.append_eq] at h ⊢
            exact h
        rw [if_neg h2] at h ⊢
        by_cases h3 : s = "deleted"
        · rw [if_pos h3] at h ⊢
          rcases ts with _ | ⟨t2, ts2⟩
          · simp at h
          rcases t2 with d | s2 | f | b | _
          · simp only [List.cons_append, List.append_eq] at h ⊢
            exact h
          · simp only [List.cons_append, List.append_eq] at h ⊢
            exact h
          · simp only [List.cons_append, List.append_eq] at h ⊢
            exact h
          · simp only [List.cons_append, List.append_eq] at h ⊢
            exact ihE _ _ _ _ h
          · simp only [List.cons_append, List.append_eq] at h ⊢
            exact h
        rw [if_neg h3] at h ⊢
        by_cases h4 : s = "props"
        · rw [if_pos h4] at h ⊢
          rcases ts with _ | ⟨t2, ts2⟩
          · simp at h
          simp only [List.cons_append, List.append_eq] at h ⊢
          split at h
          · rename_i heq
            rw [fP _ _ _ _ heq]
            exact ihE _ _ _ _ h
          · simp at h
          · rename_i heq
            rw [ihP _ _ _ heq]
            exact h
          · simp at h
        rw [if_neg h4] at h ⊢
        by_cases h5 : s = "refs"
        · rw [if_pos h5] at h ⊢
          simp only [List.cons_append, List.append_eq] at h ⊢
          split at h
          · rename_i heq
            rw [parseReferences_frame k r ctx _ _ _ _ heq]
            exact ihE _ _ _ _ h
          · simp at h
          · rename_i m2 heq
            exact absurd heq (parseReferences_ne_panic ctx m2 n _)
          · simp at h
        rw [if_neg h5] at h ⊢
        by_cases h6 : s = "token"
        · rw [if_pos h6] at h ⊢
          split at h
          · simp at h
          · rename_i hc
            rw [if_neg hc]
            rcases ts with _ | ⟨t2, ts2⟩
            · simp at h
            simp only [List.cons_append, List.append_eq] at h ⊢
            exact ihE _ _ _ _ h
        rw [if_neg h6] at h ⊢
        rcases ts with _ | ⟨t2, ts2⟩
        · simp at h
        simp only [List.cons_append, List.append_eq] at h ⊢
        exact ihE _ _ _ _ h
      all_goals simp [parseEntityLoop] at h

theorem parseEntity_panic_frame (k : Nat) (r : List Token) (ctx : Context) (n : Nat)
    (ts : List Token) (m : String) (h : parseEntity n ctx ts = Res.panic m) :
    parseEntity (n + k) ctx (ts ++ r) = Res.panic m :=
  (parse_panic_frame_mutual k r ctx n).2.2.2 emptyEntity false ts m h

/-- An object that `parseEntity` reads exactly up to its closing brace gives an
error when the tokens end before the brace. -/
theorem parseEntity_truncated (ctx : Context) (n : Nat) (body : List Token) (e : Entity)
    (hread : parseEntity n ctx body = Res.ok (e, [])) (pre suf : List Token)
    (hsplit : body = pre ++ suf) (hsuf : suf ≠ []) (fuel : Nat) (hfuel : pre.length < fuel) :
    ∃ err, parseEntity fuel ctx pre = Res.error err := by
  have hfull : parseEntity (fuel + n) ctx (pre ++ suf) = Res.ok (e, []) := by
    have h := parseEntity_frame fuel [] ctx n body e [] hread
    rw [List.append_nil, hsplit, Nat.add_comm] at h
    exact h
  have hprog := (parse_progress_mutual ctx fuel).2.2.2 emptyEntity false pre hfuel
  rcases hres : parseEntity fuel ctx pre with ⟨e2, rest⟩ | err | m | _
  · have h := parseEntity_frame n suf ctx fuel pre e2 rest hres
    rw [hfull] at h
    simp only [Res.ok.injEq, Prod.mk.injEq] at h
    have hnil := h.2
    simp only [List.nil_eq, List.append_eq_nil] at hnil
    exact absurd hnil.2 hsuf
  · exact ⟨err, rfl⟩
  · have h := parseEntity_panic_frame n suf ctx fuel pre m hres
    rw [hfull] at h
    cases h
  · simp only [parseEntity] at hres
    rw [hres] at hprog
    exact hprog.elim

/-- An element that is a continuation object or an entity object of the grammar is
read by `parseEntity` exactly up to its closing brace. -/
theorem parseEntity_element (ctx : Context) (el : Element)
    (hel : ∀ members, el = Element.entity members → areEntityMembers ctx members = true) :
    ∃ n body e, (Element.json el).tokens = Token.delim Delim.lbrace :: body ∧
      parseEntity n ctx body = Res.ok (e, []) := by
  cases el with
  | continuation token =>
    exact ⟨3, _, _, by simp [Element.json, JSON.tokens, JSON.tokensFields],
      parseEntity_continuationObject 0 ctx token []⟩
  | entity members =>
    obtain ⟨e, he, -⟩ := entityOfObject_of_areEntityMembers ctx members (hel members rfl)
    refine ⟨(objectBody members).length, objectBody members, e,
      by simp [Element.json, JSON.tokens, objectBody], ?_⟩
    simp only [entityOfObject] at he
    split at he
    · rename_i e2 heq
      simp only [Option.some.injEq] at he
      rw [heq, he]
    · simp at he

/-- Counterexample to claim C19: the stream opens the array, declares the context
and holds the two complete entity objects `a` and `b`, and ends there, with no
closing bracket.  `Parse` returns no error, with the two entities: the end of the
input leaves the loop over the elements. -/
theorem Parse_truncated_between_entities_counterexample :
    NewEntityParser.Parse
        (Token.delim Delim.lbrack ::
          (xContextDecl.tokens ++ ((JSON.obj [("id", JSON.str "a")]).tokens ++
            (JSON.obj [("id", JSON.str "b")]).tokens)))
      = Outcome.returned
          ⟨{ Context := xContext,
             Entities :=
              [{ emptyEntity with ID := "http://x/a" }, { emptyEntity with ID := "http://x/b" }],
             Continuation := none }⟩
          none ∧
    Token.delim Delim.rbrack ∉
      xContextDecl.tokens ++ ((JSON.obj [("id", JSON.str "a")]).tokens ++
        (JSON.obj [("id", JSON.str "b")]).tokens) := by
  refine ⟨rfl, ?_⟩
  decide

/-- Claim C19 (as amended): take a stream that opens the array, declares the
context with string expansions and holds complete elements (continuation objects
or entity objects of the grammar), with no closing bracket.  If the stream ends
there, at the boundary of an element, `Parse` returns no error, with the entities
and the continuation token read so far.  If it goes on with a further element
and ends inside it, after its opening brace and before its closing brace,
`Parse` returns an error, `Unable to parse entity`, with the same collection. -/
theorem Parse_truncated (esp : EntityParser) (ns : List (String × String))
    (elements : List Element) (last : Element) (pre suf : List Token)
    (hel : ∀ members, Element.entity members ∈ last :: elements →
      areEntityMembers (declaredContext ns) members = true)
    (hsplit : (Element.json last).tokens = pre ++ suf) (hpre : pre ≠ []) (hsuf : suf ≠ []) :
    esp.Parse (Token.delim Delim.lbrack :: ((contextDecl (namespacesJSON ns)).tokens ++
        JSON.tokensList (elements.map Element.json)))
      = Outcome.returned
          ⟨{ Context := declaredContext ns,
             Entities :=
              esp.entityCollection.Entities ++ entitiesOf (declaredContext ns) elements,
             Continuation :=
              match lastContinuationToken elements with
              | some token => some ⟨token⟩
              | none => esp.entityCollection.Continuation }⟩
          none ∧
    ∃ err,
      esp.Parse (Token.delim Delim.lbrack :: ((contextDecl (namespacesJSON ns)).tokens ++
          (JSON.tokensList (elements.map Element.json) ++ pre)))
        = Outcome.returned
            ⟨{ Context := declaredContext ns,
               Entities :=
                esp.entityCollection.Entities ++ entitiesOf (declaredContext ns) elements,
               Continuation :=
                match lastContinuationToken elements with
                | some token => some ⟨token⟩
                | none => esp.entityCollection.Continuation }⟩
            (some (GoError.Wrap "parsing error: Unable to parse entity: %w" err)) := by
  have hel' : ∀ members, Element.entity members ∈ elements →
      ∃ e, entityOfObject (declaredContext ns) (JSON.obj members) = some e ∧
        e.ID ≠ "@continuation" :=
    fun members hm =>
      entityOfObject_of_areEntityMembers (declaredContext ns) members
        (hel members (List.mem_cons_of_mem _ hm))
  refine ⟨?_, ?_⟩
  · obtain ⟨fuel, hfuel, h⟩ := Parse_elements_then esp ns elements [] hel'
    rw [List.append_nil] at h
    rw [h]
    obtain ⟨n, rfl⟩ : ∃ n, fuel = n + 1 := ⟨fuel - 1, by omega⟩
    rfl
  · obtain ⟨fuel, hfuel, h⟩ := Parse_elements_then esp ns elements pre hel'
    rw [h]
    obtain ⟨n, body, e, htok, hread⟩ := parseEntity_element (declaredContext ns) last
      (fun members hm => hel members (hm ▸ List.mem_cons_self _ _))
    rw [htok] at hsplit
    rcases pre with _ | ⟨t, pre2⟩
    · exact absurd rfl hpre
    simp only [List.cons_append, List.cons.injEq] at hsplit
    obtain ⟨ht, hbody⟩ := hsplit
    subst ht
    obtain ⟨m, rfl⟩ : ∃ m, fuel = m + 1 := ⟨fuel - 1, by omega⟩
    obtain ⟨err, herr⟩ := parseEntity_truncated (declaredContext ns) n body e hread pre2 suf
      hbody hsuf m (by simp only [List.length_cons] at hfuel; omega)
    exact ⟨err, by simp only [parseLoop, if_true, herr]⟩

/-- Witness for `Parse_truncated`: after the entity `a`, the stream ends inside the
entity object `b`, after the key `id`. -/
theorem Parse_truncated_witness :
    NewEntityParser.Parse (Token.delim Delim.lbrack ::
        ((contextDecl (namespacesJSON [("_", "http://x/")])).tokens ++
          JSON.tokensList ([Element.entity [("id", JSON.str "a")]].map Element.json)))
      = Outcome.returned
          ⟨{ Context := declaredContext [("_", "http://x/")],
             Entities :=
              NewEntityParser.entityCollection.Entities ++
                entitiesOf (declaredContext [("_", "http://x/")])
                  [Element.entity [("id", JSON.str "a")]],
             Continuation :=
              match lastContinuationToken [Element.entity [("id", JSON.str "a")]] with
              | some token => some ⟨token⟩
              | none => NewEntityParser.entityCollection.Continuation }⟩
          none ∧
    ∃ err,
      NewEntityParser.Parse (Token.delim Delim.lbrack ::
          ((contextDecl (namespacesJSON [("_", "http://x/")])).tokens ++
            (JSON.tokensList ([Element.entity [("id", JSON.str "a")]].map Element.json) ++
              [Token.delim Delim.lbrace, Token.str "id"])))
        = Outcome.returned
            ⟨{ Context := declaredContext [("_", "http://x/")],
               Entities :=
                NewEntityParser.entityCollection.Entities ++
                  entitiesOf (declaredContext [("_", "http://x/")])
                    [Element.entity [("id", JSON.str "a")]],
               Continuation :=
                match lastContinuationToken [Element.entity [("id", JSON.str "a")]] with
                | some token => some ⟨token⟩
                | none => NewEntityParser.entityCollection.Continuation }⟩
            (some (GoError.Wrap "parsing error: Unable to parse entity: %w" err)) :=
  Parse_truncated NewEntityParser [("_", "http://x/")] [Element.entity [("id", JSON.str "a")]]
    (Element.entity [("id", JSON.str "b")]) [Token.delim Delim.lbrace, Token.str "id"]
    [Token.str "b", Token.delim Delim.rbrace]
    (by
      intro members hm
      simp only [List.mem_cons, Element.entity.injEq, List.mem_singleton, List.not_mem_nil,
        or_false] at hm
      rcases hm with rfl | rfl <;> rfl)
    rfl (by simp) (by simp)

/-! ## Elements that are not objects -/

/-- A string, number, boolean or `null` where an element is expected, after the
context declaration and complete elements, ends the parse with the error
`unexpected value in entity array`. -/
theorem Parse_scalar_element (esp : EntityParser) (ns : List (String × String))
    (elements : List Element) (t : Token) (rest : List Token)
    (hel : ∀ members, Element.entity members ∈ elements →
      areEntityMembers (declaredContext ns) members = true)
    (ht : ∀ d, t ≠ Token.delim d) :
    esp.Parse (Token.delim Delim.lbrack :: ((contextDecl (namespacesJSON ns)).tokens ++
        (JSON.tokensList (elements.map Element.json) ++ t :: rest)))
      = Outcome.returned
          ⟨{ Context := declaredContext ns,
             Entities :=
              esp.entityCollection.Entities ++ entitiesOf (declaredContext ns) elements,
             Continuation :=
              match lastContinuationToken elements with
              | some token => some ⟨token⟩
              | none => esp.entityCollection.Continuation }⟩
          (some (GoError.New "parsing error: unexpected value in entity array")) := by
  have hel' : ∀ members, Element.entity members ∈ elements →
      ∃ e, entityOfObject (declaredContext ns) (JSON.obj members) = some e ∧
        e.ID ≠ "@continuation" :=
    fun members hm =>
      entityOfObject_of_areEntityMembers (declaredContext ns) members (hel members hm)
  obtain ⟨fuel, hfuel, h⟩ := Parse_elements_then esp ns elements (t :: rest) hel'
  rw [h]
  obtain ⟨m, rfl⟩ : ∃ m, fuel = m + 1 := ⟨fuel - 1, by omega⟩
  cases t with
  | delim d => exact absurd rfl (ht d)
  | str s => rfl
  | num f => rfl
  | bool b => rfl
  | null => rfl

/-- Claim C20, at the failing input.  With an empty nested array after the context
declaration, `Parse` returns no error and no entity: the two brackets of the
nested array are delimiters other than an opening brace, which the loop passes
over.  A nested array that holds an object gives the entity of that object, as if
it were an element of the top-level array; and the closing bracket of the
top-level array does not end the parse, an object after it is read as one more
entity. -/
theorem Parse_nested_array_element :
    NewEntityParser.Parse (document [xContextDecl, JSON.arr []])
      = Outcome.returned ⟨{ Context := xContext, Entities := [], Continuation := none }⟩ none ∧
    NewEntityParser.Parse (document [xContextDecl, JSON.arr [JSON.obj [("id", JSON.str "a")]]])
      = Outcome.returned
          ⟨{ Context := xContext,
             Entities := [{ emptyEntity with ID := "http://x/a" }],
             Continuation := none }⟩
          none ∧
    NewEntityParser.Parse (document [xContextDecl] ++ (JSON.obj [("id", JSON.str "a")]).tokens)
      = Outcome.returned
          ⟨{ Context := xContext,
             Entities := [{ emptyEntity with ID := "http://x/a" }],
             Continuation := none }⟩
          none :=
  ⟨rfl, rfl, rfl⟩

/-! ## Polygons with an odd number of coordinates -/

/-- The pairwise walk over an array of odd length reads past its end. -/
theorem polygonPairs_odd (n : Nat) : ∀ c : List Value, c.length = 2 * n + 1 →
    polygonPairs c = Res.panic "index out of range" := by
  induction n with
  | zero =>
    intro c hc
    rcases c with _ | ⟨c0, _ | ⟨c1, rest⟩⟩
    · simp at hc
    · rfl
    · simp at hc
  | succ n ih =>
    intro c hc
    rcases c with _ | ⟨c0, _ | ⟨c1, rest⟩⟩
    · simp at hc
    · simp only [List.length_singleton] at hc
      omega
    · have hrest := ih rest (by
        simp only [List.length_cons] at hc
        omega)
      simp [polygonPairs, hrest]

/-- Claim C22: for every entity whose reference under the `geotype` predicate is the
`Polygon` type URI (or a list of references with that URI first) and whose
`coordinates` property is an array `c`: when the length of `c` is odd,
`makeGeomentryFromEntity` returns neither a geometry nor an error, the walk over
the pairs panics on the index past the end; and it returns a geometry exactly
when the length of `c` is even. -/
theorem makeGeomentryFromEntity_polygon_odd (e : Entity) (c : List Value)
    (hgeo : GoMap.lookup e.References "http://data.mimiro.io/models/flatgeo/geotype"
        = some (Value.str "http://data.mimiro.io/models/flatgeo/Polygon") ∨
      ∃ rest, GoMap.lookup e.References "http://data.mimiro.io/models/flatgeo/geotype"
        = some (Value.strs ("http://data.mimiro.io/models/flatgeo/Polygon" :: rest)))
    (hc : GoMap.lookup e.Properties "http://data.mimiro.io/models/flatgeo/coordinates"
        = some (Value.arr c)) :
    (c.length % 2 = 1 → makeGeomentryFromEntity e = Res.panic "index out of range") ∧
    ((∃ g, makeGeomentryFromEntity e = Res.ok g) ↔ c.length % 2 = 0) := by
  have hne : ("http://data.mimiro.io/models/flatgeo/Polygon" : String)
      ≠ "http://data.mimiro.io/models/flatgeo/Point" := by decide
  have hval : makeGeomentryFromEntity e =
      match polygonPairs c with
      | Res.ok pairs => Res.ok { Type_ := "Polygon", Coordinates := pairs }
      | Res.error err => Res.error err
      | Res.panic m => Res.panic m
      | Res.outOfFuel => Res.outOfFuel := by
    simp [makeGeomentryFromEntity, getReferenceValue_of_reference e _ _ hgeo, hc, hne]
  have hodd : c.length % 2 = 1 → makeGeomentryFromEntity e = Res.panic "index out of range" := by
    intro h
    rw [hval, polygonPairs_odd (c.length / 2) c (by omega)]
  refine ⟨hodd, ?_, ?_⟩
  · rintro ⟨g, hg⟩
    rcases Nat.mod_two_eq_zero_or_one c.length with h | h
    · exact h
    · rw [hodd h] at hg
      cases hg
  · intro h
    obtain ⟨pairs, hp, -⟩ := polygonPairs_even (c.length / 2) c (by omega)
    exact ⟨_, by rw [hval, hp]⟩

/-- Witness for `makeGeomentryFromEntity_polygon_odd`: a polygon with three
coordinates. -/
theorem makeGeomentryFromEntity_polygon_odd_witness :
    makeGeomentryFromEntity oddPolygonEntity = Res.panic "index out of range" :=
  (makeGeomentryFromEntity_polygon_odd oddPolygonEntity [Value.num 0, Value.num 0, Value.num 1]
    (Or.inl rfl) rfl).1 rfl

/-! ## Two documents on one parser -/

/-- Claim C21: take two documents of the grammar (a context declaration with string
expansions, then continuation objects and entity objects of the grammar).
`Parse` of the first and then `Parse` of the second on the same parser, without
`Reset`, both return no error, and the entity sequence after the second call is
the one after the first call followed by the entities a new parser returns for
the second document; the continuation is the one of the second document, or
still the one left by the first call when the second document has none.  With
`Reset` between the two calls, and for any input at all, `Parse` returns what it
returns on a new parser. -/
theorem Parse_twice (esp : EntityParser) (ns1 ns2 : List (String × String))
    (elements1 elements2 : List Element) (reader : List Token)
    (h1 : ∀ members, Element.entity members ∈ elements1 →
      areEntityMembers (declaredContext ns1) members = true)
    (h2 : ∀ members, Element.entity members ∈ elements2 →
      areEntityMembers (declaredContext ns2) members = true) :
    ∃ esp1 esp2 fresh2 : EntityParser,
      esp.Parse (document (contextDecl (namespacesJSON ns1) :: elements1.map Element.json))
        = Outcome.returned esp1 none ∧
      esp1.Parse (document (contextDecl (namespacesJSON ns2) :: elements2.map Element.json))
        = Outcome.returned esp2 none ∧
      NewEntityParser.Parse
          (document (contextDecl (namespacesJSON ns2) :: elements2.map Element.json))
        = Outcome.returned fresh2 none ∧
      esp1.entityCollection.Entities
        = esp.entityCollection.Entities ++ entitiesOf (declaredContext ns1) elements1 ∧
      fresh2.entityCollection.Entities = entitiesOf (declaredContext ns2) elements2 ∧
      esp2.entityCollection.Entities
        = esp1.entityCollection.Entities ++ fresh2.entityCollection.Entities ∧
      esp2.entityCollection.Continuation
        = (match fresh2.entityCollection.Continuation with
          | some c => some c
          | none => esp1.entityCollection.Continuation) ∧
      fresh2.entityCollection.Continuation
        = (lastContinuationToken elements2).map Continuation.mk ∧
      esp1.Reset.Parse
          (document (contextDecl (namespacesJSON ns2) :: elements2.map Element.json))
        = Outcome.returned fresh2 none ∧
      esp1.Reset.Parse reader = NewEntityParser.Parse reader := by
  have h1' : ∀ members, Element.entity members ∈ elements1 →
      ∃ e, entityOfObject (declaredContext ns1) (JSON.obj members) = some e ∧
        e.ID ≠ "@continuation" :=
    fun members hm =>
      entityOfObject_of_areEntityMembers (declaredContext ns1) members (h1 members hm)
  have h2' : ∀ members, Element.entity members ∈ elements2 →
      ∃ e, entityOfObject (declaredContext ns2) (JSON.obj members) = some e ∧
        e.ID ≠ "@continuation" :=
    fun members hm =>
      entityOfObject_of_areEntityMembers (declaredContext ns2) members (h2 members hm)
  refine ⟨_, _, _, Parse_elements esp ns1 elements1 h1', Parse_elements _ ns2 elements2 h2',
    Parse_elements NewEntityParser ns2 elements2 h2', rfl, ?_, ?_, ?_, ?_, ?_, rfl⟩
  · simp [NewEntityParser, NewEntityCollection]
  · simp [NewEntityParser, NewEntityCollection]
  · cases lastContinuationToken elements2 <;> simp [NewEntityParser, NewEntityCollection]
  · cases lastContinuationToken elements2 <;> simp [NewEntityParser, NewEntityCollection]
  · exact Parse_elements NewEntityParser ns2 elements2 h2'

/-- Witness for `Parse_twice`: on a new parser, first the document with the
entities `a` and `b` and the continuation tokens `t1` and `t2`, then a document
with the one entity `c` and no continuation. -/
theorem Parse_twice_witness :
    NewEntityParser.Parse
        (document (contextDecl (namespacesJSON [("_", "http://x/")]) ::
          pagedElements.map Element.json))
      = Outcome.returned
          ⟨{ Context := xContext,
             Entities :=
              [{ emptyEntity with ID := "http://x/a" },
               { emptyEntity with ID := "http://x/b", IsDeleted := true }],
             Continuation := some ⟨"t2"⟩ }⟩
          none ∧
    (⟨{ Context := xContext,
        Entities :=
          [{ emptyEntity with ID := "http://x/a" },
           { emptyEntity with ID := "http://x/b", IsDeleted := true }],
        Continuation := some ⟨"t2"⟩ }⟩ : EntityParser).Parse
        (document (contextDecl (namespacesJSON [("y", "http://y/")]) ::
          [Element.entity [("id", JSON.str "y:c")]].map Element.json))
      = Outcome.returned
          ⟨{ Context := declaredContext [("y", "http://y/")],
             Entities :=
              [{ emptyEntity with ID := "http://x/a" },
               { emptyEntity with ID := "http://x/b", IsDeleted := true },
               { emptyEntity with ID := "http://y/c" }],
             Continuation := some ⟨"t2"⟩ }⟩
          none ∧
    ∃ esp1 esp2 fresh2 : EntityParser,
      NewEntityParser.Parse
          (document (contextDecl (namespacesJSON [("_", "http://x/")]) ::
            pagedElements.map Element.json))
        = Outcome.returned esp1 none ∧
      esp1.Parse
          (document (contextDecl (namespacesJSON [("y", "http://y/")]) ::
            [Element.entity [("id", JSON.str "y:c")]].map Element.json))
        = Outcome.returned esp2 none ∧
      NewEntityParser.Parse
          (document (contextDecl (namespacesJSON [("y", "http://y/")]) ::
            [Element.entity [("id", JSON.str "y:c")]].map Element.json))
        = Outcome.returned fresh2 none ∧
      esp1.entityCollection.Entities
        = NewEntityParser.entityCollection.Entities ++
            entitiesOf (declaredContext [("_", "http://x/")]) pagedElements ∧
      fresh2.entityCollection.Entities
        = entitiesOf (declaredContext [("y", "http://y/")])
            [Element.entity [("id", JSON.str "y:c")]] ∧
      esp2.entityCollection.Entities
        = esp1.entityCollection.Entities ++ fresh2.entityCollection.Entities ∧
      esp2.entityCollection.Continuation
        = (match fresh2.entityCollection.Continuation with
          | some c => some c
          | none => esp1.entityCollection.Continuation) ∧
      fresh2.entityCollection.Continuation
        = (lastContinuationToken [Element.entity [("id", JSON.str "y:c")]]).map
            Continuation.mk ∧
      esp1.Reset.Parse
          (document (contextDecl (namespacesJSON [("y", "http://y/")]) ::
            [Element.entity [("id", JSON.str "y:c")]].map Element.json))
        = Outcome.returned fresh2 none ∧
      esp1.Reset.Parse [] = NewEntityParser.Parse [] :=
  ⟨rfl, rfl,
    Parse_twice NewEntityParser [("_", "http://x/")] [("y", "http://y/")] pagedElements
      [Element.entity [("id", JSON.str "y:c")]] []
      (by
        intro members hm
        simp only [pagedElements, List.mem_cons, Element.entity.injEq, reduceCtorEq,
          List.mem_singleton, false_or, or_false, List.not_mem_nil] at hm
        rcases hm with rfl | rfl <;> rfl)
      (by
        intro members hm
        simp only [List.mem_cons, Element.entity.injEq, List.mem_singleton, List.not_mem_nil,
          or_false] at hm
        subst hm
        rfl)⟩

/-- The callback of `Parse` on a parser that held `base`. -/
theorem emitEntity_after (base ec : EntityCollection) (e : Entity) :
    EntityParser.emitEntity ⟨base.after ec⟩ e
      = match EntityParser.emitEntity ⟨ec⟩ e with
        | Emitted.done esp err => Emitted.done ⟨base.after esp.entityCollection⟩ err
        | Emitted.panic m => Emitted.panic m := by
  unfold EntityParser.emitEntity
  split
  · split <;> simp [EntityCollection.after]
  · simp [EntityCollection.after]

/-- The element loop on a parser that held `base`: it does what it does on a
parser that held nothing, with the entities appended to the ones of `base`. -/
theorem parseLoop_after (base : EntityCollection) :
    ∀ (fuel : Nat) (ec : EntityCollection) (ts : List Token),
      parseLoop fuel ⟨base.after ec⟩ EntityParser.emitEntity ts
        = (parseLoop fuel ⟨ec⟩ EntityParser.emitEntity ts).after base := by
  intro fuel
  induction fuel with
  | zero => intro ec ts; rfl
  | succ n ih =>
    intro ec ts
    rcases ts with _ | ⟨t, ts⟩
    · rfl
    rcases t with d | s | f | b | _
    · cases d <;> simp only [parseLoop, reduceCtorEq, ↓reduceIte]
      · exact ih _ _
      · exact ih _ _
      · have hctx : (base.after ec).Context = ec.Context := rfl
        rw [hctx]
        rcases hres : parseEntity n ec.Context ts with ⟨e, rest⟩ | err | m | _
        · simp only [emitEntity_after]
          rcases hem : EntityParser.emitEntity ⟨ec⟩ e with ⟨⟨ec2⟩, _ | err⟩ | m
          · exact ih _ _
          · rfl
          · rfl
        · rfl
        · rfl
        · rfl
      · exact ih _ _
    all_goals rfl

/-- The function `parse` with the callbacks of `Parse`, on any parser: it returns an
error before the context is set, on a new parser too, or it does what it does on
a new parser with the entities appended to the ones the parser held. -/
theorem parse_after (fuel : Nat) (esp : EntityParser) (reader : List Token) :
    (∃ err,
      parse fuel esp EntityParser.emitEntity EntityParser.emitContext reader
        = Outcome.returned esp (some err) ∧
      parse fuel NewEntityParser EntityParser.emitEntity EntityParser.emitContext reader
        = Outcome.returned NewEntityParser (some err)) ∨
    parse fuel esp EntityParser.emitEntity EntityParser.emitContext reader
      = (parse fuel NewEntityParser EntityParser.emitEntity EntityParser.emitContext
          reader).after esp.entityCollection := by
  obtain ⟨⟨c0, es0, k0⟩⟩ := esp
  unfold parse
  rcases reader with _ | ⟨t, ts⟩
  · exact Or.inl ⟨_, rfl, rfl⟩
  simp only
  by_cases ht : t = Token.delim Delim.lbrack
  swap
  · simp only [ne_eq, ht, not_false_eq_true, if_true]
    exact Or.inl ⟨_, rfl, rfl⟩
  simp only [ne_eq, ht, not_true_eq_false, if_false]
  rcases hres : Decode fuel ts with ⟨context, rest⟩ | e | m | _
  · simp only
    rcases hid : GoMap.lookup context "id" with _ | j
    · exact Or.inl ⟨_, rfl, rfl⟩
    cases j with
    | str id =>
      simp only
      by_cases hctx : id = "@context"
      · simp only [hctx, if_true]
        rcases hns : GoMap.lookup context "namespaces" with _ | j2
        · exact Or.inr rfl
        cases j2 with
        | obj namespaces =>
          simp only
          rcases hst : storeNamespaces NewContext (decodeObject namespaces)
            with ctx | err | m | _
          · refine Or.inr ?_
            simp only [EntityParser.emitContext]
            have hstart : ({ Context := ctx, Entities := es0, Continuation := k0 }
                : EntityCollection)
                = EntityCollection.after ⟨c0, es0, k0⟩
                    { NewEntityParser.entityCollection with Context := ctx } := by
              simp [EntityCollection.after, NewEntityParser, NewEntityCollection]
            rw [hstart, parseLoop_after]
          · exact Or.inl ⟨_, rfl, rfl⟩
          · exact Or.inr rfl
          · exact Or.inr rfl
        | _ => exact Or.inr rfl
      · simp only [hctx, if_false]
        exact Or.inl ⟨_, rfl, rfl⟩
    | _ => exact Or.inl ⟨_, rfl, rfl⟩
  · exact Or.inl ⟨_, rfl, rfl⟩
  · exact Or.inr rfl
  · exact Or.inr rfl

/-- The result of `Parse` on any parser, from the result on a new parser: the same
error or panic, the entities appended to the ones the parser held, and the
continuation the parser held kept when the input sets none. -/
theorem Parse_after (esp : EntityParser) (reader : List Token) :
    match NewEntityParser.Parse reader with
    | Outcome.returned fresh err =>
      ∃ ctx, esp.Parse reader
        = Outcome.returned
            ⟨{ Context := ctx,
               Entities := esp.entityCollection.Entities ++ fresh.entityCollection.Entities,
               Continuation :=
                match fresh.entityCollection.Continuation with
                | some c => some c
                | none => esp.entityCollection.Continuation }⟩
            err
    | Outcome.panic m => esp.Parse reader = Outcome.panic m
    | Outcome.outOfFuel => esp.Parse reader = Outcome.outOfFuel := by
  unfold EntityParser.Parse
  rcases parse_after (2 * reader.length + 2) esp reader with ⟨err, h1, h2⟩ | h
  · rw [h1, h2]
    obtain ⟨⟨c0, es0, k0⟩⟩ := esp
    exact ⟨c0, by simp [NewEntityParser, NewEntityCollection]⟩
  · rw [h]
    rcases parse (2 * reader.length + 2) NewEntityParser EntityParser.emitEntity
        EntityParser.emitContext reader with ⟨fresh, err⟩ | m | _
    · exact ⟨fresh.entityCollection.Context, rfl⟩
    · rfl
    · rfl
